import Mathlib

/-!
# Verification of the parity account-state layer

A shallow embedding of the repository's buffered key-value store
(`util/src/kvdb.rs`), read-only trie (`util/src/trie/triedb.rs`) and `State`
object (`ethcore/src/state/mod.rs`), together with proofs about the claims of
the specification.

Conventions of the embedding:
* byte strings are `List Nat` (each entry one byte);
* 256-bit hashes and 160-bit addresses are `Nat`;
* Rust `RefCell`-style in-place mutation becomes explicit state passing;
* Rust `panic!` / `assert!` aborts become an explicit `Except` error channel;
* hash maps become either functions to `Option` or association lists,
  whichever matches how the source iterates them.
-/

namespace Parity

/-- Byte strings (`Bytes` in the source). -/
abbrev Bytes := List Nat

/-! ## Buffered key-value store (`util/src/kvdb.rs`) -/

/-- Overlay cell (`enum KeyState` in `kvdb.rs`). -/
inductive KeyState where
  | insert (value : Bytes)
  | insertCompressed (value : Bytes)
  | delete
deriving DecidableEq, Repr

/-- A batch operation (`enum DBOp` in `kvdb.rs`).  `col = none` is the
default (unnamed) column, `col = some c` the named column `c`. -/
inductive DBOp where
  | ins (col : Option Nat) (key : Bytes) (value : Bytes)
  | insCompressed (col : Option Nat) (key : Bytes) (value : Bytes)
  | del (col : Option Nat) (key : Bytes)
deriving DecidableEq, Repr

/-- A write transaction (`struct DBTransaction`): an ordered list of ops. -/
structure DBTransaction where
  ops : List DBOp
deriving DecidableEq, Repr

/-- `Database::to_overlay_column`: `col.map_or(0, |c| (c + 1) as usize)`. -/
def toOverlayColumn : Option Nat → Nat
  | none => 0
  | some c => c + 1

/-- The key-value database (`struct Database`).  `isOpen` models the
`RwLock<Option<DBAndColumns>>` handle (`none` = closed); `overlay` is the
per-overlay-column pending-write map (`Vec<HashMap<_, KeyState>>`), and
`disk` the flushed on-disk content per column. -/
structure Database where
  isOpen : Bool
  overlay : Nat → Bytes → Option KeyState
  disk : Option Nat → Bytes → Option Bytes

/-- Effect of one `DBOp` on the overlay
(one arm of the loop in `Database::write_buffered`). -/
def applyOpToOverlay (ov : Nat → Bytes → Option KeyState) :
    DBOp → Nat → Bytes → Option KeyState
  | .ins col key value => fun c k =>
      if c = toOverlayColumn col ∧ k = key then some (.insert value) else ov c k
  | .insCompressed col key value => fun c k =>
      if c = toOverlayColumn col ∧ k = key then some (.insertCompressed value) else ov c k
  | .del col key => fun c k =>
      if c = toOverlayColumn col ∧ k = key then some .delete else ov c k

/-- `Database::write_buffered`: apply all ops of the transaction to the
in-memory overlay, in order; never fails and does not touch the disk. -/
def Database.write_buffered (db : Database) (tr : DBTransaction) : Database :=
  { db with overlay := tr.ops.foldl applyOpToOverlay db.overlay }

/-- The value the flush loop in `Database::flush` puts in the batch for an
overlay cell of overlay column `c`.  Note the source's `KeyState::InsertCompressed`
arm: it computes `compressed` but for the default column (`c = 0`, the `else`
branch) passes the *raw* `value` to `batch.put`, while named columns
(`c > 0`) receive `compressed`.  `compress` models
`UntrustedRlp::new(&value).compress(RlpType::Blocks)`. -/
def flushCellValue (compress : Bytes → Bytes) (c : Nat) :
    KeyState → Option Bytes
  | .delete => none
  | .insert value => some value
  | .insertCompressed value =>
      if c > 0 then some (compress value) else some value

/-- `Database::flush`: when open, drain the whole overlay into one atomic
disk batch (rendered pointwise: the new disk cell of `(col, key)` is
determined by that key's overlay cell if any, else the old disk cell), and
clear the overlay.  When closed, fail with "Database is closed". -/
def Database.flush (compress : Bytes → Bytes) (db : Database) :
    Except String Database :=
  if db.isOpen then
    .ok { db with
      disk := fun col key =>
        match db.overlay (toOverlayColumn col) key with
        | some st => flushCellValue compress (toOverlayColumn col) st
        | none => db.disk col key,
      overlay := fun _ _ => none }
  else .error "Database is closed"

/-- Effect of one `DBOp` on the disk in `Database::write` (direct write
path).  Here `InsertCompressed` stores `compressed` for *both* the default
and named columns. -/
def applyOpToDisk (compress : Bytes → Bytes)
    (disk : Option Nat → Bytes → Option Bytes) :
    DBOp → Option Nat → Bytes → Option Bytes
  | .ins col key value => fun c k =>
      if c = col ∧ k = key then some value else disk c k
  | .insCompressed col key value => fun c k =>
      if c = col ∧ k = key then some (compress value) else disk c k
  | .del col key => fun c k =>
      if c = col ∧ k = key then none else disk c k

/-- `Database::write`: apply the transaction directly to disk as one batch;
fails when the database is closed. -/
def Database.write (compress : Bytes → Bytes) (db : Database)
    (tr : DBTransaction) : Except String Database :=
  if db.isOpen then
    .ok { db with disk := tr.ops.foldl (applyOpToDisk compress) db.disk }
  else .error "Database is closed"

/-- `Database::get`: overlay-first point lookup.  A closed database returns
`Ok(None)`. -/
def Database.get (db : Database) (col : Option Nat) (key : Bytes) :
    Except String (Option Bytes) :=
  if db.isOpen then
    match db.overlay (toOverlayColumn col) key with
    | some (.insert value) => .ok (some value)
    | some (.insertCompressed value) => .ok (some value)
    | some .delete => .ok none
    | none => .ok (db.disk col key)
  else .ok none

/-! ## Trie engine, read side (`util/src/trie/triedb.rs`) -/

/-- Trie-level errors (`TrieError` in the source, the two variants the
claims mention). -/
inductive TrieErr where
  | invalidStateRoot (h : Nat)
  | incompleteDatabase (h : Nat)
deriving DecidableEq, Repr

mutual
/-- A decoded trie node (`Node` in `util/src/trie/node.rs`): `Empty`,
`Leaf(path, value)`, `Extension(path, child)`, `Branch(children16, value)`.
Paths are nibble lists. -/
inductive TNode where
  | empty : TNode
  | leaf (path : List Nat) (value : Bytes) : TNode
  | ext (path : List Nat) (child : TRef) : TNode
  | branch (children : List TRef) (value : Option Bytes) : TNode

/-- A child reference, i.e. the raw RLP slice held by the parent: either an
inlined node (encoding < 32 bytes) or a 32-byte hash into the hash-addressed
store.  An absent branch child is `.inline .empty` (the raw RLP `0x80`). -/
inductive TRef where
  | inline (n : TNode) : TRef
  | hash (h : Nat) : TRef
end

/-- A value held in the hash-addressed store (`HashDB`): either trie-node
bytes (kept decoded in the model) or an opaque blob (contract code). -/
inductive HashDBVal where
  | node (n : TNode)
  | blob (b : Bytes)

/-- The hash-addressed backing store (`HashDB`), content hash to content. -/
abbrev HashDB := Nat → Option HashDBVal

/-- `HashDB::contains`. -/
def HashDB.containsKey (db : HashDB) (h : Nat) : Bool :=
  (db h).isSome

/-- Trie operations that diverge in the source (unbounded recursion through
a cyclic or degenerate backing store would overflow the stack) are modelled
by the `overflow` outcome; `err` carries the source's `TrieError`. -/
inductive TrieAbort where
  | err (e : TrieErr)
  | overflow
deriving DecidableEq, Repr

/-- `TrieDB::get_raw_or_lookup`: a child reference is either inlined node
RLP or a 32-byte hash; a hash that does not resolve in the backing store is
`IncompleteDatabase(hash)`. -/
def getRawOrLookup (db : HashDB) : TRef → Except TrieAbort TNode
  | .inline n => .ok n
  | .hash h =>
    match db h with
    | some (.node n) => .ok n
    | _ => .error (.err (.incompleteDatabase h))

/-- `TrieDB::get_from_node`: descend from `n` along the nibble `key`.
`fuel` bounds the recursion depth (the source recurses unboundedly; on a
well-formed trie the depth is at most `key.length + 1`). -/
def getFromNode (db : HashDB) : Nat → TNode → List Nat → Except TrieAbort (Option Bytes)
  | 0, _, _ => .error .overflow
  | _ + 1, .leaf slice value, key =>
    if key = slice then .ok (some value) else .ok none
  | fuel + 1, .ext slice item, key =>
    if slice.isPrefixOf key then do
      let data ← getRawOrLookup db item
      getFromNode db fuel data (key.drop slice.length)
    else .ok none
  | fuel + 1, .branch children value, key =>
    match key with
    | [] => .ok value
    | i :: rest => do
      let n ← getRawOrLookup db (children.getD i (.inline .empty))
      getFromNode db fuel n rest
  | _ + 1, .empty, _ => .ok none

/-- `TrieDB::root_data`: fetch the root node; a missing root is
`InvalidStateRoot(root)`. -/
def rootData (db : HashDB) (root : Nat) : Except TrieAbort TNode :=
  match db root with
  | some (.node n) => .ok n
  | _ => .error (.err (.invalidStateRoot root))

/-- A read-only trie handle (`struct TrieDB`: backing store plus root). -/
structure TrieDB where
  db : HashDB
  root : Nat

/-- `TrieDB::new`: fails with `InvalidStateRoot(root)` when the root is not
present in the backing store. -/
def TrieDB.new (db : HashDB) (root : Nat) : Except TrieErr TrieDB :=
  if db.containsKey root then .ok { db := db, root := root }
  else .error (.invalidStateRoot root)

/-- `TrieDB::do_lookup` (underlying `Trie::get`): fetch the root node and
descend along the key nibbles. -/
def TrieDB.lookup (t : TrieDB) (key : List Nat) : Except TrieAbort (Option Bytes) := do
  let rootRlp ← rootData t.db t.root
  getFromNode t.db (key.length + 1) rootRlp key

/-! ## Hashing and namespacing models

The repository consumes KECCAK-256 and the `AccountDB` address-salted view
of the hash store from collaborator crates that are not part of the four
source files; they are modelled here. -/

/-- Modelled from the spec: KECCAK-256 over arbitrary byte sequences
(`Hashing` collaborator interface).  Abstracted as a concrete injective
encoding of the byte string into a `Nat`; only injectivity and determinism
of the hash are relied upon. -/
def keccakBytes (b : Bytes) : Nat :=
  b.foldl (fun acc x => acc * 257 + x + 1) 0

/-- Modelled from the spec: the 64 hex nibbles of a 256-bit hash, as fed to
the secure trie (`Secure variant`: keys are first hashed, 32 bytes = 64
nibbles). -/
def hashNibbles (h : Nat) : List Nat :=
  (List.range 64).map fun i => h / 16 ^ (63 - i) % 16

/-- Modelled from the spec: `KECCAK(address)`, the account's hashed address
(`Account::address_hash`). -/
def addressHash (a : Nat) : Nat :=
  keccakBytes ((List.range 20).map fun i => a / 256 ^ (19 - i) % 256)

/-- Modelled from the spec: the `AccountDB` namespacing salt — "the hash
input is `KECCAK(address) || node_content_hash`".  Modelled as an injective
pairing of the address hash with the content hash. -/
def accountKey (addrHash h : Nat) : Nat :=
  Nat.pair addrHash h

/-- The `AccountDB` read-only view of the backing store for one account:
lookups are redirected through the address-salted key. -/
def accountDbView (db : HashDB) (addrHash : Nat) : HashDB :=
  fun h => db (accountKey addrHash h)

/-! ## Association lists

The source keeps the account cache and the checkpoint journals in
`HashMap`s which it also iterates (`commit_into`, `revert_snapshot`,
`clear_snapshot` drain them).  They are embedded as association lists; a
fixed list order stands in for the map's unspecified iteration order. -/

/-- Map lookup (`HashMap::get`). -/
def alGet {κ α : Type} [DecidableEq κ] (l : List (κ × α)) (k : κ) : Option α :=
  match l with
  | [] => none
  | (k', v) :: t => if k' = k then some v else alGet t k

/-- Map insert-or-replace (`HashMap::insert`). -/
def alSet {κ α : Type} [DecidableEq κ] (l : List (κ × α)) (k : κ) (v : α) : List (κ × α) :=
  match l with
  | [] => [(k, v)]
  | (k', v') :: t => if k' = k then (k, v) :: t else (k', v') :: alSet t k v

/-- Map removal (`HashMap::remove`; a map has at most one entry per key, so
dropping every entry with the key is the same operation). -/
def alRemove {κ α : Type} [DecidableEq κ] (l : List (κ × α)) (k : κ) : List (κ × α) :=
  l.filter fun p => p.1 ≠ k

/-- Pointwise function update, for the hash-addressed store. -/
def fupd {α : Type} (f : Nat → α) (x : Nat) (v : α) : Nat → α :=
  fun y => if y = x then v else f y

/-! ## Account (modelled from the spec)

`ethcore/src/state/account.rs` is declared (`mod account`) but is not among
the source files; the account record and its operations are modelled from
spec §3 (data model) and §4.3. -/

/-- Modelled from the spec: the distinguished `KECCAK("")` constant denoting
"no code". -/
def sha3Empty : Nat := keccakBytes []

/-- Modelled from the spec: per-address account record.  Persisted fields
are `nonce`, `balance`, `storageRoot`, `codeHash`; `codeCache`,
`storageOverlay`, `codeDirty` (the `code_state`) and `dirty` are transient
cache-only state. -/
structure Account where
  nonce : Nat
  balance : Nat
  storageRoot : Nat
  codeHash : Nat
  codeCache : Option Bytes
  storageOverlay : List (Nat × Nat)
  codeDirty : Bool
  dirty : Bool
deriving DecidableEq, Repr

/-- Modelled from the spec: the RLP of the persisted account fields
(`Account::rlp`); transient fields are never serialized. -/
def Account.rlp (a : Account) : Bytes :=
  [a.nonce, a.balance, a.storageRoot, a.codeHash]

mutual
/-- Modelled from the spec: node encoding, used only as hash input. -/
def encodeNode : TNode → Bytes
  | .empty => [0]
  | .leaf p v => 1 :: p.length :: (p ++ v.length :: v)
  | .ext p c => 2 :: p.length :: (p ++ encodeRef c)
  | .branch cs v => 3 :: (encodeRefs cs ++ (match v with | none => [0] | some b => 1 :: b.length :: b))
def encodeRef : TRef → Bytes
  | .inline n => 0 :: encodeNode n
  | .hash h => [1, h]
def encodeRefs : List TRef → Bytes
  | [] => []
  | r :: t => encodeRef r ++ encodeRefs t
end

/-- Hash of a node's encoding. -/
def hashNode (n : TNode) : Nat := keccakBytes (encodeNode n)

/-- Modelled from the spec: the canonical empty-trie root,
`KECCAK(RLP(Empty))` (`SHA3_NULL_RLP`). -/
def sha3NullRlp : Nat := hashNode .empty

/-- Modelled from the spec: a fresh contract account
(`Account::new_contract(balance, nonce)`); born dirty, with the empty-trie
storage root and the no-code hash. -/
def Account.newContract (balance nonce : Nat) : Account :=
  { nonce := nonce, balance := balance, storageRoot := sha3NullRlp,
    codeHash := sha3Empty, codeCache := none, storageOverlay := [],
    codeDirty := false, dirty := true }

/-- Modelled from the spec: a fresh basic account
(`Account::new_basic(balance, nonce)`). -/
def Account.newBasic (balance nonce : Nat) : Account :=
  Account.newContract balance nonce

/-- Modelled from the spec: decode a persisted account
(`Account::from_rlp`); transient fields start clean/empty. -/
def Account.fromRlp (b : Bytes) : Account :=
  { nonce := b.getD 0 0, balance := b.getD 1 0, storageRoot := b.getD 2 0,
    codeHash := b.getD 3 0, codeCache := none, storageOverlay := [],
    codeDirty := false, dirty := false }

/-- Modelled from the spec: each write marks the touched account dirty. -/
def Account.addBalance (x : Nat) (a : Account) : Account :=
  { a with balance := a.balance + x, dirty := true }

/-- Modelled from the spec (balance is wrap-free 256-bit; underflow is the
executor's programming error, rendered as truncated subtraction). -/
def Account.subBalance (x : Nat) (a : Account) : Account :=
  { a with balance := a.balance - x, dirty := true }

/-- Modelled from the spec: `inc_nonce`. -/
def Account.incNonce (a : Account) : Account :=
  { a with nonce := a.nonce + 1, dirty := true }

/-- Modelled from the spec: `set_storage` records the pending edit in the
storage overlay. -/
def Account.setStorage (k v : Nat) (a : Account) : Account :=
  { a with storageOverlay := alSet a.storageOverlay k v, dirty := true }

/-- Modelled from the spec: `init_code` caches the new code, marking the
code state dirty (the code hash is recomputed at commit). -/
def Account.initCode (c : Bytes) (a : Account) : Account :=
  { a with codeCache := some c, codeDirty := true, dirty := true }

/-- Modelled from the spec: `reset_code`. -/
def Account.resetCode (c : Bytes) (a : Account) : Account :=
  Account.initCode c a

/-- `Account::is_dirty`. -/
def Account.isDirty (a : Account) : Bool := a.dirty

/-- `Account::set_clean` (the `account.set_clean()` step of
`commit_into`). -/
def Account.setClean (a : Account) : Account := { a with dirty := false }

/-- Modelled from the spec: `Account::cache_code` — materialize the code
bytes from the (address-salted) hash store when there is code and it is not
cached yet; a missing blob leaves the cache unchanged. -/
def Account.cacheCode (db : HashDB) (addrHash : Nat) (a : Account) : Account :=
  if a.codeHash ≠ sha3Empty ∧ a.codeCache = none then
    match accountDbView db addrHash a.codeHash with
    | some (.blob b) => { a with codeCache := some b }
    | _ => a
  else a

/-- Modelled from the spec: `Account::code` — the cached bytes when known;
the empty string for a no-code account. -/
def Account.code (a : Account) : Option Bytes :=
  match a.codeCache with
  | some c => some c
  | none => if a.codeHash = sha3Empty then some [] else none

/-- The secure-trie key of a storage slot: nibbles of `KECCAK(key)`
(modelled from the spec's secure variant). -/
def storageKeyNibbles (k : Nat) : List Nat :=
  hashNibbles (keccakBytes ((List.range 32).map fun i => k / 256 ^ (31 - i) % 256))

/-- Modelled from the spec: `Account::storage_at` — the storage overlay is
consulted first, else the account's storage trie (secure keys) is
descended; the empty-trie root reads as the empty node. -/
def Account.storageAt (db : HashDB) (addrHash : Nat) (a : Account) (k : Nat) :
    Except TrieAbort Nat :=
  match alGet a.storageOverlay k with
  | some v => .ok v
  | none =>
    if a.storageRoot = sha3NullRlp then .ok 0
    else do
      let r ← TrieDB.lookup { db := accountDbView db addrHash, root := a.storageRoot }
        (storageKeyNibbles k)
      pure (match r with | none => 0 | some b => b.headD 0)

/-! ## State (`ethcore/src/state/mod.rs`) -/

/-- State-level aborts.  `panicked e` models
`panic!("Potential DB corruption encountered: {}", e)` in
`ensure_cached` / `require_or_from` (the process dies; the error is not
returned to the caller); `overflow` is the model artifact for the
unbounded trie descent. -/
inductive StAbort where
  | panicked (e : TrieErr)
  | overflow
deriving DecidableEq, Repr

/-- Map a trie-lookup outcome to the state level: a `TrieError` becomes the
`ensure_cached` panic. -/
def liftLookup {α : Type} : Except TrieAbort α → Except StAbort α
  | .ok v => .ok v
  | .error (.err e) => .error (.panicked e)
  | .error .overflow => .error .overflow

/-- The `State` object (`struct State`): backing store (as hash store),
current root, account cache `Address → Option<Account>` and the checkpoint
journal stack (`snapshots`), innermost layer first.  Journal cells have
type `Option<Option<Account>>`: the recorded prior cache cell. -/
structure StateS where
  db : HashDB
  root : Nat
  cache : List (Nat × Option Account)
  snapshots : List (List (Nat × Option (Option Account)))
  accountStartNonce : Nat

/-- `State::from_existing`: fails with `InvalidStateRoot(root)` when the
root does not resolve in the backing store. -/
def StateS.fromExisting (db : HashDB) (root : Nat) (accountStartNonce : Nat) :
    Except TrieErr StateS :=
  if ¬ db.containsKey root then .error (.invalidStateRoot root)
  else .ok { db := db, root := root, cache := [], snapshots := [],
             accountStartNonce := accountStartNonce }

/-- `State::snapshot`: push a fresh (empty) journal layer. -/
def StateS.snapshot (s : StateS) : StateS :=
  { s with snapshots := [] :: s.snapshots }

/-- `State::clear_snapshot`: pop the innermost layer; when another layer is
beneath, fold each entry into it via `prev.entry(k).or_insert(v)` (the
entry is kept only if `prev` has none for that key). -/
def StateS.clear_snapshot (s : StateS) : StateS :=
  match s.snapshots with
  | [] => s
  | top :: rest =>
    match rest with
    | [] => { s with snapshots := [] }
    | prev :: rest' =>
      { s with snapshots :=
          (top.foldl (fun p kv => if (alGet p kv.1).isSome then p else alSet p kv.1 kv.2) prev)
          :: rest' }

/-- `State::revert_snapshot`: pop the innermost layer and restore every
recorded cache cell (`Some(v)` re-inserts the prior cell, `None` removes
the address from the cache). -/
def StateS.revert_snapshot (s : StateS) : StateS :=
  match s.snapshots with
  | [] => s
  | top :: rest =>
    { s with
      snapshots := rest
      cache := top.foldl (fun c kv =>
        match kv.2 with
        | some v => alSet c kv.1 v
        | none => alRemove c kv.1) s.cache }

/-- `State::insert_cache`: when a checkpoint is open and the innermost
layer has no entry for the address, record the current cache cell there;
then overwrite the cache cell. -/
def StateS.insert_cache (s : StateS) (a : Nat) (acc : Option Account) : StateS :=
  match s.snapshots with
  | top :: rest =>
    if alGet top a = none then
      { s with snapshots := alSet top a (alGet s.cache a) :: rest,
               cache := alSet s.cache a acc }
    else { s with cache := alSet s.cache a acc }
  | [] => { s with cache := alSet s.cache a acc }

/-- `State::note_cache`: same journaling as `insert_cache` but without
changing the cache. -/
def StateS.note_cache (s : StateS) (a : Nat) : StateS :=
  match s.snapshots with
  | top :: rest =>
    if alGet top a = none then
      { s with snapshots := alSet top a (alGet s.cache a) :: rest }
    else s
  | [] => s

/-- The secure account-trie lookup performed on a cache miss
(`ensure_cached` / `require_or_from`): a `SecTrieDB` over `(db, root)`
queried at the hashed address. -/
def StateS.trieLookupAccount (s : StateS) (a : Nat) :
    Except TrieAbort (Option Bytes) :=
  TrieDB.lookup { db := s.db, root := s.root } (hashNibbles (addressHash a))

/-- `State::ensure_cached`, value side: the cache cell the closure `f` is
applied to (populating the code cache on the way when `require_code`).
An `Err` from the trie is the source's `panic!`. -/
def StateS.ensure_cached_val (s : StateS) (a : Nat) (requireCode : Bool) :
    Except StAbort (Option Account) := do
  let cell ← (match alGet s.cache a with
    | some cell => pure cell
    | none => do
      let r ← liftLookup (s.trieLookupAccount a)
      pure (r.map Account.fromRlp))
  pure (if requireCode then cell.map (Account.cacheCode s.db (addressHash a)) else cell)

/-- `State::exists`. -/
def StateS.existsAcct (s : StateS) (a : Nat) : Except StAbort Bool :=
  (s.ensure_cached_val a false).map Option.isSome

/-- `State::balance` (absent account reads zero). -/
def StateS.balance (s : StateS) (a : Nat) : Except StAbort Nat :=
  (s.ensure_cached_val a false).map (fun cell => (cell.map Account.balance).getD 0)

/-- `State::nonce` (absent account reads `account_start_nonce`). -/
def StateS.nonce (s : StateS) (a : Nat) : Except StAbort Nat :=
  (s.ensure_cached_val a false).map (fun cell => (cell.map Account.nonce).getD s.accountStartNonce)

/-- `State::storage_at` (absent account reads zero). -/
def StateS.storage_at (s : StateS) (a : Nat) (k : Nat) : Except StAbort Nat := do
  let cell ← s.ensure_cached_val a false
  match cell with
  | none => pure 0
  | some acc => liftLookup (acc.storageAt s.db (addressHash a) k)

/-- `State::code`. -/
def StateS.code (s : StateS) (a : Nat) : Except StAbort (Option Bytes) :=
  (s.ensure_cached_val a true).map (fun cell => cell.bind Account.code)

/-- See `require_mut` below; this is the post-lookup portion of
`require_or_from`: default a missing cell to `default`, cache the code if
`require_code`, and apply the caller's mutation `f` to the account. -/
def StateS.require_tail (s1 : StateS) (a : Nat) (requireCode : Bool)
    (default : Account) (f : Account → Account) : StateS :=
  let s2 := match alGet s1.cache a with
    | some none => { s1 with cache := alSet s1.cache a (some default) }
    | _ => s1
  match alGet s2.cache a with
  | some (some acc) =>
    let acc1 := if requireCode then Account.cacheCode s2.db (addressHash a) acc else acc
    { s2 with cache := alSet s2.cache a (some (f acc1)) }
  | _ => s2

/-- See `require_mut` below; this is the cache-population step: on a miss
look the account up in the trie (a trie `Err` panics) and `insert_cache`
the result, on a hit `note_cache` the current cell. -/
def StateS.require_head (s : StateS) (a : Nat) : Except StAbort StateS :=
  match alGet s.cache a with
  | some _ => pure (s.note_cache a)
  | none => do
    let r ← liftLookup (s.trieLookupAccount a)
    pure (s.insert_cache a (r.map Account.fromRlp))

/-- `State::require_or_from` followed by the caller's mutation of the
returned `RefMut<Account>`: on a cache miss, look the account up in the
trie (a trie `Err` panics) and `insert_cache` the result; on a hit,
`note_cache`; then default a missing cell to `default`, cache the code if
`require_code`, and apply the caller's mutation `f`.  (Every caller in the
source passes `|_|{}` for `not_default`.) -/
def StateS.require_mut (s : StateS) (a : Nat) (requireCode : Bool)
    (default : Account) (f : Account → Account) : Except StAbort StateS := do
  let s1 ← s.require_head a
  pure (s1.require_tail a requireCode default f)

/-- The mutations of spec §4.3 (the sequence `M` of the checkpoint
claims). -/
inductive Mut where
  | newContract (a bal : Nat)
  | killAccount (a : Nat)
  | addBalance (a n : Nat)
  | subBalance (a n : Nat)
  | transferBalance (a b n : Nat)
  | incNonce (a : Nat)
  | setStorage (a k v : Nat)
  | initCode (a : Nat) (c : Bytes)
  | resetCode (a : Nat) (c : Bytes)

/-- One `State` mutation, as implemented in the source
(`new_contract` / `kill_account` go through `insert_cache`; the balance,
nonce, storage and code writes go through `require` / `require_or_from`). -/
def StateS.execMut (s : StateS) : Mut → Except StAbort StateS
  | .newContract a bal =>
    pure (s.insert_cache a (some (Account.newContract bal s.accountStartNonce)))
  | .killAccount a => pure (s.insert_cache a none)
  | .addBalance a n =>
    s.require_mut a false (Account.newBasic 0 s.accountStartNonce) (Account.addBalance n)
  | .subBalance a n =>
    s.require_mut a false (Account.newBasic 0 s.accountStartNonce) (Account.subBalance n)
  | .transferBalance a b n => do
    let s1 ← s.require_mut a false (Account.newBasic 0 s.accountStartNonce) (Account.subBalance n)
    s1.require_mut b false (Account.newBasic 0 s1.accountStartNonce) (Account.addBalance n)
  | .incNonce a =>
    s.require_mut a false (Account.newBasic 0 s.accountStartNonce) Account.incNonce
  | .setStorage a k v =>
    s.require_mut a false (Account.newBasic 0 s.accountStartNonce) (Account.setStorage k v)
  | .initCode a c =>
    s.require_mut a true (Account.newContract 0 s.accountStartNonce) (Account.initCode c)
  | .resetCode a c =>
    s.require_mut a true (Account.newContract 0 s.accountStartNonce) (Account.resetCode c)

/-- A sequence of mutations, left to right. -/
def StateS.execMuts (s : StateS) (ms : List Mut) : Except StAbort StateS :=
  ms.foldlM StateS.execMut s

/-! ## Association-list lemmas -/

theorem alGet_set {κ α : Type} [DecidableEq κ] (l : List (κ × α)) (k k' : κ) (v : α) :
    alGet (alSet l k v) k' = if k = k' then some v else alGet l k' := by
  induction l with
  | nil => simp [alGet, alSet]
  | cons p t ih =>
    obtain ⟨pk, pv⟩ := p
    by_cases h : pk = k
    · subst h
      simp only [alSet, if_pos rfl, alGet]
      by_cases h' : pk = k' <;> simp [h', alGet]
    · simp only [alSet, if_neg h, alGet]
      by_cases h' : pk = k'
      · subst h'
        have : ¬ k = pk := fun he => h he.symm
        simp [this]
      · simp [h', ih]

theorem alGet_remove {κ α : Type} [DecidableEq κ] (l : List (κ × α)) (k k' : κ) :
    alGet (alRemove l k) k' = if k = k' then none else alGet l k' := by
  induction l with
  | nil => simp [alGet, alRemove]
  | cons p t ih =>
    obtain ⟨pk, pv⟩ := p
    by_cases h : pk = k
    · subst h
      have : alRemove ((pk, pv) :: t) pk = alRemove t pk := by
        simp [alRemove, List.filter_cons]
      rw [this, ih]
      by_cases h' : pk = k'
      · simp [h']
      · simp [h', alGet, if_neg h']
    · have : alRemove ((pk, pv) :: t) k = (pk, pv) :: alRemove t k := by
        simp [alRemove, List.filter_cons, h]
      rw [this]
      by_cases h' : pk = k'
      · subst h'
        have hne : ¬ k = pk := fun he => h he.symm
        simp [alGet, hne]
      · simp [alGet, h', ih]

theorem alGet_eq_none_of_not_mem {κ α : Type} [DecidableEq κ] (l : List (κ × α)) (k : κ)
    (h : k ∉ l.map Prod.fst) : alGet l k = none := by
  induction l with
  | nil => rfl
  | cons p t ih =>
    obtain ⟨pk, pv⟩ := p
    simp only [List.map_cons, List.mem_cons] at h
    push_neg at h
    have hne : ¬ pk = k := fun he => h.1 he.symm
    simp only [alGet, if_neg hne]
    exact ih h.2

theorem mem_keys_set {κ α : Type} [DecidableEq κ] (l : List (κ × α)) (k : κ) (v : α) (x : κ) :
    x ∈ (alSet l k v).map Prod.fst ↔ x ∈ l.map Prod.fst ∨ x = k := by
  induction l with
  | nil => simp [alSet]
  | cons p t ih =>
    obtain ⟨pk, pv⟩ := p
    by_cases h : pk = k
    · subst h
      simp [alSet]
      tauto
    · simp [alSet, h, ih]
      tauto

theorem keys_nodup_set {κ α : Type} [DecidableEq κ] (l : List (κ × α)) (k : κ) (v : α)
    (h : (l.map Prod.fst).Nodup) : ((alSet l k v).map Prod.fst).Nodup := by
  induction l with
  | nil => simp [alSet]
  | cons p t ih =>
    obtain ⟨pk, pv⟩ := p
    simp only [List.map_cons, List.nodup_cons] at h
    by_cases he : pk = k
    · subst he
      simpa [alSet, List.nodup_cons] using h
    · simp only [alSet, if_neg he, List.map_cons, List.nodup_cons]
      refine ⟨?_, ih h.2⟩
      intro hmem
      rw [mem_keys_set] at hmem
      rcases hmem with h1 | h1
      · exact h.1 h1
      · exact he h1

/-! ## Checkpoint journaling: invariant and preservation -/

/-- A checkpoint journal layer. -/
abbrev JLayer := List (Nat × Option (Option Account))

/-- Two states that agree on everything an observable read consults:
backing store, root, start nonce, and the cache as a map. -/
def SameView (s t : StateS) : Prop :=
  s.db = t.db ∧ s.root = t.root ∧ s.accountStartNonce = t.accountStartNonce ∧
  ∀ x, alGet s.cache x = alGet t.cache x

/-- Invariant tying the state `s` reached since `snapshot` was called on
`s0` to the innermost journal layer `top`: an address with a journal entry
had exactly the recorded cache cell at snapshot time, and an address
without one has an unchanged cache cell. -/
def JInv (s0 : StateS) (top : JLayer) (s : StateS) : Prop :=
  s.db = s0.db ∧ s.root = s0.root ∧ s.accountStartNonce = s0.accountStartNonce ∧
  s.snapshots = top :: s0.snapshots ∧
  (top.map Prod.fst).Nodup ∧
  ∀ a, (∀ p, alGet top a = some p → alGet s0.cache a = p) ∧
       (alGet top a = none → alGet s.cache a = alGet s0.cache a)

theorem jinv_snapshot (s0 : StateS) : JInv s0 [] s0.snapshot := by
  refine ⟨rfl, rfl, rfl, rfl, List.nodup_nil, fun a => ⟨fun p hp => ?_, fun _ => rfl⟩⟩
  simp [alGet] at hp

/-- The journal layer after `insert_cache` / `note_cache` touch address
`a` on a state whose cache cell there is `c`. -/
def touchedTop (top : JLayer) (a : Nat) (c : Option (Option Account)) : JLayer :=
  if alGet top a = none then alSet top a c else top

theorem alGet_touchedTop_ne_none (top : JLayer) (a : Nat) (c : Option (Option Account)) :
    alGet (touchedTop top a c) a ≠ none := by
  unfold touchedTop
  by_cases h : alGet top a = none
  · simp [h, alGet_set]
  · simp only [if_neg h]
    exact h

theorem jinv_insert_cache {s0 : StateS} {top : JLayer} {s : StateS}
    (h : JInv s0 top s) (a : Nat) (acc : Option Account) :
    JInv s0 (touchedTop top a (alGet s.cache a)) (s.insert_cache a acc) := by
  obtain ⟨hdb, hroot, hasn, hsnap, hnd, hj⟩ := h
  unfold StateS.insert_cache touchedTop
  rw [hsnap]
  by_cases hta : alGet top a = none
  · simp only [if_pos hta]
    refine ⟨hdb, hroot, hasn, rfl, keys_nodup_set _ _ _ hnd, fun x => ⟨?_, ?_⟩⟩
    · intro p hp
      rw [alGet_set] at hp
      by_cases hax : a = x
      · subst hax
        simp only [if_pos rfl] at hp
        cases hp
        exact ((hj a).2 hta).symm
      · rw [if_neg hax] at hp
        exact (hj x).1 p hp
    · intro hx
      rw [alGet_set] at hx
      by_cases hax : a = x
      · simp [hax] at hx
      · rw [if_neg hax] at hx
        rw [alGet_set, if_neg hax]
        exact (hj x).2 hx
  · simp only [if_neg hta]
    refine ⟨hdb, hroot, hasn, rfl, hnd, fun x => ⟨(hj x).1, fun hx => ?_⟩⟩
    have hax : ¬ a = x := fun he => hta (he ▸ hx)
    rw [alGet_set, if_neg hax]
    exact (hj x).2 hx

theorem jinv_note_cache {s0 : StateS} {top : JLayer} {s : StateS}
    (h : JInv s0 top s) (a : Nat) :
    JInv s0 (touchedTop top a (alGet s.cache a)) (s.note_cache a) := by
  obtain ⟨hdb, hroot, hasn, hsnap, hnd, hj⟩ := h
  unfold StateS.note_cache touchedTop
  rw [hsnap]
  by_cases hta : alGet top a = none
  · simp only [if_pos hta]
    refine ⟨hdb, hroot, hasn, rfl, keys_nodup_set _ _ _ hnd, fun x => ⟨?_, ?_⟩⟩
    · intro p hp
      rw [alGet_set] at hp
      by_cases hax : a = x
      · subst hax
        simp only [if_pos rfl] at hp
        cases hp
        exact ((hj a).2 hta).symm
      · rw [if_neg hax] at hp
        exact (hj x).1 p hp
    · intro hx
      rw [alGet_set] at hx
      by_cases hax : a = x
      · simp [hax] at hx
      · rw [if_neg hax] at hx
        exact (hj x).2 hx
  · simp only [if_neg hta]
    exact ⟨hdb, hroot, hasn, hsnap, hnd, hj⟩

theorem jinv_cache_set {s0 : StateS} {top : JLayer} {s : StateS}
    (h : JInv s0 top s) {a : Nat} (hja : alGet top a ≠ none) (v : Option Account) :
    JInv s0 top { s with cache := alSet s.cache a v } := by
  obtain ⟨hdb, hroot, hasn, hsnap, hnd, hj⟩ := h
  refine ⟨hdb, hroot, hasn, hsnap, hnd, fun x => ⟨(hj x).1, fun hx => ?_⟩⟩
  have hax : ¬ a = x := fun he => hja (he ▸ hx)
  rw [alGet_set, if_neg hax]
  exact (hj x).2 hx

theorem jinv_require_tail {s0 : StateS} {top1 : JLayer} {s1 : StateS}
    (h1 : JInv s0 top1 s1) {a : Nat} (hja : alGet top1 a ≠ none)
    (rc : Bool) (d : Account) (f : Account → Account) :
    JInv s0 top1 (s1.require_tail a rc d f) := by
  unfold StateS.require_tail
  rcases hc : alGet s1.cache a with _ | ⟨_ | acc⟩
  · simp only [hc]
    exact h1
  · simp only [hc]
    have h2 := jinv_cache_set h1 hja (some d)
    rcases hc2 : alGet (alSet s1.cache a (some d)) a with _ | ⟨_ | acc2⟩
    · simp only [hc2]
      exact h2
    · simp only [hc2]
      exact h2
    · simp only [hc2]
      exact jinv_cache_set h2 hja _
  · simp only [hc]
    exact jinv_cache_set h1 hja _

theorem jinv_require_head {s0 : StateS} {top : JLayer} {s : StateS}
    (h : JInv s0 top s) {a : Nat} {s1 : StateS}
    (hok : s.require_head a = .ok s1) :
    ∃ top1, JInv s0 top1 s1 ∧ alGet top1 a ≠ none := by
  unfold StateS.require_head at hok
  rcases hc : alGet s.cache a with _ | cell
  · rw [hc] at hok
    rcases hr : liftLookup (s.trieLookupAccount a) with e | r
    · rw [hr] at hok
      simp [Bind.bind, Except.bind] at hok
    · rw [hr] at hok
      simp only [Bind.bind, Except.bind, pure, Except.pure, Except.ok.injEq] at hok
      subst hok
      exact ⟨_, jinv_insert_cache h a _, alGet_touchedTop_ne_none top a _⟩
  · rw [hc] at hok
    simp only [pure, Except.pure, Except.ok.injEq] at hok
    subst hok
    exact ⟨_, jinv_note_cache h a, alGet_touchedTop_ne_none top a _⟩

theorem jinv_require_mut {s0 : StateS} {top : JLayer} {s : StateS}
    (h : JInv s0 top s) {a : Nat} {rc : Bool} {d : Account}
    {f : Account → Account} {s' : StateS}
    (hok : s.require_mut a rc d f = .ok s') :
    ∃ top', JInv s0 top' s' := by
  unfold StateS.require_mut at hok
  rcases hh : s.require_head a with e | s1
  · rw [hh] at hok
    simp [Bind.bind, Except.bind] at hok
  · rw [hh] at hok
    simp only [Bind.bind, Except.bind, pure, Except.pure, Except.ok.injEq] at hok
    subst hok
    obtain ⟨top1, h1, hja⟩ := jinv_require_head h hh
    exact ⟨top1, jinv_require_tail h1 hja rc d f⟩

theorem jinv_execMut {s0 : StateS} {top : JLayer} {s : StateS}
    (h : JInv s0 top s) {m : Mut} {s' : StateS}
    (hok : s.execMut m = .ok s') :
    ∃ top', JInv s0 top' s' := by
  cases m with
  | newContract a bal =>
    simp only [StateS.execMut, pure, Except.pure, Except.ok.injEq] at hok
    subst hok
    exact ⟨_, jinv_insert_cache h a _⟩
  | killAccount a =>
    simp only [StateS.execMut, pure, Except.pure, Except.ok.injEq] at hok
    subst hok
    exact ⟨_, jinv_insert_cache h a _⟩
  | addBalance a n => exact jinv_require_mut h hok
  | subBalance a n => exact jinv_require_mut h hok
  | transferBalance a b n =>
    simp only [StateS.execMut] at hok
    rcases h1 : s.require_mut a false (Account.newBasic 0 s.accountStartNonce)
        (Account.subBalance n) with e | s1
    · rw [h1] at hok
      simp [Bind.bind, Except.bind] at hok
    · rw [h1] at hok
      simp only [Bind.bind, Except.bind] at hok
      obtain ⟨top1, hinv1⟩ := jinv_require_mut h h1
      exact jinv_require_mut hinv1 hok
  | incNonce a => exact jinv_require_mut h hok
  | setStorage a k v => exact jinv_require_mut h hok
  | initCode a c => exact jinv_require_mut h hok
  | resetCode a c => exact jinv_require_mut h hok

theorem jinv_execMuts {s0 : StateS} {ms : List Mut} :
    ∀ {top : JLayer} {s : StateS}, JInv s0 top s →
    ∀ {s' : StateS}, s.execMuts ms = .ok s' → ∃ top', JInv s0 top' s' := by
  induction ms with
  | nil =>
    intro top s h s' hok
    simp only [StateS.execMuts, List.foldlM, pure, Except.pure, Except.ok.injEq] at hok
    subst hok
    exact ⟨top, h⟩
  | cons m t ih =>
    intro top s h s' hok
    simp only [StateS.execMuts, List.foldlM] at hok
    rcases h1 : s.execMut m with e | s1
    · rw [h1] at hok
      simp [Bind.bind, Except.bind] at hok
    · rw [h1] at hok
      simp only [Bind.bind, Except.bind] at hok
      obtain ⟨top1, hinv1⟩ := jinv_execMut h h1
      exact ih hinv1 hok

/-- The pointwise content of the `revert_snapshot` restoration fold. -/
theorem revert_fold_get (top : JLayer) (c : List (Nat × Option Account))
    (hnd : (top.map Prod.fst).Nodup) (x : Nat) :
    alGet (top.foldl (fun cc kv =>
        match kv.2 with
        | some v => alSet cc kv.1 v
        | none => alRemove cc kv.1) c) x
      = (alGet top x).getD (alGet c x) := by
  induction top generalizing c with
  | nil => simp [alGet]
  | cons kv t ih =>
    obtain ⟨k, v⟩ := kv
    simp only [List.map_cons, List.nodup_cons] at hnd
    simp only [List.foldl_cons]
    rw [ih _ hnd.2]
    by_cases hx : k = x
    · subst hx
      have ht : alGet t k = none := alGet_eq_none_of_not_mem t k hnd.1
      rw [ht]
      simp only [alGet, if_pos rfl, Option.getD_some, Option.getD_none]
      cases v with
      | some w => simp [alGet_set]
      | none => simp [alGet_remove]
    · have : alGet ((k, v) :: t) x = alGet t x := by
        simp [alGet, hx]
      rw [this]
      have hcc : alGet (match v with
          | some w => alSet c k w
          | none => alRemove c k) x = alGet c x := by
        cases v with
        | some w => simp [alGet_set, hx]
        | none => simp [alGet_remove, hx]
      rw [hcc]

/-- Reverting under the journal invariant restores the pre-snapshot view
and pops the layer. -/
theorem jinv_revert {s0 : StateS} {top : JLayer} {s : StateS}
    (h : JInv s0 top s) :
    SameView s.revert_snapshot s0 ∧ s.revert_snapshot.snapshots = s0.snapshots := by
  obtain ⟨hdb, hroot, hasn, hsnap, hnd, hj⟩ := h
  unfold StateS.revert_snapshot
  rw [hsnap]
  refine ⟨⟨hdb, hroot, hasn, fun x => ?_⟩, rfl⟩
  rw [revert_fold_get top s.cache hnd x]
  rcases htx : alGet top x with _ | p
  · simp only [Option.getD_none]
    exact (hj x).2 htx
  · simp only [Option.getD_some]
    exact ((hj x).1 p htx).symm

/-! ## Observable congruence and execution simulation -/

theorem sameView_refl (s : StateS) : SameView s s :=
  ⟨rfl, rfl, rfl, fun _ => rfl⟩

theorem sameView_symm {s t : StateS} (h : SameView s t) : SameView t s :=
  ⟨h.1.symm, h.2.1.symm, h.2.2.1.symm, fun x => (h.2.2.2 x).symm⟩

theorem sameView_trans {s t u : StateS} (h : SameView s t) (h' : SameView t u) :
    SameView s u :=
  ⟨h.1.trans h'.1, h.2.1.trans h'.2.1, h.2.2.1.trans h'.2.2.1,
   fun x => (h.2.2.2 x).trans (h'.2.2.2 x)⟩

theorem ensure_cached_val_congr {s t : StateS} (h : SameView s t) (a : Nat) (rc : Bool) :
    s.ensure_cached_val a rc = t.ensure_cached_val a rc := by
  obtain ⟨hdb, hroot, hasn, hc⟩ := h
  unfold StateS.ensure_cached_val StateS.trieLookupAccount
  simp only [hdb, hroot, hc a]

theorem balance_congr {s t : StateS} (h : SameView s t) (a : Nat) :
    s.balance a = t.balance a := by
  unfold StateS.balance
  rw [ensure_cached_val_congr h a false]

theorem nonce_congr {s t : StateS} (h : SameView s t) (a : Nat) :
    s.nonce a = t.nonce a := by
  unfold StateS.nonce
  rw [ensure_cached_val_congr h a false]
  simp only [h.2.2.1]

theorem storage_at_congr {s t : StateS} (h : SameView s t) (a k : Nat) :
    s.storage_at a k = t.storage_at a k := by
  unfold StateS.storage_at
  rw [ensure_cached_val_congr h a false]
  simp only [h.1]

theorem code_congr {s t : StateS} (h : SameView s t) (a : Nat) :
    s.code a = t.code a := by
  unfold StateS.code
  rw [ensure_cached_val_congr h a true]

theorem existsAcct_congr {s t : StateS} (h : SameView s t) (a : Nat) :
    s.existsAcct a = t.existsAcct a := by
  unfold StateS.existsAcct
  rw [ensure_cached_val_congr h a false]

theorem insert_cache_db (s : StateS) (a : Nat) (acc : Option Account) :
    (s.insert_cache a acc).db = s.db ∧ (s.insert_cache a acc).root = s.root ∧
    (s.insert_cache a acc).accountStartNonce = s.accountStartNonce ∧
    (s.insert_cache a acc).cache = alSet s.cache a acc := by
  unfold StateS.insert_cache
  rcases s.snapshots with _ | ⟨top, rest⟩
  · exact ⟨rfl, rfl, rfl, rfl⟩
  · by_cases h : alGet top a = none <;> simp [h]

theorem note_cache_db (s : StateS) (a : Nat) :
    (s.note_cache a).db = s.db ∧ (s.note_cache a).root = s.root ∧
    (s.note_cache a).accountStartNonce = s.accountStartNonce ∧
    (s.note_cache a).cache = s.cache := by
  unfold StateS.note_cache
  rcases s.snapshots with _ | ⟨top, rest⟩
  · exact ⟨rfl, rfl, rfl, rfl⟩
  · by_cases h : alGet top a = none <;> simp [h]

/-- View-congruence of paired `Except` outcomes: equal errors or
view-equal successes. -/
def SameViewE : Except StAbort StateS → Except StAbort StateS → Prop
  | .ok s, .ok t => SameView s t
  | .error e, .error e' => e = e'
  | _, _ => False

theorem insert_cache_congr {s t : StateS} (h : SameView s t) (a : Nat)
    (acc : Option Account) : SameView (s.insert_cache a acc) (t.insert_cache a acc) := by
  obtain ⟨hdb1, hroot1, hasn1, hc1⟩ := insert_cache_db s a acc
  obtain ⟨hdb2, hroot2, hasn2, hc2⟩ := insert_cache_db t a acc
  refine ⟨by rw [hdb1, hdb2, h.1], by rw [hroot1, hroot2, h.2.1],
    by rw [hasn1, hasn2, h.2.2.1], fun x => ?_⟩
  rw [hc1, hc2, alGet_set, alGet_set]
  by_cases hax : a = x
  · simp [hax]
  · simp only [if_neg hax]
    exact h.2.2.2 x

theorem require_head_congr {s t : StateS} (h : SameView s t) (a : Nat) :
    SameViewE (s.require_head a) (t.require_head a) := by
  unfold StateS.require_head StateS.trieLookupAccount
  rw [h.2.2.2 a, h.1, h.2.1]
  rcases alGet t.cache a with _ | cell
  · rcases liftLookup (TrieDB.lookup { db := t.db, root := t.root }
        (hashNibbles (addressHash a))) with e | r
    · simp only [Bind.bind, Except.bind]
      rfl
    · simp only [Bind.bind, Except.bind, pure, Except.pure]
      exact insert_cache_congr h a _
  · simp only [pure, Except.pure]
    obtain ⟨hdb1, hroot1, hasn1, hc1⟩ := note_cache_db s a
    obtain ⟨hdb2, hroot2, hasn2, hc2⟩ := note_cache_db t a
    exact ⟨by rw [hdb1, hdb2, h.1], by rw [hroot1, hroot2, h.2.1],
      by rw [hasn1, hasn2, h.2.2.1], fun x => by rw [hc1, hc2]; exact h.2.2.2 x⟩

theorem cache_set_congr {s t : StateS} (h : SameView s t) (a : Nat)
    (v w : Option Account) (hvw : v = w) :
    SameView { s with cache := alSet s.cache a v } { t with cache := alSet t.cache a w } := by
  subst hvw
  refine ⟨h.1, h.2.1, h.2.2.1, fun x => ?_⟩
  rw [alGet_set, alGet_set]
  by_cases hax : a = x
  · simp [hax]
  · simp only [if_neg hax]
    exact h.2.2.2 x

/-- The new cache cell `require_tail` leaves at the touched address, as a
function of the old one. -/
def requireTailCell (db : HashDB) (a : Nat) (rc : Bool) (d : Account)
    (f : Account → Account) : Option (Option Account) → Option (Option Account)
  | some (some acc) => some (some (f (if rc then Account.cacheCode db (addressHash a) acc else acc)))
  | some none => some (some (f (if rc then Account.cacheCode db (addressHash a) d else d)))
  | none => none

theorem require_tail_spec (s1 : StateS) (a : Nat) (rc : Bool) (d : Account)
    (f : Account → Account) :
    (s1.require_tail a rc d f).db = s1.db ∧
    (s1.require_tail a rc d f).root = s1.root ∧
    (s1.require_tail a rc d f).accountStartNonce = s1.accountStartNonce ∧
    (s1.require_tail a rc d f).snapshots = s1.snapshots ∧
    ∀ x, alGet (s1.require_tail a rc d f).cache x =
      if a = x then requireTailCell s1.db a rc d f (alGet s1.cache a)
      else alGet s1.cache x := by
  unfold StateS.require_tail
  rcases hc : alGet s1.cache a with _ | ⟨_ | acc⟩
  · refine ⟨by simp [hc], by simp [hc], by simp [hc], by simp [hc], fun x => ?_⟩
    by_cases hax : a = x
    · subst hax
      simp [hc, requireTailCell]
    · simp [hc, hax]
  · refine ⟨by simp [hc, alGet_set], by simp [hc, alGet_set],
      by simp [hc, alGet_set], by simp [hc, alGet_set], fun x => ?_⟩
    by_cases hax : a = x
    · subst hax
      simp [hc, requireTailCell, alGet_set]
    · simp [hc, alGet_set, hax]
  · refine ⟨by simp [hc], by simp [hc], by simp [hc], by simp [hc], fun x => ?_⟩
    by_cases hax : a = x
    · subst hax
      simp [hc, requireTailCell, alGet_set]
    · simp [hc, alGet_set, hax]

theorem require_tail_congr {s1 t1 : StateS} (h : SameView s1 t1) (a : Nat)
    (rc : Bool) (d : Account) (f : Account → Account) :
    SameView (s1.require_tail a rc d f) (t1.require_tail a rc d f) := by
  obtain ⟨hdb1, hroot1, hasn1, _, hc1⟩ := require_tail_spec s1 a rc d f
  obtain ⟨hdb2, hroot2, hasn2, _, hc2⟩ := require_tail_spec t1 a rc d f
  refine ⟨by rw [hdb1, hdb2, h.1], by rw [hroot1, hroot2, h.2.1],
    by rw [hasn1, hasn2, h.2.2.1], fun x => ?_⟩
  rw [hc1 x, hc2 x, h.1, h.2.2.2 a]
  by_cases hax : a = x
  · simp [hax]
  · simp only [if_neg hax]
    exact h.2.2.2 x

theorem require_mut_congr {s t : StateS} (h : SameView s t) (a : Nat)
    (rc : Bool) (d : Account) (f : Account → Account) :
    SameViewE (s.require_mut a rc d f) (t.require_mut a rc d f) := by
  unfold StateS.require_mut
  have hh := require_head_congr h a
  rcases hs : s.require_head a with e | s1 <;> rcases ht : t.require_head a with e' | t1 <;>
    rw [hs, ht] at hh <;> simp only [SameViewE] at hh
  · simp only [Bind.bind, Except.bind]
    exact hh
  · simp only [Bind.bind, Except.bind, pure, Except.pure]
    exact require_tail_congr hh a rc d f

theorem execMut_congr {s t : StateS} (h : SameView s t) (m : Mut) :
    SameViewE (s.execMut m) (t.execMut m) := by
  cases m with
  | newContract a bal =>
    simp only [StateS.execMut, pure, Except.pure, SameViewE, h.2.2.1]
    exact insert_cache_congr h a _
  | killAccount a =>
    simp only [StateS.execMut, pure, Except.pure, SameViewE]
    exact insert_cache_congr h a _
  | addBalance a n =>
    simp only [StateS.execMut, h.2.2.1]
    exact require_mut_congr h a false _ _
  | subBalance a n =>
    simp only [StateS.execMut, h.2.2.1]
    exact require_mut_congr h a false _ _
  | transferBalance a b n =>
    simp only [StateS.execMut, h.2.2.1]
    have h1 := require_mut_congr h a false (Account.newBasic 0 t.accountStartNonce)
      (Account.subBalance n)
    rcases hs : s.require_mut a false (Account.newBasic 0 t.accountStartNonce)
        (Account.subBalance n) with e | s1 <;>
      rcases ht : t.require_mut a false (Account.newBasic 0 t.accountStartNonce)
        (Account.subBalance n) with e' | t1 <;>
      rw [hs, ht] at h1 <;> simp only [SameViewE] at h1
    · simp only [Bind.bind, Except.bind]
      simp [SameViewE, h1]
    · simp only [Bind.bind, Except.bind]
      have hd : Account.newBasic 0 s1.accountStartNonce
          = Account.newBasic 0 t1.accountStartNonce := by rw [h1.2.2.1]
      rw [hd]
      exact require_mut_congr h1 b false _ _
  | incNonce a =>
    simp only [StateS.execMut, h.2.2.1]
    exact require_mut_congr h a false _ _
  | setStorage a k v =>
    simp only [StateS.execMut, h.2.2.1]
    exact require_mut_congr h a false _ _
  | initCode a c =>
    simp only [StateS.execMut, h.2.2.1]
    exact require_mut_congr h a true _ _
  | resetCode a c =>
    simp only [StateS.execMut, h.2.2.1]
    exact require_mut_congr h a true _ _

theorem execMuts_congr {ms : List Mut} : ∀ {s t : StateS}, SameView s t →
    SameViewE (s.execMuts ms) (t.execMuts ms) := by
  induction ms with
  | nil =>
    intro s t h
    simpa only [StateS.execMuts, List.foldlM, SameViewE] using h
  | cons m tl ih =>
    intro s t h
    simp only [StateS.execMuts, List.foldlM]
    have h1 := execMut_congr h m
    rcases hs : s.execMut m with e | s1 <;> rcases ht : t.execMut m with e' | t1 <;>
      rw [hs, ht] at h1 <;> simp only [SameViewE] at h1
    · simp only [Bind.bind, Except.bind]
      simp [SameViewE, h1]
    · simp only [Bind.bind, Except.bind]
      exact ih h1

/-! ## Clear-snapshot merge lemmas -/

/-- `clear_snapshot` never touches the observable view (it only folds
journal layers). -/
theorem clear_snapshot_view (s : StateS) : SameView s.clear_snapshot s := by
  unfold StateS.clear_snapshot
  rcases s.snapshots with _ | ⟨top, rest⟩
  · exact sameView_refl s
  · rcases rest with _ | ⟨prev, rest'⟩
    · exact ⟨rfl, rfl, rfl, fun _ => rfl⟩
    · exact ⟨rfl, rfl, rfl, fun _ => rfl⟩

/-- Pointwise content of the `or_insert` fold of `clear_snapshot`:
first-write-wins — the enclosing layer's entry survives, a popped-layer
entry is folded in only where the enclosing layer has none. -/
theorem merge_fold_get (top2 : JLayer) : ∀ (p : JLayer) (x : Nat),
    alGet (top2.foldl (fun p kv =>
      if (alGet p kv.1).isSome then p else alSet p kv.1 kv.2) p) x
    = (alGet p x).or (alGet top2 x) := by
  induction top2 with
  | nil => intro p x; simp [alGet]
  | cons kv t ih =>
    intro p x
    obtain ⟨k, v⟩ := kv
    simp only [List.foldl_cons]
    rw [ih]
    by_cases hkx : k = x
    · subst hkx
      by_cases hp : (alGet p k).isSome
      · simp only [if_pos hp]
        obtain ⟨w, hw⟩ := Option.isSome_iff_exists.mp hp
        simp [hw, alGet, Option.or]
      · simp only [if_neg hp]
        have hpn : alGet p k = none := Option.not_isSome_iff_eq_none.mp hp
        simp [alGet_set, hpn, alGet, Option.or]
    · have hcons : alGet ((k, v) :: t) x = alGet t x := by simp [alGet, hkx]
      rw [hcons]
      by_cases hp : (alGet p k).isSome
      · simp only [if_pos hp]
      · simp only [if_neg hp]
        rw [alGet_set, if_neg hkx]

theorem merge_fold_nodup (top2 : JLayer) : ∀ (p : JLayer),
    (p.map Prod.fst).Nodup →
    (((top2.foldl (fun p kv =>
      if (alGet p kv.1).isSome then p else alSet p kv.1 kv.2) p)).map Prod.fst).Nodup := by
  induction top2 with
  | nil => intro p h; exact h
  | cons kv t ih =>
    intro p h
    simp only [List.foldl_cons]
    by_cases hp : (alGet p kv.1).isSome
    · simp only [if_pos hp]
      exact ih p h
    · simp only [if_neg hp]
      exact ih _ (keys_nodup_set _ _ _ h)

/-- Folding an inner checkpoint layer into the enclosing one with
`clear_snapshot` yields a layer that journals the state at the *enclosing*
snapshot. -/
theorem jinv_clear_merge {s0 s1 s2 : StateS} {top1 top2 : JLayer}
    (h1 : JInv s0 top1 s1) (h2 : JInv s1 top2 s2) :
    ∃ m, JInv s0 m s2.clear_snapshot := by
  obtain ⟨hdb1, hroot1, hasn1, hsnap1, hnd1, hj1⟩ := h1
  obtain ⟨hdb2, hroot2, hasn2, hsnap2, hnd2, hj2⟩ := h2
  refine ⟨top2.foldl (fun p kv =>
    if (alGet p kv.1).isSome then p else alSet p kv.1 kv.2) top1, ?_⟩
  unfold StateS.clear_snapshot
  rw [hsnap2, hsnap1]
  refine ⟨hdb2.trans hdb1, hroot2.trans hroot1, hasn2.trans hasn1, rfl,
    merge_fold_nodup top2 top1 hnd1, fun x => ⟨?_, ?_⟩⟩
  · intro p hp
    rw [merge_fold_get] at hp
    rcases ht1 : alGet top1 x with _ | q
    · rw [ht1] at hp
      simp only [Option.or] at hp
      have hs1 : alGet s1.cache x = p := (hj2 x).1 p hp
      have hs0 : alGet s1.cache x = alGet s0.cache x := (hj1 x).2 ht1
      rw [← hs0.symm.trans hs1]
    · rw [ht1] at hp
      simp only [Option.or, Option.some.injEq] at hp
      subst hp
      exact (hj1 x).1 q ht1
  · intro hx
    rw [merge_fold_get] at hx
    rcases ht1 : alGet top1 x with _ | q
    · rw [ht1] at hx
      simp only [Option.or] at hx
      have h2x := (hj2 x).2 hx
      have h1x := (hj1 x).2 ht1
      exact h2x.trans h1x
    · rw [ht1] at hx
      simp only [Option.or] at hx
      cases hx

/-! ## Claim theorems: checkpointing -/

/-- C2: for every state, address, storage key and mutation sequence `M`
(built from `new_contract`, `kill_account`, `add_balance`, `sub_balance`,
`transfer_balance`, `inc_nonce`, `set_storage`, `init_code`, `reset_code`),
executing `snapshot(); M; revert_snapshot()` leaves every observable read
(balance, nonce, storage_at, code, exists) equal to its value immediately
before `snapshot()` (stated over the run's `Except`: a run of `M` that
aborts is compared against itself). -/
theorem c2_snapshot_revert_restores (s0 : StateS) (ms : List Mut) (a k : Nat) :
    ((s0.snapshot.execMuts ms).map fun s' => s'.revert_snapshot.balance a)
      = ((s0.snapshot.execMuts ms).map fun _ => s0.balance a)
    ∧ ((s0.snapshot.execMuts ms).map fun s' => s'.revert_snapshot.nonce a)
      = ((s0.snapshot.execMuts ms).map fun _ => s0.nonce a)
    ∧ ((s0.snapshot.execMuts ms).map fun s' => s'.revert_snapshot.storage_at a k)
      = ((s0.snapshot.execMuts ms).map fun _ => s0.storage_at a k)
    ∧ ((s0.snapshot.execMuts ms).map fun s' => s'.revert_snapshot.code a)
      = ((s0.snapshot.execMuts ms).map fun _ => s0.code a)
    ∧ ((s0.snapshot.execMuts ms).map fun s' => s'.revert_snapshot.existsAcct a)
      = ((s0.snapshot.execMuts ms).map fun _ => s0.existsAcct a) := by
  rcases hr : s0.snapshot.execMuts ms with e | s'
  · simp [Except.map]
  · obtain ⟨top', hinv⟩ := jinv_execMuts (jinv_snapshot s0) hr
    obtain ⟨hview, _⟩ := jinv_revert hinv
    simp only [Except.map]
    exact ⟨by rw [balance_congr hview a], by rw [nonce_congr hview a],
      by rw [storage_at_congr hview a k], by rw [code_congr hview a],
      by rw [existsAcct_congr hview a]⟩

/-- C3: (i) `snapshot(); M; clear_snapshot()` is observable-equivalent
(balance, nonce, storage_at, code, exists) to `M` alone; (ii) clearing over
an enclosing layer folds each entry of the popped layer into it only where
the enclosing layer has no entry for the address (first-write-wins); and
(iii) consequently, after `snapshot(); M1; snapshot(); M2; clear_snapshot()`,
a `revert_snapshot()` of the enclosing checkpoint restores every observable
to its pre-enclosing-snapshot value. -/
theorem c3_clear_snapshot_neutral (s0 : StateS) (ms : List Mut) (a k : Nat) :
    (((s0.snapshot.execMuts ms).map fun s' => s'.clear_snapshot.balance a)
        = ((s0.execMuts ms).map fun s' => s'.balance a)
      ∧ ((s0.snapshot.execMuts ms).map fun s' => s'.clear_snapshot.nonce a)
        = ((s0.execMuts ms).map fun s' => s'.nonce a)
      ∧ ((s0.snapshot.execMuts ms).map fun s' => s'.clear_snapshot.storage_at a k)
        = ((s0.execMuts ms).map fun s' => s'.storage_at a k)
      ∧ ((s0.snapshot.execMuts ms).map fun s' => s'.clear_snapshot.code a)
        = ((s0.execMuts ms).map fun s' => s'.code a)
      ∧ ((s0.snapshot.execMuts ms).map fun s' => s'.clear_snapshot.existsAcct a)
        = ((s0.execMuts ms).map fun s' => s'.existsAcct a))
    ∧ (∀ (s : StateS) (top prev : JLayer) (rest : List JLayer) (x : Nat),
        match ({ s with snapshots := top :: prev :: rest } : StateS).clear_snapshot.snapshots with
        | m :: r => r = rest ∧ alGet m x = (alGet prev x).or (alGet top x)
        | [] => False)
    ∧ (∀ (ms1 ms2 : List Mut) (s1 s2 : StateS),
        s0.snapshot.execMuts ms1 = .ok s1 →
        s1.snapshot.execMuts ms2 = .ok s2 →
        s2.clear_snapshot.revert_snapshot.balance a = s0.balance a
        ∧ s2.clear_snapshot.revert_snapshot.nonce a = s0.nonce a
        ∧ s2.clear_snapshot.revert_snapshot.storage_at a k = s0.storage_at a k
        ∧ s2.clear_snapshot.revert_snapshot.code a = s0.code a
        ∧ s2.clear_snapshot.revert_snapshot.existsAcct a = s0.existsAcct a) := by
  refine ⟨?_, ?_, ?_⟩
  · have hE := @execMuts_congr ms s0.snapshot s0 ⟨rfl, rfl, rfl, fun _ => rfl⟩
    rcases hs : s0.snapshot.execMuts ms with e | sA <;>
      rcases ht : s0.execMuts ms with e' | sB <;>
      rw [hs, ht] at hE <;> simp only [SameViewE] at hE
    · subst hE
      simp [Except.map]
    · have hview := sameView_trans (clear_snapshot_view sA) hE
      simp only [Except.map]
      exact ⟨by rw [balance_congr hview a], by rw [nonce_congr hview a],
        by rw [storage_at_congr hview a k], by rw [code_congr hview a],
        by rw [existsAcct_congr hview a]⟩
  · intro s top prev rest x
    unfold StateS.clear_snapshot
    exact ⟨rfl, merge_fold_get top prev x⟩
  · intro ms1 ms2 s1 s2 h1 h2
    obtain ⟨top1, hinv1⟩ := jinv_execMuts (jinv_snapshot s0) h1
    obtain ⟨top2, hinv2⟩ := jinv_execMuts (jinv_snapshot s1) h2
    obtain ⟨m, hm⟩ := jinv_clear_merge hinv1 hinv2
    obtain ⟨hview, _⟩ := jinv_revert hm
    exact ⟨balance_congr hview a, nonce_congr hview a,
      storage_at_congr hview a k, code_congr hview a, existsAcct_congr hview a⟩

/-- C10: with no checkpoint open, `clear_snapshot` and `revert_snapshot`
are no-ops — cache, checkpoint stack and root are all unchanged (indeed the
whole state is), and neither call fails (both are total). -/
theorem c10_no_checkpoint_noop (s : StateS) (h : s.snapshots = []) :
    s.clear_snapshot = s ∧ s.revert_snapshot = s := by
  unfold StateS.clear_snapshot StateS.revert_snapshot
  rw [h]
  exact ⟨rfl, rfl⟩

/-- A small concrete backing store and state: the empty root node stored at
hash `0`. -/
def wDb : HashDB := fun h => if h = 0 then some (.node .empty) else none

/-- A concrete `State` over `wDb` used by the witnesses. -/
def wState : StateS :=
  { db := wDb, root := 0, cache := [], snapshots := [], accountStartNonce := 0 }

theorem c3_clear_snapshot_neutral_witness :
    wState.snapshot.snapshot.clear_snapshot.revert_snapshot.balance 1 = wState.balance 1 := by
  have h := (c3_clear_snapshot_neutral wState [] 1 0).2.2 [] [] wState.snapshot
    wState.snapshot.snapshot rfl rfl
  exact h.1

theorem c10_no_checkpoint_noop_witness :
    wState.clear_snapshot = wState ∧ wState.revert_snapshot = wState :=
  c10_no_checkpoint_noop wState rfl

/-! ## Mutable trie (modelled from the spec)

`util/src/trie/triedbmut.rs` is not among the source files; the mutable
trie is modelled from spec §4.2: insertion walks nibble-by-nibble splitting
extensions and promoting leaves to branches; deletion applies the canonical
simplifications; after an update a node whose encoding is ≥ 32 bytes is
stored by hash and referenced by hash, smaller nodes are inlined; the root
is always addressed by hash.  A failing operation leaves the trie
unchanged. -/

/-- A hash store viewed through a key-transforming salt (`AccountDBMut`:
"the hash input is `KECCAK(address) || node_content_hash`"); the main trie
uses the identity salt. -/
structure SaltedDB where
  base : HashDB
  salt : Nat → Nat

/-- The read view of a salted store. -/
def SaltedDB.view (d : SaltedDB) : HashDB :=
  fun h => d.base (d.salt h)

/-- Store content under a (salted) hash. -/
def SaltedDB.put (d : SaltedDB) (h : Nat) (v : HashDBVal) : SaltedDB :=
  { d with base := fupd d.base (d.salt h) (some v) }

/-- Length of the shared nibble path of two keys. -/
def sharedLen : List Nat → List Nat → Nat
  | a :: as, b :: bs => if a = b then sharedLen as bs + 1 else 0
  | _, _ => 0

/-- The sixteen absent children of a fresh branch. -/
def emptyChildren : List TRef := List.replicate 16 (.inline .empty)

/-- Replace one branch child. -/
def setChild (cs : List TRef) (i : Nat) (r : TRef) : List TRef := cs.set i r

/-- Modelled from the spec: recursive insert.  Splits leaves/extensions at
the divergence point into a branch (with the shared path re-wrapped as an
extension); a missing hashed child is `IncompleteDatabase`.  `fuel` bounds
the descent (`key.length + 1` suffices on a well-formed trie). -/
def insAt (db : HashDB) : Nat → TNode → List Nat → Bytes → Except TrieAbort TNode
  | 0, _, _, _ => .error .overflow
  | _ + 1, .empty, key, value => .ok (.leaf key value)
  | _ + 1, .leaf p v, key, value =>
    if p = key then .ok (.leaf key value)
    else
      let c := sharedLen p key
      let r1 := p.drop c
      let r2 := key.drop c
      let br :=
        match r1, r2 with
        | [], i2 :: t2 =>
          TNode.branch (setChild emptyChildren i2 (.inline (.leaf t2 value))) (some v)
        | i1 :: t1, [] =>
          TNode.branch (setChild emptyChildren i1 (.inline (.leaf t1 v))) (some value)
        | i1 :: t1, i2 :: t2 =>
          TNode.branch (setChild (setChild emptyChildren i1 (.inline (.leaf t1 v)))
            i2 (.inline (.leaf t2 value))) none
        | [], [] => TNode.leaf key value
      .ok (if c = 0 then br else .ext (p.take c) (.inline br))
  | fuel + 1, .ext p child, key, value =>
    let c := sharedLen p key
    if c = p.length then do
      let cn ← getRawOrLookup db child
      let cn' ← insAt db fuel cn (key.drop p.length) value
      .ok (.ext p (.inline cn'))
    else
      let r1 := p.drop c
      let r2 := key.drop c
      let childSide : TRef :=
        if r1.length = 1 then child else .inline (.ext (r1.drop 1) child)
      let br :=
        match r2 with
        | [] => TNode.branch (setChild emptyChildren (r1.headD 0) childSide) (some value)
        | i2 :: t2 =>
          TNode.branch (setChild (setChild emptyChildren (r1.headD 0) childSide)
            i2 (.inline (.leaf t2 value))) none
      .ok (if c = 0 then br else .ext (p.take c) (.inline br))
  | fuel + 1, .branch cs v, key, value =>
    match key with
    | [] => .ok (.branch cs (some value))
    | i :: rest => do
      let cn ← getRawOrLookup db (cs.getD i (.inline .empty))
      let cn' ← insAt db fuel cn rest value
      .ok (.branch (setChild cs i (.inline cn')) v)

/-- Whether a child reference is the absent child. -/
def isEmptyRef : TRef → Bool
  | .inline .empty => true
  | _ => false

/-- Modelled from the spec: the canonical branch simplifications after a
removal — a branch with one child and no value collapses into an extension
or leaf (merging with the child), one with no children and a value becomes
a leaf. -/
def collapseBranch (db : HashDB) (cs : List TRef) (v : Option Bytes) :
    Except TrieAbort TNode :=
  let live := (List.range 16).filter fun i => ! isEmptyRef (cs.getD i (.inline .empty))
  match v, live with
  | none, [] => .ok .empty
  | none, [i] => do
    let cn ← getRawOrLookup db (cs.getD i (.inline .empty))
    .ok (match cn with
      | .leaf q w => .leaf (i :: q) w
      | .ext q c2 => .ext (i :: q) c2
      | n => .ext [i] (.inline n))
  | some w, [] => .ok (.leaf [] w)
  | _, _ => .ok (.branch cs v)

/-- Modelled from the spec: recursive removal with the canonical
simplifications (adjacent extensions/leaves merge). -/
def delAt (db : HashDB) : Nat → TNode → List Nat → Except TrieAbort TNode
  | 0, _, _ => .error .overflow
  | _ + 1, .empty, _ => .ok .empty
  | _ + 1, .leaf p v, key => .ok (if p = key then .empty else .leaf p v)
  | fuel + 1, .ext p child, key =>
    if p.isPrefixOf key then do
      let cn ← getRawOrLookup db child
      let cn' ← delAt db fuel cn (key.drop p.length)
      .ok (match cn' with
        | .empty => .empty
        | .leaf q w => .leaf (p ++ q) w
        | .ext q c2 => .ext (p ++ q) c2
        | n => .ext p (.inline n))
    else .ok (.ext p child)
  | fuel + 1, .branch cs v, key =>
    match key with
    | [] => collapseBranch db cs none
    | i :: rest => do
      let cn ← getRawOrLookup db (cs.getD i (.inline .empty))
      let cn' ← delAt db fuel cn rest
      collapseBranch db (setChild cs i (.inline cn')) v

mutual
/-- Modelled from the spec: after a structural update, re-store a node's
children — an encoding < 32 bytes stays inlined in the parent, larger
children are stored by hash. -/
def storeNode (d : SaltedDB) : TNode → SaltedDB × TNode
  | .empty => (d, .empty)
  | .leaf p v => (d, .leaf p v)
  | .ext p c =>
    let r := storeRef d c
    (r.1, .ext p r.2)
  | .branch cs v =>
    let r := storeRefs d cs
    (r.1, .branch r.2 v)
def storeRef (d : SaltedDB) : TRef → SaltedDB × TRef
  | .hash h => (d, .hash h)
  | .inline n =>
    let r := storeNode d n
    if (encodeNode r.2).length < 32 then (r.1, .inline r.2)
    else (r.1.put (hashNode r.2) (.node r.2), .hash (hashNode r.2))
def storeRefs (d : SaltedDB) : List TRef → SaltedDB × List TRef
  | [] => (d, [])
  | r :: t =>
    let r1 := storeRef d r
    let t1 := storeRefs r1.1 t
    (t1.1, r1.2 :: t1.2)
end

/-- Modelled from the spec: resolve the root node of a mutable trie; the
canonical empty root reads as the empty node (the `AccountDB` view serves
`NULL_RLP` for it), any other missing root is `InvalidStateRoot`. -/
def trieMutRootNode (d : SaltedDB) (root : Nat) : Except TrieAbort TNode :=
  if root = sha3NullRlp then .ok .empty
  else match d.view root with
    | some (.node n) => .ok n
    | _ => .error (.err (.invalidStateRoot root))

/-- Modelled from the spec: `TrieDBMut::insert` with the root re-stored by
hash. -/
def trieMutIns (d : SaltedDB) (root : Nat) (key : List Nat) (value : Bytes) :
    Except TrieAbort (SaltedDB × Nat) := do
  let rn ← trieMutRootNode d root
  let n' ← insAt d.view (key.length + 1) rn key value
  let r := storeNode d n'
  let h := hashNode r.2
  .ok (r.1.put h (.node r.2), h)

/-- Modelled from the spec: `TrieDBMut::remove` with the root re-stored by
hash. -/
def trieMutDel (d : SaltedDB) (root : Nat) (key : List Nat) :
    Except TrieAbort (SaltedDB × Nat) := do
  let rn ← trieMutRootNode d root
  let n' ← delAt d.view (key.length + 1) rn key
  let r := storeNode d n'
  let h := hashNode r.2
  .ok (r.1.put h (.node r.2), h)

/-- Modelled from the spec: `Account::commit_storage` — drain the storage
overlay into the account's (secure) storage trie under the address-salted
namespace; a zero value is a removal ("inserting an empty value is
equivalent to removal"); the new storage root replaces the old and the
overlay is cleared. -/
def Account.commitStorage (d : SaltedDB) (acc : Account) :
    Except TrieAbort (SaltedDB × Account) := do
  let r ← acc.storageOverlay.foldlM (fun (st : SaltedDB × Nat) kv =>
    if kv.2 = 0 then trieMutDel st.1 st.2 (storageKeyNibbles kv.1)
    else trieMutIns st.1 st.2 (storageKeyNibbles kv.1) [kv.2]) (d, acc.storageRoot)
  .ok (r.1, { acc with storageRoot := r.2, storageOverlay := [] })

/-- Modelled from the spec: `Account::commit_code` — persist newly written
code under its hash in the account's namespace and record the hash. -/
def Account.commitCode (d : SaltedDB) (acc : Account) : SaltedDB × Account :=
  match acc.codeDirty, acc.codeCache with
  | true, some c =>
    (d.put (keccakBytes c) (.blob c),
     { acc with codeHash := keccakBytes c, codeDirty := false })
  | _, _ => (d, acc)

/-! ## Commit (`State::commit_into` / `State::commit`) -/

/-- Errors out of `State::commit`.  `precondViolation` models the
`assert!(self.snapshots.borrow().is_empty())` panic; `unwrapFailed` the
`factories.trie.from_existing(db, root).unwrap()` panic; `trieError` an
`Err` propagated by `try!` from the trie operations. -/
inductive CommitErr where
  | precondViolation
  | unwrapFailed
  | trieError (e : TrieAbort)
deriving DecidableEq, Repr

/-- First pass of `commit_into`: for every dirty cached account, commit its
storage overlay and code into the store under the account's hashed-address
namespace.  Returns the partially updated store and cache together with the
first error, mutations up to the error retained. -/
def commitPass1 : HashDB → List (Nat × Option Account) →
    (HashDB × List (Nat × Option Account)) × Option TrieAbort
  | db, [] => ((db, []), none)
  | db, (addr, cell) :: t =>
    match cell with
    | some acc =>
      if acc.isDirty then
        match Account.commitStorage { base := db, salt := accountKey (addressHash addr) } acc with
        | .ok r =>
          let r2 := Account.commitCode r.1 r.2
          let rest := commitPass1 r2.1.base t
          ((rest.1.1, (addr, some r2.2) :: rest.1.2), rest.2)
        | .error e => ((db, (addr, some acc) :: t), some e)
      else
        let rest := commitPass1 db t
        ((rest.1.1, (addr, some acc) :: rest.1.2), rest.2)
    | none =>
      let rest := commitPass1 db t
      ((rest.1.1, (addr, none) :: rest.1.2), rest.2)

/-- Second pass of `commit_into`: each dirty account is first marked clean
(`account.set_clean()` precedes the `try!`), then its RLP is inserted into
the account trie at the address; a `None` cell removes the address.  On an
`Err` the earlier inserts, the current `set_clean`, and the advanced root
are retained (the remaining accounts are untouched). -/
def commitPass2 : HashDB → Nat → List (Nat × Option Account) →
    (HashDB × Nat × List (Nat × Option Account)) × Option TrieAbort
  | db, root, [] => ((db, root, []), none)
  | db, root, (addr, cell) :: t =>
    match cell with
    | some acc =>
      if acc.isDirty then
        match trieMutIns { base := db, salt := fun h => h } root
            (hashNibbles (addressHash addr)) (Account.setClean acc).rlp with
        | .ok r =>
          let rest := commitPass2 r.1.base r.2 t
          ((rest.1.1, rest.1.2.1, (addr, some (Account.setClean acc)) :: rest.1.2.2), rest.2)
        | .error e =>
          ((db, root, (addr, some (Account.setClean acc)) :: t), some e)
      else
        let rest := commitPass2 db root t
        ((rest.1.1, rest.1.2.1, (addr, some acc) :: rest.1.2.2), rest.2)
    | none =>
      match trieMutDel { base := db, salt := fun h => h } root
          (hashNibbles (addressHash addr)) with
      | .ok r =>
        let rest := commitPass2 r.1.base r.2 t
        ((rest.1.1, rest.1.2.1, (addr, none) :: rest.1.2.2), rest.2)
      | .error e => ((db, root, (addr, none) :: t), some e)

/-- `State::commit_into`: commit the storage sub-trees, then open the
account trie (`from_existing(db, root).unwrap()`) and write every dirty /
deleted account through it.  The final store, root and cache are returned
alongside the outcome; on an error they hold the partial commit. -/
def commitInto (db : HashDB) (root : Nat) (accounts : List (Nat × Option Account)) :
    (HashDB × Nat × List (Nat × Option Account)) × Option CommitErr :=
  let p1 := commitPass1 db accounts
  match p1.2 with
  | some e => ((p1.1.1, root, p1.1.2), some (.trieError e))
  | none =>
    if root ≠ sha3NullRlp ∧ ¬ HashDB.containsKey p1.1.1 root then
      ((p1.1.1, root, p1.1.2), some .unwrapFailed)
    else
      let p2 := commitPass2 p1.1.1 root p1.1.2
      (p2.1, p2.2.map .trieError)

/-- `State::commit`: `assert!(snapshots.is_empty())`, then `commit_into`
on the state's own store, root and cache.  The pair is (outcome, state
after the call). -/
def StateS.commit (s : StateS) : Except CommitErr Unit × StateS :=
  if s.snapshots.isEmpty then
    let r := commitInto s.db s.root s.cache
    (match r.2 with
     | none => .ok ()
     | some e => .error e,
     { s with db := r.1.1, root := r.1.2.1, cache := r.1.2.2 })
  else (.error .precondViolation, s)

theorem commitInto_no_precond (db : HashDB) (root : Nat)
    (accounts : List (Nat × Option Account)) :
    (commitInto db root accounts).2 ≠ some .precondViolation := by
  unfold commitInto
  rcases h1 : (commitPass1 db accounts).2 with _ | e
  · simp only [h1]
    by_cases hu : root ≠ sha3NullRlp ∧ ¬ HashDB.containsKey (commitPass1 db accounts).1.1 root
    · simp [hu]
    · simp only [if_neg hu]
      rcases h2 : (commitPass2 (commitPass1 db accounts).1.1 root (commitPass1 db accounts).1.2).2 with _ | e2
      · simp [h2]
      · simp [h2]
  · simp [h1]

/-- C7: invoking `commit` while at least one checkpoint is open is the
`PrecondViolation` invariant check (the `assert!` panic), which leaves the
state untouched; with an empty checkpoint stack `commit` proceeds and never
reports `PrecondViolation`. -/
theorem c7_commit_requires_no_checkpoint (s : StateS) :
    ((s.commit).1 = .error .precondViolation ↔ s.snapshots ≠ [])
    ∧ (s.snapshots ≠ [] → (s.commit).2 = s) := by
  unfold StateS.commit
  rcases hs : s.snapshots with _ | ⟨top, rest⟩
  · simp only [hs, List.isEmpty_nil, if_pos rfl]
    constructor
    · constructor
      · intro h
        exfalso
        rcases h2 : (commitInto s.db s.root s.cache).2 with _ | e
        · rw [h2] at h
          cases h
        · rw [h2] at h
          cases h
          exact commitInto_no_precond s.db s.root s.cache h2
      · intro h
        exact absurd rfl h
    · intro h
      exact absurd rfl h
  · simp [hs]

/-- C6: constructing a read-only trie (`TrieDB::new`) or a `State`
(`State::from_existing`) over a root that is not present in the backing
store returns `InvalidStateRoot(root)`, and both succeed whenever the root
is present. -/
theorem c6_invalid_state_root (db : HashDB) (root asn : Nat) :
    (db.containsKey root = false →
      TrieDB.new db root = .error (.invalidStateRoot root)
      ∧ StateS.fromExisting db root asn = .error (.invalidStateRoot root))
    ∧ (db.containsKey root = true →
      (TrieDB.new db root).isOk = true
      ∧ (StateS.fromExisting db root asn).isOk = true) := by
  constructor
  · intro h
    constructor
    · simp [TrieDB.new, h]
    · simp [StateS.fromExisting, h]
  · intro h
    constructor
    · simp [TrieDB.new, h, Except.isOk, Except.toBool]
    · simp [StateS.fromExisting, h, Except.isOk, Except.toBool]

theorem c6_invalid_state_root_witness :
    (wDb.containsKey 5 = false
      ∧ TrieDB.new wDb 5 = .error (.invalidStateRoot 5))
    ∧ (wDb.containsKey 0 = true
      ∧ (StateS.fromExisting wDb 0 7).isOk = true) :=
  ⟨⟨rfl, ((c6_invalid_state_root wDb 5 0).1 rfl).1⟩,
   ⟨rfl, ((c6_invalid_state_root wDb 0 7).2 rfl).2⟩⟩

theorem c7_commit_requires_no_checkpoint_witness :
    (({ wState with snapshots := [[]] } : StateS).commit).1 = .error .precondViolation
    ∧ (({ wState with snapshots := [[]] } : StateS).commit).2
      = { wState with snapshots := [[]] } := by
  have h := c7_commit_requires_no_checkpoint { wState with snapshots := [[]] }
  exact ⟨h.1.mpr (by simp), h.2 (by simp)⟩

/-! ## Commit: cache-shape preservation and success cleanliness -/

/-- The cache-map shape commit preserves: the key and whether the cell is
`Some` or `None`. -/
def cellShape (p : Nat × Option Account) : Nat × Bool := (p.1, p.2.isSome)

theorem commitPass1_shape (l : List (Nat × Option Account)) : ∀ (db : HashDB),
    (commitPass1 db l).1.2.map cellShape = l.map cellShape := by
  induction l with
  | nil => intro db; rfl
  | cons p t ih =>
    intro db
    obtain ⟨addr, cell⟩ := p
    rcases cell with _ | acc
    · simp only [commitPass1, List.map_cons]
      rw [ih db]
    · by_cases hd : acc.isDirty
      · rcases hcs : Account.commitStorage
          { base := db, salt := accountKey (addressHash addr) } acc with e | r
        · simp only [commitPass1, hd, if_true, hcs, List.map_cons]
        · simp only [commitPass1, hd, if_true, hcs, List.map_cons]
          rw [ih _]
          simp [cellShape]
      · simp only [commitPass1, List.map_cons]
        rw [if_neg (by simp [hd])]
        simp only [List.map_cons]
        rw [ih db]

theorem commitPass2_shape (l : List (Nat × Option Account)) :
    ∀ (db : HashDB) (root : Nat),
    (commitPass2 db root l).1.2.2.map cellShape = l.map cellShape := by
  induction l with
  | nil => intro db root; rfl
  | cons p t ih =>
    intro db root
    obtain ⟨addr, cell⟩ := p
    rcases cell with _ | acc
    · rcases hdel : trieMutDel { base := db, salt := fun h => h } root
        (hashNibbles (addressHash addr)) with e | r
      · simp only [commitPass2, hdel, List.map_cons]
      · simp only [commitPass2, hdel, List.map_cons]
        rw [ih _ _]
    · by_cases hd : acc.isDirty
      · rcases hins : trieMutIns { base := db, salt := fun h => h } root
            (hashNibbles (addressHash addr)) (Account.setClean acc).rlp with e | r
        · simp only [commitPass2, hd, if_true, hins, List.map_cons]
          simp [cellShape, Account.setClean]
        · simp only [commitPass2, hd, if_true, hins, List.map_cons]
          rw [ih _ _]
          simp [cellShape, Account.setClean]
      · simp only [commitPass2, List.map_cons]
        rw [if_neg (by simp [hd])]
        simp only [List.map_cons]
        rw [ih db root]

theorem commitInto_shape (db : HashDB) (root : Nat)
    (l : List (Nat × Option Account)) :
    (commitInto db root l).1.2.2.map cellShape = l.map cellShape := by
  unfold commitInto
  rcases h1 : (commitPass1 db l).2 with _ | e
  · simp only [h1]
    by_cases hu : root ≠ sha3NullRlp ∧ ¬ HashDB.containsKey (commitPass1 db l).1.1 root
    · simp only [if_pos hu]
      exact commitPass1_shape l db
    · simp only [if_neg hu]
      rw [commitPass2_shape, commitPass1_shape]
  · simp only [h1]
    exact commitPass1_shape l db

theorem alGet_of_shape_eq {l1 l2 : List (Nat × Option Account)}
    (h : l1.map cellShape = l2.map cellShape) (x : Nat) :
    (alGet l1 x).map Option.isSome = (alGet l2 x).map Option.isSome := by
  induction l1 generalizing l2 with
  | nil =>
    cases l2 with
    | nil => rfl
    | cons q u => simp [cellShape] at h
  | cons p t ih =>
    cases l2 with
    | nil => simp [cellShape] at h
    | cons q u =>
      simp only [List.map_cons, List.cons.injEq, cellShape, Prod.mk.injEq] at h
      obtain ⟨⟨hk, hs⟩, ht⟩ := h
      simp only [alGet]
      rw [hk]
      by_cases hx : q.1 = x
      · simp only [if_pos hx, Option.map_some']
        rw [hs]
      · simp only [if_neg hx]
        exact ih (by simpa [cellShape] using ht)

theorem commitPass2_clean (l : List (Nat × Option Account)) :
    ∀ (db : HashDB) (root : Nat), (commitPass2 db root l).2 = none →
    ∀ p ∈ (commitPass2 db root l).1.2.2, ∀ acc, p.2 = some acc → acc.dirty = false := by
  induction l with
  | nil =>
    intro db root _ p hp
    cases hp
  | cons q t ih =>
    intro db root hnone p hp
    obtain ⟨addr, cell⟩ := q
    rcases cell with _ | acc
    · rcases hdel : trieMutDel { base := db, salt := fun h => h } root
        (hashNibbles (addressHash addr)) with e | r
      · rw [commitPass2] at hnone
        simp only [hdel] at hnone
        cases hnone
      · rw [commitPass2] at hnone hp
        simp only [hdel] at hnone hp
        rcases List.mem_cons.mp hp with hh | hh
        · subst hh
          intro acc2 h2
          cases h2
        · exact ih _ _ hnone p hh
    · by_cases hd : acc.isDirty
      · rcases hins : trieMutIns { base := db, salt := fun h => h } root
            (hashNibbles (addressHash addr)) (Account.setClean acc).rlp with e | r
        · rw [commitPass2] at hnone
          simp only [hd, if_pos rfl, hins] at hnone
          cases hnone
        · rw [commitPass2] at hnone hp
          simp only [hd, if_pos rfl, hins] at hnone hp
          rcases List.mem_cons.mp hp with hh | hh
          · subst hh
            intro acc2 h2
            cases h2
            rfl
          · exact ih _ _ hnone p hh
      · rw [commitPass2] at hnone hp
        simp only [if_neg (by simp [hd] : ¬ acc.isDirty = true)] at hnone hp
        rcases List.mem_cons.mp hp with hh | hh
        · subst hh
          intro acc2 h2
          cases h2
          simpa [Account.isDirty] using hd
        · exact ih _ _ hnone p hh

theorem commitInto_clean (db : HashDB) (root : Nat)
    (l : List (Nat × Option Account)) (h : (commitInto db root l).2 = none) :
    ∀ p ∈ (commitInto db root l).1.2.2, ∀ acc, p.2 = some acc → acc.dirty = false := by
  unfold commitInto at h ⊢
  rcases h1 : (commitPass1 db l).2 with _ | e
  · simp only [h1] at h ⊢
    by_cases hu : root ≠ sha3NullRlp ∧ ¬ HashDB.containsKey (commitPass1 db l).1.1 root
    · simp only [if_pos hu] at h
      cases h
    · simp only [if_neg hu] at h ⊢
      have h2 : (commitPass2 (commitPass1 db l).1.1 root (commitPass1 db l).1.2).2 = none := by
        rcases hx : (commitPass2 (commitPass1 db l).1.1 root (commitPass1 db l).1.2).2 with _ | e2
        · rfl
        · rw [hx] at h
          cases h
      exact commitPass2_clean _ _ _ h2
  · simp only [h1] at h
    cases h

/-- C1 (amended): `commit` never adds or removes cache entries nor turns a
`Some` cell into `None` (on success or failure), and only a fully
successful commit is guaranteed to leave every cached account clean — it
marks each dirty account clean and writes it to the trie as it goes, so an
error part-way leaves earlier (and the failing) accounts already cleaned
and written, with the root advanced past the successful inserts; on error
the caller gets the error back but cannot assume the pre-commit cache. -/
theorem c1_commit_amended (s : StateS) :
    (∀ x, (alGet (s.commit).2.cache x).map Option.isSome
        = (alGet s.cache x).map Option.isSome)
    ∧ ((s.commit).1 = .ok () →
        ∀ p ∈ (s.commit).2.cache, ∀ acc, p.2 = some acc → acc.dirty = false) := by
  unfold StateS.commit
  by_cases hs : s.snapshots.isEmpty
  · simp only [if_pos hs]
    constructor
    · intro x
      exact alGet_of_shape_eq (commitInto_shape s.db s.root s.cache) x
    · intro hok
      have h2 : (commitInto s.db s.root s.cache).2 = none := by
        rcases hx : (commitInto s.db s.root s.cache).2 with _ | e
        · rfl
        · rw [hx] at hok
          cases hok
      exact commitInto_clean s.db s.root s.cache h2
  · rw [if_neg hs]
    exact ⟨fun x => rfl, fun hok => by cases hok⟩

/-- A dirty cached account with nothing pending besides itself (empty
storage overlay, clean code). -/
def wAccount : Account :=
  { nonce := 0, balance := 5, storageRoot := sha3NullRlp, codeHash := sha3Empty,
    codeCache := none, storageOverlay := [], codeDirty := false, dirty := true }

/-- A state whose commit succeeds: empty trie at root `0` in `wDb`, one
dirty account cached. -/
def wStateDirty : StateS :=
  { db := wDb, root := 0, cache := [(2, some wAccount)], snapshots := [],
    accountStartNonce := 0 }

theorem c1_commit_amended_witness :
    ((alGet (wStateDirty.commit).2.cache 2).map Option.isSome
        = (alGet wStateDirty.cache 2).map Option.isSome)
    ∧ ((wStateDirty.commit).1 = .ok ()
        ∧ ∀ p ∈ (wStateDirty.commit).2.cache, ∀ acc, p.2 = some acc → acc.dirty = false) := by
  refine ⟨(c1_commit_amended wStateDirty).1 2, ?_, (c1_commit_amended wStateDirty).2 (by rfl)⟩
  rfl

/-- A root node all of whose sixteen children dangle on the absent hash
`99`: any descent hits `IncompleteDatabase(99)`. -/
def c1Node : TNode := .branch (List.replicate 16 (.hash 99)) none

/-- A backing store holding exactly the dangling root node. -/
def c1Db : HashDB :=
  fun h => if h = hashNode c1Node then some (.node c1Node) else none

/-- A state over `c1Db` with one dirty cached account: committing it fails
inside the account-trie insert. -/
def c1State : StateS :=
  { db := c1Db, root := hashNode c1Node, cache := [(1, some wAccount)],
    snapshots := [], accountStartNonce := 0 }

/-- C1, counterexample: on `c1State` the commit raises
`IncompleteDatabase(99)` yet the cached account has been flipped from dirty
to clean (`account.set_clean()` runs before the failing `try!`), so an
erroring commit does *not* leave the account cache unchanged. -/
theorem c1_commit_error_alters_cache :
    (c1State.commit).1 = .error (.trieError (.err (.incompleteDatabase 99)))
    ∧ (alGet (c1State.commit).2.cache 1).map (fun c => c.map Account.isDirty)
        = some (some false)
    ∧ (alGet c1State.cache 1).map (fun c => c.map Account.isDirty)
        = some (some true) := by
  refine ⟨by rfl, by rfl, by rfl⟩

/-- C9 (amended): a structural trie error met while resolving an account on
a cache miss makes every read abort through
`panic!("Potential DB corruption encountered: ...")` — the error is neither
returned to the caller as a value nor silently defaulted. -/
theorem c9_reads_panic_on_corruption (s : StateS) (a k : Nat) (e : TrieErr)
    (hmiss : alGet s.cache a = none)
    (herr : s.trieLookupAccount a = .error (.err e)) :
    s.balance a = .error (.panicked e)
    ∧ s.nonce a = .error (.panicked e)
    ∧ s.storage_at a k = .error (.panicked e)
    ∧ s.code a = .error (.panicked e)
    ∧ s.existsAcct a = .error (.panicked e) := by
  have hcell : s.ensure_cached_val a false = .error (.panicked e) := by
    unfold StateS.ensure_cached_val
    simp [hmiss, herr, liftLookup, Bind.bind, Except.bind]
  have hcell2 : s.ensure_cached_val a true = .error (.panicked e) := by
    unfold StateS.ensure_cached_val
    simp [hmiss, herr, liftLookup, Bind.bind, Except.bind]
  refine ⟨?_, ?_, ?_, ?_, ?_⟩
  · simp [StateS.balance, hcell, Except.map]
  · simp [StateS.nonce, hcell, Except.map]
  · simp [StateS.storage_at, hcell, Bind.bind, Except.bind]
  · simp [StateS.code, hcell2, Except.map]
  · simp [StateS.existsAcct, hcell, Except.map]

/-- A state over the dangling store with an empty cache: every read of any
account must resolve through the broken trie. -/
def c9State : StateS :=
  { db := c1Db, root := hashNode c1Node, cache := [], snapshots := [],
    accountStartNonce := 0 }

/-- C9, counterexample: on `c9State` the `balance` read does not propagate
`IncompleteDatabase(99)` to the caller as an error value — it aborts with
the `ensure_cached` panic (and the other reads do the same). -/
theorem c9_read_panics_not_propagates :
    c9State.balance 1 = .error (.panicked (.incompleteDatabase 99))
    ∧ c9State.existsAcct 1 = .error (.panicked (.incompleteDatabase 99)) := by
  refine ⟨by rfl, by rfl⟩

theorem c9_reads_panic_on_corruption_witness :
    c9State.nonce 1 = .error (.panicked (.incompleteDatabase 99))
    ∧ c9State.code 1 = .error (.panicked (.incompleteDatabase 99)) :=
  ⟨(c9_reads_panic_on_corruption c9State 1 0 (.incompleteDatabase 99)
      rfl (by rfl)).2.1,
   (c9_reads_panic_on_corruption c9State 1 0 (.incompleteDatabase 99)
      rfl (by rfl)).2.2.2.1⟩

/-! ## Claim theorems: buffered key-value store -/

/-- A freshly opened database with empty overlay and disk. -/
def emptyOpenDb : Database :=
  { isOpen := true, overlay := fun _ _ => none, disk := fun _ _ => none }

/-- C4, the code's actual behavior: a `put_compressed` buffered to the
*default* column and flushed reaches the disk as the *raw* value (the
`flush` loop computes `compressed` but its default-column branch writes
`&value`), while a named column is flushed RLP-block-compressed and the
direct `Database::write` path compresses for the default column as well. -/
theorem c4_flush_default_column_skips_compression
    (compress : Bytes → Bytes) (k v : Bytes) :
    ((emptyOpenDb.write_buffered ⟨[.insCompressed none k v]⟩).flush compress).map
        (fun d => d.disk none k) = .ok (some v)
    ∧ ((emptyOpenDb.write_buffered ⟨[.insCompressed (some 0) k v]⟩).flush compress).map
        (fun d => d.disk (some 0) k) = .ok (some (compress v))
    ∧ (emptyOpenDb.write compress ⟨[.insCompressed none k v]⟩).map
        (fun d => d.disk none k) = .ok (some (compress v)) := by
  refine ⟨?_, ?_, ?_⟩ <;>
    simp [emptyOpenDb, Database.write_buffered, applyOpToOverlay, Database.flush,
      Database.write, applyOpToDisk, flushCellValue, Except.map, toOverlayColumn]

/-- C8: `get` consults the overlay first — a buffered `Insert` or
`InsertCompressed` for the key is returned as the pending value, a buffered
`Delete` reads as absent, the disk is consulted only when the overlay has
no entry for the key, and a closed database returns absent. -/
theorem c8_get_overlay_first (db : Database) (col : Option Nat) (key v : Bytes)
    (hopen : db.isOpen = true) :
    (db.write_buffered ⟨[.ins col key v]⟩).get col key = .ok (some v)
    ∧ (db.write_buffered ⟨[.insCompressed col key v]⟩).get col key = .ok (some v)
    ∧ (db.write_buffered ⟨[.del col key]⟩).get col key = .ok none
    ∧ (db.overlay (toOverlayColumn col) key = none →
        db.get col key = .ok (db.disk col key))
    ∧ ({ db with isOpen := false } : Database).get col key = .ok none := by
  refine ⟨?_, ?_, ?_, fun hov => ?_, ?_⟩
  · simp [Database.get, Database.write_buffered, applyOpToOverlay, hopen]
  · simp [Database.get, Database.write_buffered, applyOpToOverlay, hopen]
  · simp [Database.get, Database.write_buffered, applyOpToOverlay, hopen]
  · simp [Database.get, hopen, hov]
  · simp [Database.get]

theorem c8_get_overlay_first_witness :
    (emptyOpenDb.write_buffered ⟨[.ins (some 3) [1, 2] [7]]⟩).get (some 3) [1, 2]
      = .ok (some [7])
    ∧ ({ emptyOpenDb with isOpen := false } : Database).get (some 3) [1, 2] = .ok none :=
  ⟨(c8_get_overlay_first emptyOpenDb (some 3) [1, 2] [7] rfl).1,
   (c8_get_overlay_first emptyOpenDb (some 3) [1, 2] [7] rfl).2.2.2.2⟩

/-! ## Trie iterator (`TrieDBIterator` in `util/src/trie/triedb.rs`) -/

/-- The per-crumb status machine (`enum Status`): `Entering → At →
AtChild(0..=15) → Exiting`.  `At` is rendered `visiting`. -/
inductive Status where
  | entering
  | visiting
  | atChild (i : Nat)
  | exiting
deriving DecidableEq, Repr

/-- A descent-trail entry (`struct Crumb`). -/
structure Crumb where
  node : TNode
  status : Status

/-- `Crumb::increment`: move to the next status in the node's sequence. -/
def Crumb.increment (c : Crumb) : Crumb :=
  { c with status :=
    match c.status, c.node with
    | _, .empty => .exiting
    | .entering, _ => .visiting
    | .visiting, .branch _ _ => .atChild 0
    | .atChild x, .branch _ _ => if x < 15 then .atChild (x + 1) else .exiting
    | _, _ => .exiting }

/-- Iterator state (`struct TrieDBIterator`): the descent trail (innermost
crumb first, matching the `Vec`'s last) and the reconstructed key
nibbles. -/
structure IterSt where
  trail : List Crumb
  keyNibbles : List Nat

/-- The nibble contribution a node makes to the key on descent
(`TrieDBIterator::descend` extends the key by a leaf's or extension's
path). -/
def nodePath : TNode → List Nat
  | .leaf p _ => p
  | .ext p _ => p
  | _ => []

/-- Push a freshly resolved node onto the trail (`descend`'s body after the
`get_node(..).unwrap()`). -/
def IterSt.pushNode (st : IterSt) (n : TNode) : IterSt :=
  { trail := { node := n, status := .entering } :: st.trail,
    keyNibbles := st.keyNibbles ++ nodePath n }

/-- `TrieDBIterator::descend`: resolve the child reference (the source
`unwrap`s — a failure is a panic, surfaced as the error here) and push
it. -/
def IterSt.descend (db : HashDB) (st : IterSt) (d : TRef) :
    Except TrieAbort IterSt :=
  (getRawOrLookup db d).map st.pushNode

/-- `TrieDBIterator::key`: collapse the nibble pairs to bytes (a trailing
odd nibble is dropped by the `zip`). -/
def nibsToBytes : List Nat → Bytes
  | h :: l :: t => (h * 16 + l) :: nibsToBytes t
  | _ => []

/-- `TrieDBIterator::next` (fuel bounds the source's unbounded inner
recursion; the catch-all `_ => panic!()` arm and a failed descent surface
as errors).  The key-nibble bookkeeping is the source's: exiting a leaf or
extension truncates its path, exiting a branch pops the child nibble;
stepping to child `0` pushes a `0` nibble, to child `i > 0` rewrites the
last nibble (the raw RLP of a child reference is never empty, so the
`children[i].len() > 0` guard is the length of `encodeRef`). -/
def iterNext (db : HashDB) : Nat → IterSt → Except TrieAbort (Option ((Bytes × Bytes) × IterSt))
  | 0, _ => .error .overflow
  | fuel + 1, st =>
    match st.trail with
    | [] => .ok none
    | b0 :: rest =>
      let b := b0.increment
      match b.status, b.node with
      | .exiting, n =>
        iterNext db fuel
          { trail := rest,
            keyNibbles := match n with
              | .leaf p _ => st.keyNibbles.take (st.keyNibbles.length - p.length)
              | .ext p _ => st.keyNibbles.take (st.keyNibbles.length - p.length)
              | .branch _ _ => st.keyNibbles.dropLast
              | .empty => st.keyNibbles }
      | .visiting, .leaf _ v =>
        .ok (some ((nibsToBytes st.keyNibbles, v), { st with trail := b :: rest }))
      | .visiting, .ext _ d => do
        let st1 ← ({ st with trail := b :: rest } : IterSt).descend db d
        iterNext db fuel st1
      | .visiting, .branch _ (some v) =>
        .ok (some ((nibsToBytes st.keyNibbles, v), { st with trail := b :: rest }))
      | .visiting, .branch _ none =>
        iterNext db fuel { st with trail := b :: rest }
      | .atChild i, .branch cs _ =>
        if (encodeRef (cs.getD i (.inline .empty))).length > 0 then
          let ks := if i = 0 then st.keyNibbles ++ [0] else st.keyNibbles.dropLast ++ [i]
          match ({ trail := b :: rest, keyNibbles := ks } : IterSt).descend db
              (cs.getD i (.inline .empty)) with
          | .ok st2 => iterNext db fuel st2
          | .error e => .error e
        else
          iterNext db fuel
            { trail := b :: rest,
              keyNibbles := if i = 0 then st.keyNibbles ++ [0] else st.keyNibbles }
      | _, _ => .error .overflow

/-- `TrieDBIterator::new`: resolve the root node and descend into it. -/
def iterInit (db : HashDB) (root : Nat) : Except TrieAbort IterSt :=
  (rootData db root).map (IterSt.pushNode { trail := [], keyNibbles := [] })

/-- Collect the whole iteration. -/
def iterAll (db : HashDB) : Nat → IterSt → Except TrieAbort (List (Bytes × Bytes))
  | 0, _ => .error .overflow
  | fuel + 1, st => do
    match ← iterNext db fuel st with
    | none => .ok []
    | some (item, st') => do
      let rest ← iterAll db fuel st'
      .ok (item :: rest)

/-! ## Iterator verification: contents, weights, invariants -/

mutual
/-- In-order contents of a node below prefix `pfx` (nibble keys). -/
def nodeItems (pfx : List Nat) : TNode → List (List Nat × Bytes)
  | .empty => []
  | .leaf p v => [(pfx ++ p, v)]
  | .ext p c => refItems (pfx ++ p) c
  | .branch cs v =>
    (match v with | some w => [(pfx, w)] | none => []) ++ refsItems pfx 0 cs
/-- Contents of a child reference of a fully *resolved* contents tree (in
which every reference is inline; a stored trie's hash-addressed children
are related to such a tree by `storeN` and resolved through the backing
store by the commutation theorem). -/
def refItems (pfx : List Nat) : TRef → List (List Nat × Bytes)
  | .inline n => nodeItems pfx n
  | .hash _ => []
/-- Contents of a branch's children from index `i` on. -/
def refsItems (pfx : List Nat) (i : Nat) : List TRef → List (List Nat × Bytes)
  | [] => []
  | c :: t => refItems (pfx ++ [i]) c ++ refsItems pfx (i + 1) t
end

mutual
/-- Number of `next` arm executions a freshly pushed node costs before it
is popped. -/
def nodeWeight : TNode → Nat
  | .empty => 1
  | .leaf _ _ => 2
  | .ext _ c => 2 + refWeight c
  | .branch cs _ => 18 + refsWeight cs
def refWeight : TRef → Nat
  | .inline n => nodeWeight n
  | .hash _ => 1
def refsWeight : List TRef → Nat
  | [] => 0
  | c :: t => refWeight c + refsWeight t
end

mutual
/-- Well-formed fully *resolved* contents tree: branch children lists
have exactly sixteen entries and every reference is inline.  The stored
form of such a tree — children hash-addressed when their encoding reaches
32 bytes — is produced by `storeN`, and the iterator is verified on
stored tries via the `storeSt` commutation theorem. -/
inductive WfN : TNode → Prop
  | empty : WfN .empty
  | leaf (p : List Nat) (v : Bytes) : WfN (.leaf p v)
  | ext (p : List Nat) (c : TRef) : WfR c → WfN (.ext p c)
  | branch (cs : List TRef) (v : Option Bytes) :
      cs.length = 16 → (∀ r ∈ cs, WfR r) → WfN (.branch cs v)
inductive WfR : TRef → Prop
  | inline (n : TNode) : WfN n → WfR (.inline n)
end

/-- Statuses a stored crumb can carry for its node (exiting crumbs are
transient inside one `next` call). -/
def WfCrumb : Crumb → Prop
  | ⟨.empty, s⟩ => s = .entering
  | ⟨.leaf _ _, s⟩ => s = .entering ∨ s = .visiting
  | ⟨.ext _ _, s⟩ => s = .entering ∨ s = .visiting
  | ⟨.branch _ _, s⟩ => s = .entering ∨ s = .visiting ∨ ∃ i, i ≤ 15 ∧ s = .atChild i

/-- A parent crumb's relation to the crumb above it: the upper node is the
resolved child currently being traversed. -/
def crumbLink (u l : Crumb) : Prop :=
  match l.node, l.status with
  | .ext _ (.inline ch), .visiting => u.node = ch
  | .branch cs _, .atChild i => cs.getD i (.inline .empty) = .inline u.node
  | _, _ => False

/-- Well-formed trail: crumbs hold well-formed nodes with admissible
statuses and adjacent crumbs are linked. -/
def wfTrail : List Crumb → Prop
  | [] => True
  | u :: rest => WfN u.node ∧ WfCrumb u ∧
    (match rest with | [] => True | l :: _ => crumbLink u l) ∧ wfTrail rest

/-- The nibble contribution of a stored crumb to the reconstructed key. -/
def crumbContrib (c : Crumb) : List Nat :=
  match c.node, c.status with
  | .leaf p _, _ => p
  | .ext p _, _ => p
  | .branch _ _, .atChild i => [i]
  | _, _ => []

/-- The key accumulated by a trail (innermost crumb first). -/
def keyOf : List Crumb → List Nat
  | [] => []
  | c :: rest => keyOf rest ++ crumbContrib c

/-- Remaining arm executions of a stored crumb. -/
def crumbRemWeight (c : Crumb) : Nat :=
  match c.node, c.status with
  | n, .entering => nodeWeight n
  | .leaf _ _, .visiting => 1
  | .ext _ _, .visiting => 1
  | .branch cs _, .visiting => 17 + refsWeight cs
  | .branch cs _, .atChild i => 16 - i + refsWeight (cs.drop (i + 1))
  | _, _ => 1

/-- Remaining arm executions of a whole state. -/
def stMeasure (st : IterSt) : Nat :=
  (st.trail.map crumbRemWeight).sum

/-- Items a stored crumb has yet to emit, given the key prefix as currently
reconstructed (the crumb's own contribution included). -/
def crumbPending (pfx : List Nat) (c : Crumb) : List (List Nat × Bytes) :=
  match c.node, c.status with
  | .empty, _ => []
  | .leaf _ v, .entering => [(pfx, v)]
  | .ext _ ch, .entering => refItems pfx ch
  | .branch cs v, .entering =>
    (match v with | some w => [(pfx, w)] | none => []) ++ refsItems pfx 0 cs
  | .leaf _ _, _ => []
  | .ext _ _, _ => []
  | .branch cs _, .visiting => refsItems pfx 0 cs
  | .branch cs _, .atChild i => refsItems pfx.dropLast (i + 1) (cs.drop (i + 1))
  | .branch _ _, .exiting => []

/-- Items a trail has yet to emit. -/
def remainingItems : List Crumb → List (List Nat × Bytes)
  | [] => []
  | c :: rest => crumbPending (keyOf (c :: rest)) c ++ remainingItems rest

/-- The whole-state well-formedness for the iterator simulation: a
well-formed trail whose reconstructed key is the state's `keyNibbles`. -/
def WfSt (st : IterSt) : Prop :=
  wfTrail st.trail ∧ st.keyNibbles = keyOf st.trail

theorem crumbPending_entering (B : List Nat) (n : TNode) :
    crumbPending (B ++ nodePath n) ⟨n, .entering⟩ = nodeItems B n := by
  cases n with
  | empty => rfl
  | leaf p v => rfl
  | ext p c => rfl
  | branch cs v => simp [crumbPending, nodePath, nodeItems]

theorem take_unappend (A B : List Nat) :
    (A ++ B).take ((A ++ B).length - B.length) = A := by
  have h : (A ++ B).length - B.length = A.length := by
    simp
  rw [h, List.take_left]

theorem dropLast_unappend (A : List Nat) (x : Nat) :
    (A ++ [x]).dropLast = A := by
  simp

theorem drop_eq_getD_cons {cs : List TRef} {i : Nat} (h : i < cs.length) :
    cs.drop i = cs.getD i (.inline .empty) :: cs.drop (i + 1) := by
  rw [List.getD_eq_getElem cs _ h]
  exact List.drop_eq_getElem_cons h

theorem wfR_getD {cs : List TRef} (hl : cs.length = 16)
    (hw : ∀ r ∈ cs, WfR r) {i : Nat} (hi : i < 16) :
    ∃ ch, cs.getD i (.inline .empty) = .inline ch ∧ WfN ch := by
  have hlt : i < cs.length := by rw [hl]; exact hi
  have hmem : cs.getD i (.inline .empty) ∈ cs := by
    rw [List.getD_eq_getElem cs _ hlt]
    exact List.getElem_mem hlt
  have hwr := hw _ hmem
  rcases hrr : cs.getD i (.inline .empty) with n | hh
  · rw [hrr] at hwr
    cases hwr with
    | inline n hn => exact ⟨n, rfl, hn⟩
  · rw [hrr] at hwr
    cases hwr

theorem encodeRef_ne_nil (r : TRef) : (encodeRef r).length > 0 := by
  cases r with
  | inline n => simp [encodeRef]
  | hash h => simp [encodeRef]

theorem refsItems_cons (pfx : List Nat) (i : Nat) (c : TRef) (t : List TRef) :
    refsItems pfx i (c :: t) = refItems (pfx ++ [i]) c ++ refsItems pfx (i + 1) t := by
  rw [refsItems]

theorem refsItems_drop {cs : List TRef} (hl : cs.length = 16) {i : Nat}
    (hi : i < 16) (pfx : List Nat) :
    refsItems pfx i (cs.drop i)
      = refItems (pfx ++ [i]) (cs.getD i (.inline .empty))
        ++ refsItems pfx (i + 1) (cs.drop (i + 1)) := by
  rw [drop_eq_getD_cons (by rw [hl]; exact hi), refsItems_cons]

theorem refsWeight_cons (c : TRef) (t : List TRef) :
    refsWeight (c :: t) = refWeight c + refsWeight t := by
  rw [refsWeight]

theorem refsWeight_drop {cs : List TRef} (hl : cs.length = 16) {i : Nat}
    (hi : i < 16) :
    refsWeight (cs.drop i)
      = refWeight (cs.getD i (.inline .empty)) + refsWeight (cs.drop (i + 1)) := by
  rw [drop_eq_getD_cons (by rw [hl]; exact hi), refsWeight_cons]

theorem drop_sixteen {cs : List TRef} (hl : cs.length = 16) : cs.drop 16 = [] := by
  rw [← hl]
  exact List.drop_length cs

theorem wfCrumb_entering (n : TNode) : WfCrumb ⟨n, .entering⟩ := by
  cases n <;> simp [WfCrumb]

theorem crumbContrib_entering (n : TNode) :
    crumbContrib ⟨n, .entering⟩ = nodePath n := by
  cases n <;> rfl

/-- The two clauses of the iterator simulation at a given fuel. -/
def IterClauses (db : HashDB) (fuel : Nat) (st : IterSt) : Prop :=
  (remainingItems st.trail = [] → iterNext db fuel st = .ok none)
  ∧ (∀ k v rest, remainingItems st.trail = (k, v) :: rest →
      ∃ st', iterNext db fuel st = .ok (some ((nibsToBytes k, v), st'))
        ∧ WfSt st' ∧ remainingItems st'.trail = rest ∧ stMeasure st' < stMeasure st)

theorem clauses_of_step {db : HashDB} {fuel : Nat} {st : IterSt} (st1 : IterSt)
    (hstep : iterNext db (fuel + 1) st = iterNext db fuel st1)
    (hwf1 : WfSt st1) (hrem : remainingItems st1.trail = remainingItems st.trail)
    (hms : stMeasure st1 < stMeasure st)
    (ih : ∀ s, WfSt s → stMeasure s < fuel → IterClauses db fuel s)
    (hfuel : stMeasure st < fuel + 1) :
    IterClauses db (fuel + 1) st := by
  have hf1 : stMeasure st1 < fuel :=
    lt_of_lt_of_le hms (Nat.lt_succ_iff.mp hfuel)
  have hc := ih st1 hwf1 hf1
  constructor
  · intro h
    rw [hstep]
    exact hc.1 (hrem.trans h)
  · intro k v rest h
    obtain ⟨st', he, hw, hr, hm⟩ := hc.2 k v rest (hrem.trans h)
    exact ⟨st', hstep.trans he, hw, hr, lt_trans hm hms⟩

set_option maxHeartbeats 1000000 in
/-- The iterator simulation: from a well-formed state, `next` returns the
head of the state's remaining items (with the key collapsed to bytes) and
steps to a state carrying the tail, or `None` when nothing remains. -/
theorem iterNext_spec (db : HashDB) : ∀ (fuel : Nat) (st : IterSt),
    WfSt st → stMeasure st < fuel → IterClauses db fuel st := by
  intro fuel
  induction fuel with
  | zero => intro st _ h; exact absurd h (Nat.not_lt_zero _)
  | succ fuel ih =>
    intro st hwf hfl
    obtain ⟨trail, K⟩ := st
    rcases trail with _ | ⟨⟨node, status⟩, rest⟩
    · constructor
      · intro _
        simp [iterNext]
      · intro k v r h
        simp [remainingItems] at h
    · obtain ⟨hwt, hK⟩ := hwf
      obtain ⟨hWfN, hWfC, hlink, hrest⟩ := hwt
      cases node with
      | empty =>
        have hst : status = .entering := hWfC
        subst hst
        refine clauses_of_step (⟨rest, K⟩) ?_ ?_ ?_ ?_ ih hfl
        · simp [iterNext, Crumb.increment]
        · refine ⟨hrest, ?_⟩
          simpa [keyOf, crumbContrib] using hK
        · simp [remainingItems, crumbPending]
        · simp [stMeasure, crumbRemWeight, nodeWeight]
      | leaf p v =>
        rcases hWfC with hst | hst
        · -- entering: emit
          subst hst
          constructor
          · intro h
            simp [remainingItems, crumbPending] at h
          · intro k v' rest' h
            dsimp only at hK
            have hrem : remainingItems ({ node := TNode.leaf p v, status := Status.entering } :: rest)
                = (keyOf ({ node := TNode.leaf p v, status := Status.entering } :: rest), v)
                  :: remainingItems rest := by
              simp [remainingItems, crumbPending]
            rw [hrem, List.cons.injEq, Prod.mk.injEq] at h
            obtain ⟨⟨hk, hv⟩, hr⟩ := h
            subst hv
            refine ⟨⟨{ node := TNode.leaf p v, status := Status.visiting } :: rest, K⟩,
              ?_, ?_, ?_, ?_⟩
            · have hkk : nibsToBytes k = nibsToBytes K := by
                rw [← hk, ← hK]
              rw [hkk]
              simp [iterNext, Crumb.increment]
            · refine ⟨⟨hWfN, Or.inr rfl, ?_, hrest⟩, ?_⟩
              · exact hlink
              · dsimp only
                rw [hK]
                simp [keyOf, crumbContrib]
            · dsimp only
              rw [← hr]
              simp [remainingItems, crumbPending]
            · simp [stMeasure, crumbRemWeight, nodeWeight]
        · -- visiting: exit
          subst hst
          refine clauses_of_step (⟨rest, K.take (K.length - p.length)⟩) ?_ ?_ ?_ ?_ ih hfl
          · simp [iterNext, Crumb.increment]
          · refine ⟨hrest, ?_⟩
            dsimp only at hK ⊢
            rw [hK]
            simp only [keyOf, crumbContrib]
            rw [take_unappend]
          · simp [remainingItems, crumbPending]
          · simp [stMeasure, crumbRemWeight]
      | ext p c =>
        have hWfN2 := hWfN
        cases hWfN2 with
        | ext _ _ hc =>
        cases hc with
        | inline ch hch =>
        rcases hWfC with hst | hst
        · -- entering: descend into the child
          subst hst
          refine clauses_of_step
            (⟨{ node := ch, status := .entering }
              :: { node := TNode.ext p (.inline ch), status := .visiting } :: rest,
              K ++ nodePath ch⟩) ?_ ?_ ?_ ?_ ih hfl
          · simp [iterNext, Crumb.increment, IterSt.descend, getRawOrLookup,
              Except.map, Bind.bind, Except.bind, IterSt.pushNode]
          · refine ⟨⟨hch, wfCrumb_entering ch, ?_, hWfN, Or.inr rfl, hlink, hrest⟩, ?_⟩
            · simp [crumbLink]
            · dsimp only at hK ⊢
              rw [hK]
              cases ch <;> simp [keyOf, crumbContrib, nodePath]
          · dsimp only
            dsimp only at hK
            have h1 : keyOf ({ node := ch, status := Status.entering }
                :: { node := TNode.ext p (.inline ch), status := Status.visiting } :: rest)
                = (keyOf rest ++ p) ++ nodePath ch := by
              cases ch <;> simp [keyOf, crumbContrib, nodePath]
            simp only [remainingItems, h1, crumbPending_entering]
            simp [crumbPending, keyOf, crumbContrib, refItems]
          · simp [stMeasure, crumbRemWeight, nodeWeight, refWeight]
            omega
        · -- visiting: exit, truncating the path
          subst hst
          refine clauses_of_step (⟨rest, K.take (K.length - p.length)⟩)
            ?_ ?_ ?_ ?_ ih hfl
          · simp [iterNext, Crumb.increment]
          · refine ⟨hrest, ?_⟩
            dsimp only at hK ⊢
            rw [hK]
            simp only [keyOf, crumbContrib]
            rw [take_unappend]
          · simp [remainingItems, crumbPending]
          · simp [stMeasure, crumbRemWeight]
      | branch cs v =>
        have hWfN2 := hWfN
        cases hWfN2 with
        | branch _ _ hl hcs =>
        rcases hWfC with hst | hst | ⟨i, hile, hst⟩
        · -- entering
          subst hst
          cases v with
          | some w =>
            constructor
            · intro h
              simp [remainingItems, crumbPending] at h
            · intro k v' rest' h
              dsimp only at hK
              have hrem : remainingItems ({ node := TNode.branch cs (some w), status := Status.entering } :: rest)
                  = (keyOf ({ node := TNode.branch cs (some w), status := Status.entering } :: rest), w)
                    :: (refsItems (keyOf ({ node := TNode.branch cs (some w), status := Status.entering } :: rest)) 0 cs
                      ++ remainingItems rest) := by
                simp [remainingItems, crumbPending]
              rw [hrem, List.cons.injEq, Prod.mk.injEq] at h
              obtain ⟨⟨hk, hv⟩, hr⟩ := h
              subst hv
              refine ⟨⟨{ node := TNode.branch cs (some w), status := Status.visiting } :: rest, K⟩,
                ?_, ?_, ?_, ?_⟩
              · have hkk : nibsToBytes k = nibsToBytes K := by
                  rw [← hk, ← hK]
                rw [hkk]
                simp [iterNext, Crumb.increment]
              · refine ⟨⟨hWfN, Or.inr (Or.inl rfl), hlink, hrest⟩, ?_⟩
                exact hK
              · dsimp only
                rw [← hr]
                simp [remainingItems, crumbPending, keyOf, crumbContrib]
              · simp [stMeasure, crumbRemWeight, nodeWeight]
          | none =>
            refine clauses_of_step
              (⟨{ node := TNode.branch cs none, status := Status.visiting } :: rest, K⟩)
              ?_ ?_ ?_ ?_ ih hfl
            · simp [iterNext, Crumb.increment]
            · exact ⟨⟨hWfN, Or.inr (Or.inl rfl), hlink, hrest⟩, hK⟩
            · simp [remainingItems, crumbPending, keyOf, crumbContrib]
            · simp [stMeasure, crumbRemWeight, nodeWeight]
        · -- visiting: step to child 0
          subst hst
          obtain ⟨ch0, hch0, hwch0⟩ := wfR_getD hl hcs (show (0:Nat) < 16 by decide)
          refine clauses_of_step
            (⟨{ node := ch0, status := Status.entering }
              :: { node := TNode.branch cs v, status := Status.atChild 0 } :: rest,
              (K ++ [0]) ++ nodePath ch0⟩) ?_ ?_ ?_ ?_ ih hfl
          · simp only [iterNext, Crumb.increment]
            rw [hch0]
            simp [encodeRef, IterSt.descend, getRawOrLookup, Except.map, IterSt.pushNode]
          · refine ⟨⟨hwch0, wfCrumb_entering ch0, ?_, hWfN,
              Or.inr (Or.inr ⟨0, by decide, rfl⟩), ?_, hrest⟩, ?_⟩
            · exact hch0
            · exact hlink
            · dsimp only at hK ⊢
              rw [hK]
              cases ch0 <;> simp [keyOf, crumbContrib, nodePath]
          · dsimp only at hK ⊢
            have h1 : keyOf ({ node := ch0, status := Status.entering }
                :: { node := TNode.branch cs v, status := Status.atChild 0 } :: rest)
                = (keyOf rest ++ [0]) ++ nodePath ch0 := by
              cases ch0 <;> simp [keyOf, crumbContrib, nodePath]
            simp only [remainingItems, h1, crumbPending_entering]
            have h2 : keyOf ({ node := TNode.branch cs v, status := Status.atChild 0 } :: rest)
                = keyOf rest ++ [0] := by
              simp [keyOf, crumbContrib]
            have h3 : keyOf ({ node := TNode.branch cs v, status := Status.visiting } :: rest)
                = keyOf rest := by
              simp [keyOf, crumbContrib]
            rw [h2, h3]
            simp only [crumbPending]
            rw [dropLast_unappend]
            have h4 : refsItems (keyOf rest) 0 cs
                = nodeItems (keyOf rest ++ [0]) ch0 ++ refsItems (keyOf rest) 1 (cs.drop 1) := by
              have h := refsItems_drop hl (show (0:Nat) < 16 by decide) (keyOf rest)
              rw [hch0] at h
              simpa [refItems] using h
            rw [h4, List.append_assoc]
          · dsimp only
            simp only [stMeasure, List.map_cons, List.sum_cons, crumbRemWeight]
            have h5 := refsWeight_drop hl (show (0:Nat) < 16 by decide)
            rw [List.drop_zero] at h5
            rw [h5, hch0]
            simp only [refWeight]
            omega
        · -- atChild i
          subst hst
          by_cases hi : i < 15
          · obtain ⟨ch, hch, hwch⟩ := wfR_getD hl hcs (show i + 1 < 16 by omega)
            refine clauses_of_step
              (⟨{ node := ch, status := Status.entering }
                :: { node := TNode.branch cs v, status := Status.atChild (i + 1) } :: rest,
                (K.dropLast ++ [i + 1]) ++ nodePath ch⟩) ?_ ?_ ?_ ?_ ih hfl
            · simp only [iterNext, Crumb.increment, if_pos hi]
              rw [hch]
              simp [encodeRef, IterSt.descend, getRawOrLookup, Except.map, IterSt.pushNode]
            · refine ⟨⟨hwch, wfCrumb_entering ch, ?_, hWfN,
                Or.inr (Or.inr ⟨i + 1, by omega, rfl⟩), ?_, hrest⟩, ?_⟩
              · exact hch
              · exact hlink
              · dsimp only at hK ⊢
                rw [hK]
                simp only [keyOf, crumbContrib]
                rw [dropLast_unappend]
                cases ch <;> simp [crumbContrib, nodePath]
            · dsimp only at hK ⊢
              have h1 : keyOf ({ node := ch, status := Status.entering }
                  :: { node := TNode.branch cs v, status := Status.atChild (i + 1) } :: rest)
                  = (keyOf rest ++ [i + 1]) ++ nodePath ch := by
                cases ch <;> simp [keyOf, crumbContrib, nodePath]
              simp only [remainingItems, h1, crumbPending_entering]
              have h2 : keyOf ({ node := TNode.branch cs v, status := Status.atChild (i + 1) } :: rest)
                  = keyOf rest ++ [i + 1] := by
                simp [keyOf, crumbContrib]
              have h3 : keyOf ({ node := TNode.branch cs v, status := Status.atChild i } :: rest)
                  = keyOf rest ++ [i] := by
                simp [keyOf, crumbContrib]
              rw [h2, h3]
              simp only [crumbPending]
              rw [dropLast_unappend, dropLast_unappend]
              have h4 : refsItems (keyOf rest) (i + 1) (cs.drop (i + 1))
                  = nodeItems (keyOf rest ++ [i + 1]) ch
                    ++ refsItems (keyOf rest) (i + 2) (cs.drop (i + 2)) := by
                have h := refsItems_drop hl (show i + 1 < 16 by omega) (keyOf rest)
                rw [hch] at h
                simpa [refItems] using h
              rw [h4, List.append_assoc]
            · dsimp only
              simp only [stMeasure, List.map_cons, List.sum_cons, crumbRemWeight]
              have h5 := refsWeight_drop hl (show i + 1 < 16 by omega)
              rw [h5, hch]
              simp only [refWeight]
              omega
          · have hi15 : i = 15 := by omega
            subst hi15
            refine clauses_of_step (⟨rest, K.dropLast⟩) ?_ ?_ ?_ ?_ ih hfl
            · simp [iterNext, Crumb.increment]
            · refine ⟨hrest, ?_⟩
              dsimp only at hK ⊢
              rw [hK]
              simp only [keyOf, crumbContrib]
              rw [dropLast_unappend]
            · dsimp only
              simp only [remainingItems, crumbPending]
              rw [drop_sixteen hl]
              simp [refsItems]
            · simp only [stMeasure, List.map_cons, List.sum_cons, crumbRemWeight]
              omega

/-- Collecting the whole iteration from a well-formed state yields exactly
the remaining items, keys collapsed to bytes. -/
theorem iterAll_spec (db : HashDB) : ∀ (fuel : Nat) (st : IterSt),
    WfSt st → stMeasure st + 1 < fuel →
    iterAll db fuel st
      = .ok ((remainingItems st.trail).map fun p => (nibsToBytes p.1, p.2)) := by
  intro fuel
  induction fuel with
  | zero => intro st _ h; exact absurd h (Nat.not_lt_zero _)
  | succ fuel ih =>
    intro st hwf hfl
    have hc := iterNext_spec db fuel st hwf (by omega)
    rcases hrem : remainingItems st.trail with _ | ⟨⟨k, v⟩, rest⟩
    · have h1 := hc.1 hrem
      simp [iterAll, h1, Bind.bind, Except.bind]
    · obtain ⟨st', he, hw, hr, hm⟩ := hc.2 k v rest hrem
      have h2 := ih st' hw (by omega)
      simp [iterAll, he, Bind.bind, Except.bind, h2, hr]

/-- Iterating a trie whose (well-formed, fully inline) root node is stored
in the backing store yields its in-order contents with byte-collapsed
keys. -/
theorem iterate_trie (db : HashDB) (root : Nat) (n : TNode)
    (hdb : db root = some (.node n)) (hwf : WfN n) (fuel : Nat)
    (hfuel : nodeWeight n + 1 < fuel) :
    (iterInit db root).bind (iterAll db fuel)
      = .ok ((nodeItems [] n).map fun p => (nibsToBytes p.1, p.2)) := by
  have hinit : iterInit db root
      = .ok ⟨[{ node := n, status := .entering }], nodePath n⟩ := by
    simp [iterInit, rootData, hdb, Except.map, IterSt.pushNode]
  have hwfst : WfSt ⟨[{ node := n, status := .entering }], nodePath n⟩ := by
    refine ⟨⟨hwf, wfCrumb_entering n, trivial, trivial⟩, ?_⟩
    simp [keyOf, crumbContrib_entering]
  have hms : stMeasure ⟨[{ node := n, status := .entering }], nodePath n⟩
      = nodeWeight n := by
    simp [stMeasure, crumbRemWeight]
  have hrem : remainingItems [({ node := n, status := .entering } : Crumb)]
      = nodeItems [] n := by
    have h := crumbPending_entering [] n
    simp only [List.nil_append] at h
    simp [remainingItems, keyOf, crumbContrib_entering, h]
  rw [hinit]
  simp only [Except.bind]
  rw [iterAll_spec db fuel _ hwfst (by rw [hms]; omega), hrem]

/-! ## Stored tries: the inlining rule

A node as held in the backing store references each child either inline
(encoding under 32 bytes) or by the 32-byte hash of the child's stored
encoding.  `storeN` maps a fully resolved contents tree to its stored
form; `covN` says the backing store holds every hash-addressed descendant,
which is what the iterator's `descend`/`get_raw_or_lookup` resolution
relies on. -/

mutual
/-- Modelled from the spec: the stored form of a node — each child whose
stored encoding is at least 32 bytes is replaced by the hash of that
encoding, smaller children stay inlined (the load-bearing inlining
rule). -/
def storeN : TNode → TNode
  | .empty => .empty
  | .leaf p v => .leaf p v
  | .ext p c => .ext p (storeR c)
  | .branch cs v => .branch (storeRs cs) v
/-- Modelled from the spec: a child reference in stored form. -/
def storeR : TRef → TRef
  | .inline n =>
    if (encodeNode (storeN n)).length < 32 then .inline (storeN n)
    else .hash (hashNode (storeN n))
  | .hash h => .hash h
/-- Stored forms of a branch's sixteen children. -/
def storeRs : List TRef → List TRef
  | [] => []
  | c :: t => storeR c :: storeRs t
end

mutual
/-- The backing store holds every hash-addressed node of the stored form
of this contents tree. -/
def covN (db : HashDB) : TNode → Prop
  | .ext _ c => covR db c
  | .branch cs _ => covRs db cs
  | _ => True
/-- Store coverage of one child: an inlined child needs nothing for
itself, a hash-addressed child must resolve in the store; either way the
child's own descendants are covered. -/
def covR (db : HashDB) : TRef → Prop
  | .inline n =>
    covN db n ∧ ((encodeNode (storeN n)).length < 32
      ∨ db (hashNode (storeN n)) = some (.node (storeN n)))
  | .hash _ => True
/-- Store coverage of a branch's children. -/
def covRs (db : HashDB) : List TRef → Prop
  | [] => True
  | c :: t => covR db c ∧ covRs db t
end

/-- A trail crumb with its node in stored form. -/
def storeC (c : Crumb) : Crumb := ⟨storeN c.node, c.status⟩

/-- An iterator state with every trail node in stored form. -/
def storeSt (st : IterSt) : IterSt := ⟨st.trail.map storeC, st.keyNibbles⟩

/-- Every trail node is a well-formed contents tree covered by the
store. -/
def TrailOk (db : HashDB) (tr : List Crumb) : Prop :=
  ∀ c ∈ tr, WfN c.node ∧ covN db c.node

theorem nodePath_store (n : TNode) : nodePath (storeN n) = nodePath n := by
  cases n <;> rfl

theorem increment_store (c : Crumb) : (storeC c).increment = storeC c.increment := by
  rcases c with ⟨n, s⟩
  cases n <;> cases s <;> rfl

theorem storeR_inline_empty : storeR (.inline .empty) = .inline .empty := by
  simp [storeR, storeN, encodeNode]

theorem storeRs_getD : ∀ (cs : List TRef) (i : Nat),
    (storeRs cs).getD i (.inline .empty) = storeR (cs.getD i (.inline .empty)) := by
  intro cs
  induction cs with
  | nil =>
    intro i
    have h1 : ([] : List TRef).getD i (.inline .empty) = .inline .empty := by
      cases i <;> rfl
    have h2 : (storeRs []).getD i (.inline .empty) = .inline .empty := by
      cases i <;> rfl
    rw [h1, h2, storeR_inline_empty]
  | cons c t ih =>
    intro i
    cases i with
    | zero => rfl
    | succ j =>
      simp only [storeRs, List.getD_cons_succ]
      exact ih j

/-- The stored form of a covered inline child resolves through the store
to the child's own stored form — inlined directly when small, through the
hash lookup when large.  This is the `get_raw_or_lookup` step the
iterator's `descend` performs. -/
theorem getRaw_storeR (db : HashDB) (n : TNode) (hcov : covR db (.inline n)) :
    getRawOrLookup db (storeR (.inline n)) = .ok (storeN n) := by
  by_cases hsm : (encodeNode (storeN n)).length < 32
  · simp [storeR, hsm, getRawOrLookup]
  · rcases hcov with ⟨_, h | hdb⟩
    · exact absurd h hsm
    · simp [storeR, hsm, getRawOrLookup, hdb]

theorem covR_inline_empty (db : HashDB) : covR db (.inline .empty) := by
  refine ⟨trivial, Or.inl ?_⟩
  simp [storeN, encodeNode]

theorem covR_getD (db : HashDB) : ∀ (cs : List TRef), covRs db cs →
    ∀ i : Nat, covR db (cs.getD i (.inline .empty)) := by
  intro cs
  induction cs with
  | nil => intro _ i; exact covR_inline_empty db
  | cons c t ih =>
    intro h i
    cases i with
    | zero => exact h.1
    | succ j =>
      simp only [List.getD_cons_succ]
      exact ih h.2 j

theorem wfR_getD_any {cs : List TRef} (hl : cs.length = 16) (hw : ∀ r ∈ cs, WfR r)
    (i : Nat) : ∃ ch, cs.getD i (.inline .empty) = .inline ch ∧ WfN ch := by
  by_cases hi : i < 16
  · exact wfR_getD hl hw hi
  · refine ⟨.empty, ?_, WfN.empty⟩
    rw [List.getD_eq_default]
    omega

theorem trailOk_cons {db : HashDB} {c : Crumb} {t : List Crumb}
    (hc : WfN c.node ∧ covN db c.node) (ht : TrailOk db t) : TrailOk db (c :: t) := by
  intro c2 hc2
  rcases List.mem_cons.mp hc2 with rfl | hc2
  · exact hc
  · exact ht c2 hc2

theorem store_step {db : HashDB} {fuel : Nat} {st : IterSt} (st1 : IterSt)
    (hstep : iterNext db (fuel + 1) st = iterNext db fuel st1)
    (hstepS : iterNext db (fuel + 1) (storeSt st) = iterNext db fuel (storeSt st1))
    (hok1 : TrailOk db st1.trail)
    (ih : ∀ s : IterSt, TrailOk db s.trail →
      iterNext db fuel (storeSt s)
          = Except.map (Option.map fun pr => (pr.1, storeSt pr.2)) (iterNext db fuel s)
        ∧ ∀ item st2, iterNext db fuel s = .ok (some (item, st2)) → TrailOk db st2.trail) :
    iterNext db (fuel + 1) (storeSt st)
        = Except.map (Option.map fun pr => (pr.1, storeSt pr.2)) (iterNext db (fuel + 1) st)
      ∧ ∀ item st2, iterNext db (fuel + 1) st = .ok (some (item, st2))
          → TrailOk db st2.trail := by
  obtain ⟨h1, h2⟩ := ih st1 hok1
  refine ⟨?_, ?_⟩
  · rw [hstepS, hstep, h1]
  · intro item st2 h
    rw [hstep] at h
    exact h2 item st2 h

theorem store_emit {db : HashDB} {fuel : Nat} {st : IterSt} (item : Bytes × Bytes)
    (st2 : IterSt)
    (hp : iterNext db (fuel + 1) st = .ok (some (item, st2)))
    (hs : iterNext db (fuel + 1) (storeSt st) = .ok (some (item, storeSt st2)))
    (hok2 : TrailOk db st2.trail) :
    iterNext db (fuel + 1) (storeSt st)
        = Except.map (Option.map fun pr => (pr.1, storeSt pr.2)) (iterNext db (fuel + 1) st)
      ∧ ∀ it s2, iterNext db (fuel + 1) st = .ok (some (it, s2))
          → TrailOk db s2.trail := by
  constructor
  · rw [hs, hp]
    rfl
  · intro it s2 h
    rw [hp] at h
    simp only [Except.ok.injEq, Option.some.injEq, Prod.mk.injEq] at h
    rw [← h.2]
    exact hok2

set_option maxHeartbeats 1000000 in
/-- Commutation with storage: from a trail of well-formed, store-covered
nodes, the iterator on the *stored* trie (children hash-addressed per the
inlining rule and resolved through the backing store) computes exactly
what it computes on the fully resolved trie, emitting the same items. -/
theorem iterNext_store (db : HashDB) : ∀ (fuel : Nat) (st : IterSt),
    TrailOk db st.trail →
    iterNext db fuel (storeSt st)
        = Except.map (Option.map fun pr => (pr.1, storeSt pr.2)) (iterNext db fuel st)
      ∧ ∀ item st2, iterNext db fuel st = .ok (some (item, st2))
          → TrailOk db st2.trail := by
  intro fuel
  induction fuel with
  | zero =>
    intro st _
    exact ⟨rfl, fun item st2 h => Except.noConfusion h⟩
  | succ fuel ih =>
    intro st hok
    obtain ⟨trail, K⟩ := st
    rcases trail with _ | ⟨⟨node, status⟩, rest⟩
    · refine ⟨by simp [iterNext, storeSt, Except.map], ?_⟩
      intro item st2 h
      simp only [iterNext] at h
      exact Option.noConfusion (Except.ok.inj h)
    · have hhead := hok _ (List.mem_cons_self _ _)
      have hrest : TrailOk db rest := fun c hc => hok c (List.mem_cons_of_mem _ hc)
      cases node with
      | empty =>
        cases status <;>
          exact store_step ⟨rest, K⟩
            (by simp [iterNext, Crumb.increment])
            (by simp [iterNext, Crumb.increment, storeSt, storeC, storeN])
            hrest ih
      | leaf p v =>
        cases status with
        | entering =>
          exact store_emit (nibsToBytes K, v)
            ⟨{ node := .leaf p v, status := .visiting } :: rest, K⟩
            (by simp [iterNext, Crumb.increment])
            (by simp [iterNext, Crumb.increment, storeSt, storeC, storeN])
            (trailOk_cons hhead hrest)
        | visiting =>
          exact store_step ⟨rest, K.take (K.length - p.length)⟩
            (by simp [iterNext, Crumb.increment])
            (by simp [iterNext, Crumb.increment, storeSt, storeC, storeN])
            hrest ih
        | atChild i =>
          exact store_step ⟨rest, K.take (K.length - p.length)⟩
            (by simp [iterNext, Crumb.increment])
            (by simp [iterNext, Crumb.increment, storeSt, storeC, storeN])
            hrest ih
        | exiting =>
          exact store_step ⟨rest, K.take (K.length - p.length)⟩
            (by simp [iterNext, Crumb.increment])
            (by simp [iterNext, Crumb.increment, storeSt, storeC, storeN])
            hrest ih
      | ext p c =>
        have hWfN := hhead.1
        have hWfN2 := hWfN
        cases hWfN2 with
        | ext _ _ hc =>
        cases hc with
        | inline ch hch =>
        have hcovr : covR db (.inline ch) := hhead.2
        cases status with
        | entering =>
          refine store_step
            ⟨{ node := ch, status := .entering }
              :: { node := TNode.ext p (.inline ch), status := .visiting } :: rest,
              K ++ nodePath ch⟩ ?_ ?_ ?_ ih
          · simp [iterNext, Crumb.increment, IterSt.descend, getRawOrLookup,
              Except.map, Bind.bind, Except.bind, IterSt.pushNode]
          · have hres := getRaw_storeR db ch hcovr
            simp only [iterNext, Crumb.increment, storeSt, storeC, List.map_cons,
              storeN, IterSt.descend]
            rw [hres]
            simp [Except.map, Bind.bind, Except.bind, IterSt.pushNode, nodePath_store]
          · exact trailOk_cons ⟨hch, hcovr.1⟩ (trailOk_cons hhead hrest)
        | visiting =>
          exact store_step ⟨rest, K.take (K.length - p.length)⟩
            (by simp [iterNext, Crumb.increment])
            (by simp [iterNext, Crumb.increment, storeSt, storeC, storeN])
            hrest ih
        | atChild i =>
          exact store_step ⟨rest, K.take (K.length - p.length)⟩
            (by simp [iterNext, Crumb.increment])
            (by simp [iterNext, Crumb.increment, storeSt, storeC, storeN])
            hrest ih
        | exiting =>
          exact store_step ⟨rest, K.take (K.length - p.length)⟩
            (by simp [iterNext, Crumb.increment])
            (by simp [iterNext, Crumb.increment, storeSt, storeC, storeN])
            hrest ih
      | branch cs v =>
        have hWfN := hhead.1
        have hWfN2 := hWfN
        cases hWfN2 with
        | branch _ _ hl hcs =>
        have hcovrs : covRs db cs := hhead.2
        cases status with
        | entering =>
          cases v with
          | some w =>
            exact store_emit (nibsToBytes K, w)
              ⟨{ node := TNode.branch cs (some w), status := .visiting } :: rest, K⟩
              (by simp [iterNext, Crumb.increment])
              (by simp [iterNext, Crumb.increment, storeSt, storeC, storeN])
              (trailOk_cons hhead hrest)
          | none =>
            exact store_step
              ⟨{ node := TNode.branch cs none, status := .visiting } :: rest, K⟩
              (by simp [iterNext, Crumb.increment])
              (by simp [iterNext, Crumb.increment, storeSt, storeC, storeN])
              (trailOk_cons hhead hrest) ih
        | visiting =>
          obtain ⟨ch0, hch0, hwch0⟩ := wfR_getD_any hl hcs 0
          have hcov0 : covR db (.inline ch0) := by
            have h0 := covR_getD db cs hcovrs 0
            rw [hch0] at h0
            exact h0
          refine store_step
            ⟨{ node := ch0, status := .entering }
              :: { node := TNode.branch cs v, status := .atChild 0 } :: rest,
              (K ++ [0]) ++ nodePath ch0⟩ ?_ ?_ ?_ ih
          · simp only [iterNext, Crumb.increment]
            rw [hch0]
            simp [encodeRef, IterSt.descend, getRawOrLookup, Except.map, IterSt.pushNode]
          · have hres := getRaw_storeR db ch0 hcov0
            simp only [iterNext, Crumb.increment, storeSt, storeC, List.map_cons,
              storeN, IterSt.descend]
            rw [storeRs_getD cs 0, hch0]
            rw [if_pos (encodeRef_ne_nil _), hres]
            simp [Except.map, IterSt.pushNode, nodePath_store]
          · exact trailOk_cons ⟨hwch0, hcov0.1⟩ (trailOk_cons hhead hrest)
        | atChild i =>
          by_cases hi : i < 15
          · obtain ⟨ch, hch, hwch⟩ := wfR_getD_any hl hcs (i + 1)
            have hcovc : covR db (.inline ch) := by
              have h0 := covR_getD db cs hcovrs (i + 1)
              rw [hch] at h0
              exact h0
            refine store_step
              ⟨{ node := ch, status := .entering }
                :: { node := TNode.branch cs v, status := .atChild (i + 1) } :: rest,
                (K.dropLast ++ [i + 1]) ++ nodePath ch⟩ ?_ ?_ ?_ ih
            · simp only [iterNext, Crumb.increment, if_pos hi]
              rw [hch]
              simp [encodeRef, IterSt.descend, getRawOrLookup, Except.map, IterSt.pushNode]
            · have hres := getRaw_storeR db ch hcovc
              simp only [iterNext, Crumb.increment, if_pos hi, storeSt, storeC,
                List.map_cons, storeN, IterSt.descend]
              rw [storeRs_getD cs (i + 1), hch]
              rw [if_pos (encodeRef_ne_nil _), hres]
              simp [Except.map, IterSt.pushNode, nodePath_store]
            · exact trailOk_cons ⟨hwch, hcovc.1⟩ (trailOk_cons hhead hrest)
          · exact store_step ⟨rest, K.dropLast⟩
              (by simp [iterNext, Crumb.increment, hi])
              (by simp [iterNext, Crumb.increment, hi, storeSt, storeC, storeN])
              hrest ih
        | exiting =>
          exact store_step ⟨rest, K.dropLast⟩
            (by simp [iterNext, Crumb.increment])
            (by simp [iterNext, Crumb.increment, storeSt, storeC, storeN])
            hrest ih

/-- Collecting the whole iteration commutes with storage. -/
theorem iterAll_store (db : HashDB) : ∀ (fuel : Nat) (st : IterSt),
    TrailOk db st.trail → iterAll db fuel (storeSt st) = iterAll db fuel st := by
  intro fuel
  induction fuel with
  | zero => intro st _; rfl
  | succ fuel ih =>
    intro st hok
    obtain ⟨hc, hpres⟩ := iterNext_store db fuel st hok
    rcases hn : iterNext db fuel st with e | r
    · rw [hn] at hc
      simp [iterAll, hc, hn, Except.map, Bind.bind, Except.bind]
    · rcases r with _ | ⟨item, st2⟩
      · rw [hn] at hc
        simp [iterAll, hc, hn, Except.map, Bind.bind, Except.bind]
      · rw [hn] at hc
        have h2 := ih st2 (hpres item st2 hn)
        simp [iterAll, hc, hn, Except.map, Bind.bind, Except.bind, h2]

/-- Iterating a stored trie — the root node held in the backing store with
children inlined or hash-addressed per the inlining rule, every
hash-addressed descendant present — yields the in-order contents of the
resolved tree with byte-collapsed keys. -/
theorem iterate_stored_trie (db : HashDB) (root : Nat) (n : TNode)
    (hdb : db root = some (.node (storeN n))) (hwf : WfN n) (hcov : covN db n)
    (fuel : Nat) (hfuel : nodeWeight n + 1 < fuel) :
    (iterInit db root).bind (iterAll db fuel)
      = .ok ((nodeItems [] n).map fun p => (nibsToBytes p.1, p.2)) := by
  have hinit : iterInit db root
      = .ok (storeSt ⟨[{ node := n, status := .entering }], nodePath n⟩) := by
    simp [iterInit, rootData, hdb, Except.map, IterSt.pushNode, storeSt, storeC,
      nodePath_store]
  rw [hinit]
  simp only [Except.bind]
  rw [iterAll_store db fuel ⟨[{ node := n, status := .entering }], nodePath n⟩
    (by
      intro c hc
      rcases List.mem_cons.mp hc with rfl | hc
      · exact ⟨hwf, hcov⟩
      · cases hc)]
  have hwfst : WfSt ⟨[{ node := n, status := .entering }], nodePath n⟩ := by
    refine ⟨⟨hwf, wfCrumb_entering n, trivial, trivial⟩, ?_⟩
    simp [keyOf, crumbContrib_entering]
  have hms : stMeasure ⟨[{ node := n, status := .entering }], nodePath n⟩
      = nodeWeight n := by
    simp [stMeasure, crumbRemWeight]
  have hrem : remainingItems [({ node := n, status := .entering } : Crumb)]
      = nodeItems [] n := by
    have h := crumbPending_entering [] n
    simp only [List.nil_append] at h
    simp [remainingItems, keyOf, crumbContrib_entering, h]
  rw [iterAll_spec db fuel _ hwfst (by rw [hms]; omega), hrem]

/-! ## Canonical trie construction (modelled from the spec)

The mutable-trie build a `TrieDB` iterates over is not part of the four
source files; the trie holding a given set of key/value pairs is modelled
canonically from spec §3/§4.2 (leaf/extension/branch structure over
nibble paths, sixteen children per branch). -/

/-- Strict lexicographic order on equal-typed digit strings (used both for
byte keys and nibble keys). -/
def listLtB : List Nat → List Nat → Bool
  | [], [] => false
  | [], _ :: _ => true
  | _ :: _, [] => false
  | a :: as, b :: bs => if a < b then true else if a = b then listLtB as bs else false

/-- Longest common prefix of a set of keys. -/
def lcpKeys : List (List Nat) → List Nat
  | [] => []
  | k :: t => t.foldl (fun acc k' => acc.take (sharedLen acc k')) k

/-- The entries whose key starts with nibble `i`, with that nibble
stripped. -/
def groupFor (i : Nat) (l : List (List Nat × Bytes)) : List (List Nat × Bytes) :=
  l.filterMap fun p =>
    match p.1 with
    | j :: t => if j = i then some (t, p.2) else none
    | [] => none

/-- Modelled from the spec: the canonical trie over a sorted list of
nibble-keyed entries, in fully resolved form — single entries are leaves,
a common prefix becomes an extension, otherwise a sixteen-child branch
splits on the first nibble (an empty key becomes the branch value).
`fuel` bounds the recursion (any `sumLen` bound works).  The trie as held
in a backing store is `storeN` of this tree, children inlined or
hash-addressed per the inlining rule. -/
def fromListF : Nat → List (List Nat × Bytes) → TNode
  | 0, _ => .empty
  | _ + 1, [] => .empty
  | _ + 1, [(k, v)] => .leaf k v
  | fuel + 1, l =>
    let c := lcpKeys (l.map Prod.fst)
    if c.isEmpty then
      .branch ((List.range 16).map fun i => .inline (fromListF fuel (groupFor i l)))
        (alGet l [])
    else
      .ext c (.inline (fromListF fuel (l.map fun p => (p.1.drop c.length, p.2))))

/-- The termination measure of the canonical build. -/
def sumLen (l : List (List Nat × Bytes)) : Nat :=
  (l.map fun p => p.1.length + 1).sum

/-- Valid build input: keys strictly ascending in nibble-lex order, all
nibbles below sixteen. -/
def ValidL (l : List (List Nat × Bytes)) : Prop :=
  List.Pairwise (fun p q => listLtB p.1 q.1 = true) l
  ∧ ∀ p ∈ l, ∀ x ∈ p.1, x < 16

theorem listLtB_nil_right : ∀ a : List Nat, listLtB a [] = false
  | [] => rfl
  | _ :: _ => rfl

theorem listLtB_cons_iff {a b : Nat} {as bs : List Nat} :
    listLtB (a :: as) (b :: bs) = true ↔ a < b ∨ (a = b ∧ listLtB as bs = true) := by
  simp only [listLtB]
  split_ifs with h1 h2
  · simp [h1]
  · simp [h1, h2]
  · simp [h1, h2]

theorem listLtB_asymm : ∀ a b : List Nat, listLtB a b = true → listLtB b a = false := by
  intro a
  induction a with
  | nil =>
    intro b h
    cases b with
    | nil => simp [listLtB] at h
    | cons y ys => exact listLtB_nil_right _
  | cons x xs ih =>
    intro b h
    cases b with
    | nil => rw [listLtB_nil_right] at h; exact absurd h (by simp)
    | cons y ys =>
      rw [Bool.eq_false_iff]
      intro hc
      rcases listLtB_cons_iff.mp h with h1 | ⟨h1, h2⟩ <;>
        rcases listLtB_cons_iff.mp hc with h3 | ⟨h3, h4⟩
      · omega
      · omega
      · omega
      · rw [ih ys h2] at h4; exact Bool.noConfusion h4

theorem listLtB_trans : ∀ a b c : List Nat,
    listLtB a b = true → listLtB b c = true → listLtB a c = true := by
  intro a
  induction a with
  | nil =>
    intro b c h1 h2
    cases b with
    | nil => simp [listLtB] at h1
    | cons y ys =>
      cases c with
      | nil => rw [listLtB_nil_right] at h2; exact absurd h2 (by simp)
      | cons z zs => rfl
  | cons x xs ih =>
    intro b c h1 h2
    cases b with
    | nil => rw [listLtB_nil_right] at h1; exact absurd h1 (by simp)
    | cons y ys =>
      cases c with
      | nil => rw [listLtB_nil_right] at h2; exact absurd h2 (by simp)
      | cons z zs =>
        apply listLtB_cons_iff.mpr
        rcases listLtB_cons_iff.mp h1 with ha | ⟨ha, ha2⟩ <;>
          rcases listLtB_cons_iff.mp h2 with hb | ⟨hb, hb2⟩
        · left; omega
        · left; omega
        · left; omega
        · right; exact ⟨ha.trans hb, ih ys zs ha2 hb2⟩

theorem listLtB_total : ∀ a b : List Nat, a ≠ b → listLtB a b = true ∨ listLtB b a = true := by
  intro a
  induction a with
  | nil =>
    intro b h
    cases b with
    | nil => exact absurd rfl h
    | cons y ys => exact Or.inl rfl
  | cons x xs ih =>
    intro b h
    cases b with
    | nil => exact Or.inr rfl
    | cons y ys =>
      by_cases hxy : x = y
      · subst hxy
        have hne : xs ≠ ys := by intro he; rw [he] at h; exact h rfl
        rcases ih ys hne with h1 | h1
        · exact Or.inl (listLtB_cons_iff.mpr (Or.inr ⟨rfl, h1⟩))
        · exact Or.inr (listLtB_cons_iff.mpr (Or.inr ⟨rfl, h1⟩))
      · rcases Nat.lt_or_ge x y with h1 | h1
        · exact Or.inl (listLtB_cons_iff.mpr (Or.inl h1))
        · have : y < x := by omega
          exact Or.inr (listLtB_cons_iff.mpr (Or.inl this))

theorem listLtB_append_same : ∀ c a b : List Nat, listLtB (c ++ a) (c ++ b) = listLtB a b := by
  intro c
  induction c with
  | nil => intro a b; rfl
  | cons x t ih =>
    intro a b
    simp only [List.cons_append]
    simp [listLtB]
    exact ih a b

theorem take_sharedLen_isPre : ∀ a b : List Nat, a.take (sharedLen a b) <+: b := by
  intro a
  induction a with
  | nil => intro b; simp
  | cons x xs ih =>
    intro b
    cases b with
    | nil => simp [sharedLen]
    | cons y ys =>
      by_cases h : x = y
      · subst h
        simp only [sharedLen, if_pos rfl, List.take_succ_cons]
        exact List.cons_prefix_cons.mpr ⟨rfl, ih ys⟩
      · simp [sharedLen, h]

theorem lcp_fold_isPre (t : List (List Nat)) : ∀ acc : List Nat,
    (t.foldl (fun a k => a.take (sharedLen a k)) acc) <+: acc
    ∧ ∀ k ∈ t, (t.foldl (fun a k => a.take (sharedLen a k)) acc) <+: k := by
  induction t with
  | nil => intro acc; exact ⟨List.prefix_refl _, by simp⟩
  | cons k0 t ih =>
    intro acc
    simp only [List.foldl_cons]
    obtain ⟨h1, h2⟩ := ih (acc.take (sharedLen acc k0))
    refine ⟨h1.trans (List.take_prefix _ _), ?_⟩
    intro k hk
    rcases List.mem_cons.mp hk with rfl | hk
    · exact h1.trans (take_sharedLen_isPre acc k)
    · exact h2 k hk

theorem lcpKeys_isPre : ∀ (keys : List (List Nat)), ∀ k ∈ keys, lcpKeys keys <+: k := by
  intro keys k hk
  cases keys with
  | nil => cases hk
  | cons k0 t =>
    obtain ⟨h1, h2⟩ := lcp_fold_isPre t k0
    simp only [lcpKeys]
    rcases List.mem_cons.mp hk with rfl | hk
    · exact h1
    · exact h2 k hk

/-- Sequential concatenation of per-index lists (the shape of a branch
traversal). -/
def catMaps {α : Type} (f : Nat → List α) : List Nat → List α
  | [] => []
  | i :: r => f i ++ catMaps f r

theorem catMaps_nil_of {α : Type} (f : Nat → List α) :
    ∀ r : List Nat, (∀ i ∈ r, f i = []) → catMaps f r = [] := by
  intro r
  induction r with
  | nil => intro _; rfl
  | cons i r ih =>
    intro h
    simp only [catMaps]
    rw [h i (by simp), ih (fun j hj => h j (List.mem_cons_of_mem _ hj))]
    rfl

theorem catMaps_congr_mem {α : Type} {f g : Nat → List α} :
    ∀ r : List Nat, (∀ i ∈ r, f i = g i) → catMaps f r = catMaps g r := by
  intro r
  induction r with
  | nil => intro _; rfl
  | cons i r ih =>
    intro h
    simp only [catMaps]
    rw [h i (by simp), ih (fun j hj => h j (List.mem_cons_of_mem _ hj))]

theorem map_catMaps {α β : Type} (g : α → β) (f : Nat → List α) :
    ∀ r : List Nat, (catMaps f r).map g = catMaps (fun i => (f i).map g) r := by
  intro r
  induction r with
  | nil => rfl
  | cons i r ih => simp only [catMaps, List.map_append, ih]

theorem groupFor_cons_hit (i : Nat) (t : List Nat) (v : Bytes) (l : List (List Nat × Bytes)) :
    groupFor i ((i :: t, v) :: l) = (t, v) :: groupFor i l := by
  simp [groupFor]

theorem groupFor_cons_miss {i j : Nat} (h : j ≠ i) (t : List Nat) (v : Bytes)
    (l : List (List Nat × Bytes)) :
    groupFor i ((j :: t, v) :: l) = groupFor i l := by
  simp [groupFor, h]

theorem groupFor_cons_nilkey (i : Nat) (v : Bytes) (l : List (List Nat × Bytes)) :
    groupFor i (([], v) :: l) = groupFor i l := by
  simp [groupFor]

theorem sumLen_groupFor_le (i : Nat) : ∀ l : List (List Nat × Bytes),
    sumLen (groupFor i l) + l.length ≤ sumLen l := by
  intro l
  induction l with
  | nil => simp [groupFor, sumLen]
  | cons p t ih =>
    rcases p with ⟨k, v⟩
    rcases k with _ | ⟨j, tl⟩
    · rw [groupFor_cons_nilkey]
      simp only [sumLen, List.map_cons, List.sum_cons, List.length_cons] at ih ⊢
      omega
    · by_cases hj : j = i
      · subst hj
        rw [groupFor_cons_hit]
        simp only [sumLen, List.map_cons, List.sum_cons, List.length_cons] at ih ⊢
        omega
      · rw [groupFor_cons_miss hj]
        simp only [sumLen, List.map_cons, List.sum_cons, List.length_cons] at ih ⊢
        omega

theorem mem_groupFor {i : Nat} {l : List (List Nat × Bytes)} {q : List Nat × Bytes}
    (h : q ∈ groupFor i l) : (i :: q.1, q.2) ∈ l := by
  induction l with
  | nil => cases h
  | cons p t ih =>
    rcases p with ⟨k, v⟩
    rcases k with _ | ⟨j, tl⟩
    · rw [groupFor_cons_nilkey] at h
      exact List.mem_cons_of_mem _ (ih h)
    · by_cases hj : j = i
      · subst hj
        rw [groupFor_cons_hit] at h
        rcases List.mem_cons.mp h with rfl | h
        · exact List.mem_cons_self _ _
        · exact List.mem_cons_of_mem _ (ih h)
      · rw [groupFor_cons_miss hj] at h
        exact List.mem_cons_of_mem _ (ih h)

theorem pairwise_groupFor {i : Nat} {l : List (List Nat × Bytes)}
    (h : List.Pairwise (fun p q => listLtB p.1 q.1 = true) l) :
    List.Pairwise (fun p q => listLtB p.1 q.1 = true) (groupFor i l) := by
  induction l with
  | nil => exact List.Pairwise.nil
  | cons p t ih =>
    rcases p with ⟨k, v⟩
    rcases List.pairwise_cons.mp h with ⟨hhd, htl⟩
    rcases k with _ | ⟨j, tl⟩
    · rw [groupFor_cons_nilkey]; exact ih htl
    · by_cases hj : j = i
      · subst hj
        rw [groupFor_cons_hit]
        refine List.pairwise_cons.mpr ⟨?_, ih htl⟩
        intro q hq
        have hmem := mem_groupFor hq
        have := hhd _ hmem
        rcases listLtB_cons_iff.mp this with h1 | ⟨h1, h2⟩
        · omega
        · exact h2
      · rw [groupFor_cons_miss hj]; exact ih htl

theorem validL_groupFor {i : Nat} {l : List (List Nat × Bytes)} (h : ValidL l) :
    ValidL (groupFor i l) := by
  obtain ⟨hs, hn⟩ := h
  refine ⟨pairwise_groupFor hs, ?_⟩
  intro p hp x hx
  exact hn _ (mem_groupFor hp) x (List.mem_cons_of_mem _ hx)

theorem groupFor_eq_nil {i : Nat} : ∀ {l : List (List Nat × Bytes)},
    (∀ p ∈ l, ∀ j t, p.1 = j :: t → j ≠ i) → groupFor i l = [] := by
  intro l
  induction l with
  | nil => intro _; rfl
  | cons p t ih =>
    intro h
    rcases p with ⟨k, v⟩
    rcases k with _ | ⟨j, tl⟩
    · rw [groupFor_cons_nilkey]
      exact ih fun p hp => h p (List.mem_cons_of_mem _ hp)
    · rw [groupFor_cons_miss (h _ (List.mem_cons_self _ _) j tl rfl)]
      exact ih fun p hp => h p (List.mem_cons_of_mem _ hp)

theorem sumLen_strip_le (c : List Nat) : ∀ l : List (List Nat × Bytes),
    sumLen (l.map fun p => (p.1.drop c.length, p.2)) ≤ sumLen l := by
  intro l
  induction l with
  | nil => simp [sumLen]
  | cons p t ih =>
    simp only [List.map_cons, sumLen, List.sum_cons] at ih ⊢
    have := List.length_drop c.length p.1
    omega

theorem sumLen_strip_lt {l : List (List Nat × Bytes)} {c : List Nat} (hl : l ≠ [])
    (hc : c ≠ []) (hpre : ∀ p ∈ l, c ++ p.1.drop c.length = p.1) :
    sumLen (l.map fun p => (p.1.drop c.length, p.2)) < sumLen l := by
  rcases l with _ | ⟨p, t⟩
  · exact absurd rfl hl
  have hp := hpre p (List.mem_cons_self _ _)
  have h1 : (p.1.drop c.length).length < p.1.length := by
    have h2 := congrArg List.length hp
    simp only [List.length_append] at h2
    have hcl : 0 < c.length := List.length_pos.mpr hc
    omega
  have h2 := sumLen_strip_le c t
  simp only [List.map_cons, sumLen, List.sum_cons] at h2 ⊢
  omega

theorem validL_strip {l : List (List Nat × Bytes)} {c : List Nat} (h : ValidL l)
    (hpre : ∀ p ∈ l, c ++ p.1.drop c.length = p.1) :
    ValidL (l.map fun p => (p.1.drop c.length, p.2)) := by
  obtain ⟨hs, hn⟩ := h
  constructor
  · rw [List.pairwise_map]
    refine hs.imp_of_mem ?_
    intro p q hp hq hlt
    rw [← listLtB_append_same c, hpre p hp, hpre q hq]
    exact hlt
  · intro p hp x hx
    rcases List.mem_map.mp hp with ⟨q, hq, rfl⟩
    exact hn q hq x (List.mem_of_mem_drop hx)

theorem catMaps_append {α : Type} (f : Nat → List α) :
    ∀ r1 r2 : List Nat, catMaps f (r1 ++ r2) = catMaps f r1 ++ catMaps f r2 := by
  intro r1 r2
  induction r1 with
  | nil => rfl
  | cons i r ih => simp [catMaps, ih]

/-- Splitting a sorted nonnil-key list by leading nibble and
reassembling in nibble order is the identity (keys bounded below by `s`). -/
theorem reassemble_aux : ∀ (l : List (List Nat × Bytes)) (s : Nat),
    List.Pairwise (fun p q => listLtB p.1 q.1 = true) l →
    (∀ p ∈ l, ∀ x ∈ p.1, x < 16) →
    (∀ p ∈ l, p.1 ≠ []) →
    (∀ p ∈ l, ∀ j t, p.1 = j :: t → s ≤ j) →
    catMaps (fun i => (groupFor i l).map fun p => (i :: p.1, p.2))
      (List.range' s (16 - s)) = l := by
  intro l
  induction l with
  | nil =>
    intro s _ _ _ _
    exact catMaps_nil_of _ _ fun i _ => by simp [groupFor]
  | cons p t ih =>
    intro s hs hn hne hge
    rcases p with ⟨k, v⟩
    rcases k with _ | ⟨j, tl⟩
    · exact absurd rfl (hne ([], v) (List.mem_cons_self _ _))
    have hj16 : j < 16 := hn _ (List.mem_cons_self _ _) j (by simp)
    have hsj : s ≤ j := hge _ (List.mem_cons_self _ _) j tl rfl
    rcases List.pairwise_cons.mp hs with ⟨hhd, htl⟩
    have htge : ∀ p ∈ t, ∀ j2 t2, p.1 = j2 :: t2 → j ≤ j2 := by
      intro p hp j2 t2 he
      have hlt := hhd p hp
      rw [he] at hlt
      rcases listLtB_cons_iff.mp hlt with h1 | ⟨h1, _⟩
      · omega
      · omega
    have htne : ∀ p ∈ t, p.1 ≠ [] := by
      intro p hp he
      have hlt := hhd p hp
      rw [he, listLtB_nil_right] at hlt
      exact Bool.noConfusion hlt
    have hsplit : List.range' s (16 - s) = List.range' s (j - s) ++ List.range' j (16 - j) := by
      have h1 := List.range'_append s (j - s) (16 - j) 1
      rw [Nat.one_mul] at h1
      have h2 : s + (j - s) = j := by omega
      have h3 : (16 - j) + (j - s) = 16 - s := by omega
      rw [h2, h3] at h1
      exact h1.symm
    rw [hsplit, catMaps_append]
    have hpart1 : catMaps
        (fun i => (groupFor i ((j :: tl, v) :: t)).map fun p => (i :: p.1, p.2))
        (List.range' s (j - s)) = [] := by
      apply catMaps_nil_of
      intro i hi
      have hlt : i < j := by
        have := List.mem_range'_1.mp hi
        omega
      have hnil : groupFor i ((j :: tl, v) :: t) = [] := by
        apply groupFor_eq_nil
        intro p hp j2 t2 he
        rcases List.mem_cons.mp hp with rfl | hp
        · simp only at he
          injection he with he1 _
          omega
        · have := htge p hp j2 t2 he
          omega
      rw [hnil, List.map_nil]
    rw [hpart1, List.nil_append]
    have h16j : 16 - j = (15 - j) + 1 := by omega
    rw [h16j, List.range'_succ j (15 - j) 1]
    simp only [catMaps]
    rw [groupFor_cons_hit, List.map_cons]
    have hrest : catMaps
        (fun i => (groupFor i ((j :: tl, v) :: t)).map fun p => (i :: p.1, p.2))
        (List.range' (j + 1) (15 - j))
        = catMaps (fun i => (groupFor i t).map fun p => (i :: p.1, p.2))
            (List.range' (j + 1) (15 - j)) := by
      apply catMaps_congr_mem
      intro i hi
      have hji : j ≠ i := by
        have := List.mem_range'_1.mp hi
        omega
      rw [groupFor_cons_miss hji]
    rw [hrest]
    have hih := ih j htl (fun p hp => hn p (List.mem_cons_of_mem _ hp)) htne htge
    rw [h16j, List.range'_succ j (15 - j) 1] at hih
    simp only [catMaps] at hih
    rw [List.cons_append, hih]

/-- A sorted valid list is recovered from its empty-key entry followed by
its nibble groups in ascending nibble order. -/
theorem reassemble (l : List (List Nat × Bytes))
    (hs : List.Pairwise (fun p q => listLtB p.1 q.1 = true) l)
    (hn : ∀ p ∈ l, ∀ x ∈ p.1, x < 16) :
    (match alGet l ([] : List Nat) with
      | some w => [(([] : List Nat), w)]
      | none => [])
      ++ catMaps (fun i => (groupFor i l).map fun p => (i :: p.1, p.2))
          (List.range' 0 16) = l := by
  rcases l with _ | ⟨⟨k, v⟩, t⟩
  · rw [catMaps_nil_of _ _ fun i _ => by simp [groupFor]]
    rfl
  rcases List.pairwise_cons.mp hs with ⟨hhd, htl⟩
  rcases k with _ | ⟨j, tl⟩
  · have htne : ∀ p ∈ t, p.1 ≠ [] := by
      intro p hp he
      have hlt := hhd p hp
      rw [he, listLtB_nil_right] at hlt
      exact Bool.noConfusion hlt
    have halg : (match alGet (([], v) :: t) ([] : List Nat) with
        | some w => [(([] : List Nat), w)]
        | none => []) = [(([] : List Nat), v)] := rfl
    rw [halg]
    rw [catMaps_congr_mem _ fun i _ => by rw [groupFor_cons_nilkey]]
    have hre := reassemble_aux t 0 htl (fun p hp => hn p (List.mem_cons_of_mem _ hp)) htne
      (fun _ _ _ _ _ => Nat.zero_le _)
    simp only [Nat.sub_zero] at hre
    rw [hre, List.singleton_append]
  · have htne : ∀ p ∈ t, p.1 ≠ [] := by
      intro p hp he
      have hlt := hhd p hp
      rw [he, listLtB_nil_right] at hlt
      exact Bool.noConfusion hlt
    have hkne : alGet ((j :: tl, v) :: t) ([] : List Nat) = none := by
      apply alGet_eq_none_of_not_mem
      intro hmem
      simp only [List.map_cons, List.mem_cons] at hmem
      rcases hmem with h1 | h1
      · exact List.noConfusion h1
      · rcases List.mem_map.mp h1 with ⟨q, hq, hq2⟩
        exact htne q hq hq2
    have halg : (match alGet ((j :: tl, v) :: t) ([] : List Nat) with
        | some w => [(([] : List Nat), w)]
        | none => []) = [] := by
      rw [hkne]
    rw [halg]
    have hre := reassemble_aux ((j :: tl, v) :: t) 0 hs hn
      (by
        intro p hp
        rcases List.mem_cons.mp hp with rfl | hp
        · simp
        · exact htne p hp)
      (fun _ _ _ _ _ => Nat.zero_le _)
    simp only [Nat.sub_zero] at hre
    rw [List.nil_append, hre]

theorem fromListF_cons2 (fuel : Nat) (k : List Nat) (v : Bytes) (k2 : List Nat) (v2 : Bytes)
    (t : List (List Nat × Bytes)) :
    fromListF (fuel + 1) ((k, v) :: (k2, v2) :: t)
      = if (lcpKeys (((k, v) :: (k2, v2) :: t).map Prod.fst)).isEmpty then
          .branch ((List.range 16).map fun i =>
              .inline (fromListF fuel (groupFor i ((k, v) :: (k2, v2) :: t))))
            (alGet ((k, v) :: (k2, v2) :: t) [])
        else
          .ext (lcpKeys (((k, v) :: (k2, v2) :: t).map Prod.fst))
            (.inline (fromListF fuel (((k, v) :: (k2, v2) :: t).map fun p =>
              (p.1.drop (lcpKeys (((k, v) :: (k2, v2) :: t).map Prod.fst)).length, p.2)))) :=
  rfl

theorem refsItems_range (pfx : List Nat) (g : Nat → TNode) :
    ∀ cnt s : Nat,
      refsItems pfx s ((List.range' s cnt).map fun i => .inline (g i))
        = catMaps (fun i => nodeItems (pfx ++ [i]) (g i)) (List.range' s cnt) := by
  intro cnt
  induction cnt with
  | zero => intro s; rfl
  | succ cnt ih =>
    intro s
    rw [List.range'_succ s cnt 1]
    simp only [List.map_cons, catMaps, refsItems, refItems]
    rw [ih (s + 1)]

/-- The canonical build always yields a well-formed (fully inline) node. -/
theorem fromListF_wf : ∀ (fuel : Nat) (l : List (List Nat × Bytes)), WfN (fromListF fuel l) := by
  intro fuel
  induction fuel with
  | zero => intro l; exact WfN.empty
  | succ fuel ih =>
    intro l
    rcases l with _ | ⟨⟨k, v⟩, _ | ⟨⟨k2, v2⟩, t⟩⟩
    · exact WfN.empty
    · exact WfN.leaf k v
    · rw [fromListF_cons2]
      by_cases hc : (lcpKeys (((k, v) :: (k2, v2) :: t).map Prod.fst)).isEmpty
      · rw [if_pos hc]
        refine WfN.branch _ _ (by simp) ?_
        intro r hr
        rcases List.mem_map.mp hr with ⟨i, _, rfl⟩
        exact WfR.inline _ (ih _)
      · rw [if_neg hc]
        exact WfN.ext _ _ (WfR.inline _ (ih _))

/-- The canonical build of a sorted valid list holds exactly that list, in
order, below any prefix. -/
theorem fromListF_items : ∀ (fuel : Nat) (l : List (List Nat × Bytes)) (pfx : List Nat),
    sumLen l < fuel → ValidL l →
    nodeItems pfx (fromListF fuel l) = l.map fun p => (pfx ++ p.1, p.2) := by
  intro fuel
  induction fuel with
  | zero => intro l pfx h _; exact absurd h (Nat.not_lt_zero _)
  | succ fuel ih =>
    intro l pfx hfl hv
    rcases l with _ | ⟨⟨k, v⟩, _ | ⟨⟨k2, v2⟩, t⟩⟩
    · simp [fromListF, nodeItems]
    · simp [fromListF, nodeItems]
    obtain ⟨hsort, hnib⟩ := hv
    have hpre : ∀ p ∈ (k, v) :: (k2, v2) :: t,
        lcpKeys (((k, v) :: (k2, v2) :: t).map Prod.fst)
          ++ p.1.drop (lcpKeys (((k, v) :: (k2, v2) :: t).map Prod.fst)).length = p.1 := by
      intro p hp
      obtain ⟨r, hr⟩ := lcpKeys_isPre (((k, v) :: (k2, v2) :: t).map Prod.fst) p.1
        (List.mem_map_of_mem _ hp)
      rw [← hr, List.drop_left]
    have hsum : sumLen ((k, v) :: (k2, v2) :: t) ≤ fuel := by omega
    rw [fromListF_cons2]
    by_cases hc : (lcpKeys (((k, v) :: (k2, v2) :: t).map Prod.fst)).isEmpty
    · rw [if_pos hc]
      simp only [nodeItems]
      rw [List.range_eq_range']
      rw [refsItems_range pfx (fun i => fromListF fuel (groupFor i ((k, v) :: (k2, v2) :: t))) 16 0]
      have hstep : ∀ i ∈ List.range' 0 16,
          nodeItems (pfx ++ [i]) (fromListF fuel (groupFor i ((k, v) :: (k2, v2) :: t)))
            = (groupFor i ((k, v) :: (k2, v2) :: t)).map fun p => (pfx ++ i :: p.1, p.2) := by
        intro i _
        have hfu : sumLen (groupFor i ((k, v) :: (k2, v2) :: t)) < fuel := by
          have h1 := sumLen_groupFor_le i ((k, v) :: (k2, v2) :: t)
          simp only [List.length_cons] at h1
          omega
        rw [ih _ (pfx ++ [i]) hfu (validL_groupFor ⟨hsort, hnib⟩)]
        apply List.map_congr_left
        intro p _
        rw [List.append_assoc]
        rfl
      rw [catMaps_congr_mem _ hstep]
      have hre := congrArg (List.map fun p : List Nat × Bytes => (pfx ++ p.1, p.2))
        (reassemble ((k, v) :: (k2, v2) :: t) hsort hnib)
      rw [List.map_append, map_catMaps] at hre
      have hinner : ∀ i : Nat,
          ((groupFor i ((k, v) :: (k2, v2) :: t)).map fun p : List Nat × Bytes =>
              (i :: p.1, p.2)).map (fun p : List Nat × Bytes => (pfx ++ p.1, p.2))
            = (groupFor i ((k, v) :: (k2, v2) :: t)).map fun p => (pfx ++ i :: p.1, p.2) := by
        intro i
        rw [List.map_map]
        rfl
      rw [catMaps_congr_mem _ fun i _ => hinner i] at hre
      rcases halg : alGet ((k, v) :: (k2, v2) :: t) ([] : List Nat) with _ | w
      · rw [halg] at hre
        simp only [List.map_nil, List.nil_append] at hre
        simpa using hre
      · rw [halg] at hre
        simp only [List.map_cons, List.map_nil, List.append_nil,
          List.singleton_append] at hre
        simp only [List.map_cons, List.singleton_append]
        exact hre
    · rw [if_neg hc]
      have hcne : lcpKeys (((k, v) :: (k2, v2) :: t).map Prod.fst) ≠ [] := by
        intro h0
        rw [h0] at hc
        exact hc rfl
      simp only [nodeItems, refItems]
      rw [ih _ (pfx ++ lcpKeys (((k, v) :: (k2, v2) :: t).map Prod.fst))
        (by
          have := sumLen_strip_lt (l := (k, v) :: (k2, v2) :: t) (by simp) hcne hpre
          omega)
        (validL_strip ⟨hsort, hnib⟩ hpre)]
      rw [List.map_map]
      apply List.map_congr_left
      intro p hp
      have hp2 := hpre p hp
      simp only [Function.comp]
      rw [List.append_assoc, hp2]

/-! ## Key/value operation sequences and the resulting map -/

/-- A trie mutation: `TrieDBMut::insert` or `TrieDBMut::remove`. -/
inductive TrieOp where
  | put (key : Bytes) (val : Bytes)
  | del (key : Bytes)
deriving DecidableEq, Repr

/-- The key an operation touches. -/
def opKey : TrieOp → Bytes
  | .put k _ => k
  | .del k => k

/-- Effect of one operation on the key/value map. -/
def applyOp (m : List (Bytes × Bytes)) : TrieOp → List (Bytes × Bytes)
  | .put k v => alSet m k v
  | .del k => alRemove m k

/-- The map left by a sequence of operations. -/
def finalMap (ops : List TrieOp) : List (Bytes × Bytes) :=
  ops.foldl applyOp []

/-- The last value written to `k` by `ops` (`none` if never written, or
removed afterwards). -/
def lastWrite (ops : List TrieOp) (k : Bytes) : Option Bytes :=
  ops.foldl
    (fun acc op =>
      match op with
      | .put k2 v => if k2 = k then some v else acc
      | .del k2 => if k2 = k then none else acc)
    none

theorem foldl_applyOp_get : ∀ (ops : List TrieOp) (m : List (Bytes × Bytes)) (k : Bytes),
    alGet (ops.foldl applyOp m) k
      = ops.foldl
          (fun acc op =>
            match op with
            | .put k2 v => if k2 = k then some v else acc
            | .del k2 => if k2 = k then none else acc)
          (alGet m k) := by
  intro ops
  induction ops with
  | nil => intro m k; rfl
  | cons op t ih =>
    intro m k
    simp only [List.foldl_cons]
    rw [ih]
    rcases op with ⟨k2, v⟩ | k2
    · simp only [applyOp]
      rw [alGet_set]
    · simp only [applyOp]
      rw [alGet_remove]

/-- The final map reads back exactly the last write per key. -/
theorem finalMap_get (ops : List TrieOp) (k : Bytes) :
    alGet (finalMap ops) k = lastWrite ops k := by
  rw [finalMap, foldl_applyOp_get]
  rfl

theorem mem_alSet {κ α : Type} [DecidableEq κ] {p : κ × α} {k : κ} {v : α} :
    ∀ {l : List (κ × α)}, p ∈ alSet l k v → p = (k, v) ∨ p ∈ l := by
  intro l
  induction l with
  | nil => intro h; simpa [alSet] using h
  | cons q t ih =>
    intro h
    rcases q with ⟨qk, qv⟩
    by_cases hq : qk = k
    · subst hq
      rw [alSet, if_pos rfl] at h
      rcases List.mem_cons.mp h with rfl | h
      · exact Or.inl rfl
      · exact Or.inr (List.mem_cons_of_mem _ h)
    · rw [alSet, if_neg hq] at h
      rcases List.mem_cons.mp h with rfl | h
      · exact Or.inr (List.mem_cons_self _ _)
      · rcases ih h with h1 | h1
        · exact Or.inl h1
        · exact Or.inr (List.mem_cons_of_mem _ h1)

theorem keys_nodup_remove {κ α : Type} [DecidableEq κ] (l : List (κ × α)) (k : κ)
    (h : (l.map Prod.fst).Nodup) : ((alRemove l k).map Prod.fst).Nodup := by
  have hsub : alRemove l k |>.Sublist l := List.filter_sublist l
  exact (hsub.map Prod.fst).nodup h

/-- Every key in the final map is the key of some operation. -/
theorem finalMap_key_sound (P : Bytes → Prop) :
    ∀ (ops : List TrieOp) (m : List (Bytes × Bytes)),
    (∀ p ∈ m, P p.1) → (∀ op ∈ ops, P (opKey op)) →
    ∀ p ∈ ops.foldl applyOp m, P p.1 := by
  intro ops
  induction ops with
  | nil => intro m hm _ p hp; exact hm p hp
  | cons op t ih =>
    intro m hm hops p hp
    simp only [List.foldl_cons] at hp
    refine ih (applyOp m op) ?_ (fun o ho => hops o (List.mem_cons_of_mem _ ho)) p hp
    intro q hq
    rcases op with ⟨k2, v⟩ | k2
    · rcases mem_alSet hq with rfl | hq
      · exact hops _ (List.mem_cons_self _ _)
      · exact hm q hq
    · exact hm q (List.mem_of_mem_filter hq)

/-- The final map never repeats a key. -/
theorem finalMap_keys_nodup (ops : List TrieOp) :
    ((finalMap ops).map Prod.fst).Nodup := by
  rw [finalMap]
  have h : ∀ (os : List TrieOp) (m : List (Bytes × Bytes)),
      (m.map Prod.fst).Nodup → ((os.foldl applyOp m).map Prod.fst).Nodup := by
    intro os
    induction os with
    | nil => intro m hm; exact hm
    | cons op t ih =>
      intro m hm
      simp only [List.foldl_cons]
      refine ih _ ?_
      rcases op with ⟨k2, v⟩ | k2
      · exact keys_nodup_set m k2 v hm
      · exact keys_nodup_remove m k2 hm
  exact h ops [] List.nodup_nil

theorem alGet_isSome_of_mem_keys {κ α : Type} [DecidableEq κ] :
    ∀ {l : List (κ × α)} {k : κ}, k ∈ l.map Prod.fst → (alGet l k).isSome := by
  intro l
  induction l with
  | nil => intro k h; cases h
  | cons p t ih =>
    intro k h
    rcases p with ⟨pk, pv⟩
    by_cases hp : pk = k
    · simp [alGet, hp]
    · simp only [alGet, if_neg hp]
      apply ih
      simp only [List.map_cons, List.mem_cons] at h
      rcases h with rfl | h
      · exact absurd rfl hp
      · exact h

theorem alGet_eq_some_iff_mem {κ α : Type} [DecidableEq κ] :
    ∀ {l : List (κ × α)}, (l.map Prod.fst).Nodup → ∀ {k : κ} {v : α},
      (alGet l k = some v ↔ (k, v) ∈ l) := by
  intro l
  induction l with
  | nil => intro _ k v; simp [alGet]
  | cons p t ih =>
    intro hn k v
    rcases p with ⟨pk, pv⟩
    simp only [List.map_cons, List.nodup_cons] at hn
    by_cases hp : pk = k
    · subst hp
      have hget : alGet ((pk, pv) :: t) pk = some pv := by simp [alGet]
      rw [hget]
      constructor
      · intro h
        injection h with h2
        subst h2
        exact List.mem_cons_self _ _
      · intro h
        rcases List.mem_cons.mp h with h1 | h1
        · injection h1 with _ h2
          rw [h2]
        · exact absurd (List.mem_map_of_mem Prod.fst h1) hn.1
    · simp only [alGet, if_neg hp, List.mem_cons, Prod.mk.injEq]
      rw [ih hn.2]
      constructor
      · exact Or.inr
      · intro h
        rcases h with ⟨h1, _⟩ | h
        · exact absurd h1.symm hp
        · exact h

/-- Lookup agrees on any two permuted duplicate-key-free association
lists. -/
theorem alGet_eq_of_perm {l1 l2 : List (Bytes × Bytes)} (hp : List.Perm l1 l2)
    (hn : (l1.map Prod.fst).Nodup) (k : Bytes) : alGet l1 k = alGet l2 k := by
  have hn2 : (l2.map Prod.fst).Nodup := ((hp.map Prod.fst).nodup_iff).mp hn
  rcases h1 : alGet l1 k with _ | v
  · have hk : k ∉ l1.map Prod.fst := by
      intro hmem
      have := alGet_isSome_of_mem_keys hmem
      rw [h1] at this
      exact Bool.noConfusion this
    have hk2 : k ∉ l2.map Prod.fst := fun hmem =>
      hk (((hp.map Prod.fst).mem_iff).mpr hmem)
    rw [alGet_eq_none_of_not_mem l2 k hk2]
  · have hm : (k, v) ∈ l1 := (alGet_eq_some_iff_mem hn).mp h1
    exact ((alGet_eq_some_iff_mem hn2).mpr (hp.mem_iff.mp hm)).symm

/-! ## Sorting the final map by key -/

/-- Ordered insertion by strictly-less key comparison. -/
def insPair (p : Bytes × Bytes) : List (Bytes × Bytes) → List (Bytes × Bytes)
  | [] => [p]
  | q :: t => if listLtB p.1 q.1 then p :: q :: t else q :: insPair p t

/-- Insertion sort of key/value pairs by byte-lexicographic key order. -/
def sortPairs (l : List (Bytes × Bytes)) : List (Bytes × Bytes) :=
  l.foldr insPair []

theorem insPair_perm (p : Bytes × Bytes) :
    ∀ l : List (Bytes × Bytes), List.Perm (insPair p l) (p :: l) := by
  intro l
  induction l with
  | nil => exact List.Perm.refl _
  | cons q t ih =>
    rw [insPair]
    by_cases h : listLtB p.1 q.1
    · rw [if_pos h]
    · rw [if_neg h]
      exact (ih.cons q).trans (List.Perm.swap p q t)

theorem sortPairs_perm : ∀ l : List (Bytes × Bytes), List.Perm (sortPairs l) l := by
  intro l
  induction l with
  | nil => exact List.Perm.refl _
  | cons p t ih => exact (insPair_perm p (t.foldr insPair [])).trans (ih.cons p)

theorem insPair_sorted (p : Bytes × Bytes) :
    ∀ l : List (Bytes × Bytes),
      List.Pairwise (fun a b => listLtB b.1 a.1 = false) l →
      List.Pairwise (fun a b => listLtB b.1 a.1 = false) (insPair p l) := by
  intro l
  induction l with
  | nil => intro _; simp [insPair]
  | cons q t ih =>
    intro h
    rcases List.pairwise_cons.mp h with ⟨hhd, htl⟩
    rw [insPair]
    by_cases hlt : listLtB p.1 q.1
    · rw [if_pos hlt]
      refine List.pairwise_cons.mpr ⟨?_, h⟩
      intro r hr
      rcases List.mem_cons.mp hr with rfl | hr
      · exact listLtB_asymm _ _ hlt
      · rcases hb : listLtB r.1 p.1 with _ | _
        · rfl
        · have := listLtB_trans _ _ _ hb hlt
          rw [hhd r hr] at this
          exact Bool.noConfusion this
    · rw [if_neg hlt]
      refine List.pairwise_cons.mpr ⟨?_, ih htl⟩
      intro r hr
      rcases List.mem_cons.mp ((insPair_perm p t).mem_iff.mp hr) with rfl | hr
      · exact Bool.eq_false_iff.mpr hlt
      · exact hhd r hr

theorem sortPairs_sorted : ∀ l : List (Bytes × Bytes),
    List.Pairwise (fun a b => listLtB b.1 a.1 = false) (sortPairs l) := by
  intro l
  induction l with
  | nil => exact List.Pairwise.nil
  | cons p t ih => exact insPair_sorted p _ ih

/-- On a duplicate-key-free list, insertion sort yields strictly
ascending keys. -/
theorem sortPairs_strict {l : List (Bytes × Bytes)} (hn : (l.map Prod.fst).Nodup) :
    List.Pairwise (fun p q => listLtB p.1 q.1 = true) (sortPairs l) := by
  have hs := sortPairs_sorted l
  have hn2 : ((sortPairs l).map Prod.fst).Nodup :=
    (((sortPairs_perm l).map Prod.fst).nodup_iff).mpr hn
  have hne : List.Pairwise (fun p q : Bytes × Bytes => p.1 ≠ q.1) (sortPairs l) :=
    List.pairwise_map.mp hn2
  refine (hs.and hne).imp ?_
  intro p q h
  rcases listLtB_total p.1 q.1 h.2 with h1 | h1
  · exact h1
  · rw [h.1] at h1
    exact Bool.noConfusion h1

/-! ## Byte keys as nibble paths -/

/-- A byte key as its nibble path (high nibble first), the inverse of the
iterator's `nibsToBytes` collapse. -/
def nibsOfBytes : Bytes → List Nat
  | [] => []
  | b :: t => b / 16 :: b % 16 :: nibsOfBytes t

theorem nibsToBytes_nibsOfBytes : ∀ k : Bytes, nibsToBytes (nibsOfBytes k) = k := by
  intro k
  induction k with
  | nil => rfl
  | cons b t ih =>
    simp only [nibsOfBytes, nibsToBytes]
    rw [ih]
    congr 1
    omega

theorem listLtB_nibs : ∀ a b : Bytes,
    listLtB a b = true → listLtB (nibsOfBytes a) (nibsOfBytes b) = true := by
  intro a
  induction a with
  | nil =>
    intro b h
    cases b with
    | nil => simp [listLtB] at h
    | cons y ys => rfl
  | cons x xs ih =>
    intro b h
    cases b with
    | nil => rw [listLtB_nil_right] at h; exact absurd h (by simp)
    | cons y ys =>
      rcases listLtB_cons_iff.mp h with h1 | ⟨h1, h2⟩
      · simp only [nibsOfBytes]
        apply listLtB_cons_iff.mpr
        by_cases hd : x / 16 = y / 16
        · right
          refine ⟨hd, listLtB_cons_iff.mpr (Or.inl ?_)⟩
          omega
        · left
          omega
      · subst h1
        simp only [nibsOfBytes]
        exact listLtB_cons_iff.mpr (Or.inr ⟨rfl,
          listLtB_cons_iff.mpr (Or.inr ⟨rfl, ih ys h2⟩)⟩)

theorem nibsOfBytes_lt16 : ∀ k : Bytes, (∀ b ∈ k, b < 256) → ∀ x ∈ nibsOfBytes k, x < 16 := by
  intro k
  induction k with
  | nil => intro _ x hx; cases hx
  | cons b t ih =>
    intro h x hx
    have hb : b < 256 := h b (List.mem_cons_self _ _)
    simp only [nibsOfBytes, List.mem_cons] at hx
    rcases hx with rfl | rfl | hx
    · omega
    · omega
    · exact ih (fun c hc => h c (List.mem_cons_of_mem _ hc)) x hx

/-- The nibble-keyed image of a byte-keyed list. -/
def toNib (l : List (Bytes × Bytes)) : List (List Nat × Bytes) :=
  l.map fun p => (nibsOfBytes p.1, p.2)

/-- The canonical fully resolved trie holding the map left by an
operation sequence. -/
def pureTrieOf (ops : List TrieOp) : TNode :=
  fromListF (sumLen (toNib (sortPairs (finalMap ops))) + 1)
    (toNib (sortPairs (finalMap ops)))

/-- The stored root node of that trie: children inlined or hash-addressed
per the inlining rule. -/
def trieOf (ops : List TrieOp) : TNode := storeN (pureTrieOf ops)

/-- **C5**: for any sequence of inserts and removes over byte keys,
iterating the resulting trie from its stored root — children inlined or
hash-addressed per the inlining rule, with the hash-addressed descendants
resolved through the backing store — yields all key/value pairs in
strictly ascending byte-lexicographic key order; each key carries the
last value inserted for it and a key whose last operation was a remove is
absent. -/
theorem c5_iterate_ascending_last_writes (ops : List TrieOp) (db : HashDB) (root : Nat)
    (hkeys : ∀ op ∈ ops, ∀ b ∈ opKey op, b < 256)
    (hdb : db root = some (.node (trieOf ops)))
    (hcov : covN db (pureTrieOf ops))
    (fuel : Nat) (hfuel : nodeWeight (pureTrieOf ops) + 1 < fuel) :
    (iterInit db root).bind (iterAll db fuel) = .ok (sortPairs (finalMap ops))
    ∧ List.Pairwise (fun p q => listLtB p.1 q.1 = true) (sortPairs (finalMap ops))
    ∧ (∀ k : Bytes, alGet (sortPairs (finalMap ops)) k = lastWrite ops k)
    ∧ (∀ p : Bytes × Bytes, p ∈ sortPairs (finalMap ops) ↔ lastWrite ops p.1 = some p.2) := by
  have hbytes : ∀ p ∈ sortPairs (finalMap ops), ∀ b ∈ p.1, b < 256 := by
    intro p hp
    have hp2 : p ∈ finalMap ops := (sortPairs_perm _).mem_iff.mp hp
    exact finalMap_key_sound (fun k => ∀ b ∈ k, b < 256) ops [] (by simp) hkeys p hp2
  have hstrict : List.Pairwise (fun p q => listLtB p.1 q.1 = true)
      (sortPairs (finalMap ops)) := sortPairs_strict (finalMap_keys_nodup ops)
  have hnL : ((sortPairs (finalMap ops)).map Prod.fst).Nodup :=
    (((sortPairs_perm (finalMap ops)).map Prod.fst).nodup_iff).mpr (finalMap_keys_nodup ops)
  have hvalid : ValidL (toNib (sortPairs (finalMap ops))) := by
    constructor
    · rw [toNib, List.pairwise_map]
      exact hstrict.imp fun h => listLtB_nibs _ _ h
    · intro p hp x hx
      rcases List.mem_map.mp hp with ⟨q, hq, rfl⟩
      exact nibsOfBytes_lt16 q.1 (hbytes q hq) x hx
  have hitems : nodeItems [] (pureTrieOf ops) = toNib (sortPairs (finalMap ops)) := by
    rw [pureTrieOf, fromListF_items _ _ _ (Nat.lt_succ_self _) hvalid]
    simp
  have hget : ∀ k : Bytes, alGet (sortPairs (finalMap ops)) k = lastWrite ops k := by
    intro k
    rw [alGet_eq_of_perm (sortPairs_perm (finalMap ops)) hnL k]
    exact finalMap_get ops k
  refine ⟨?_, hstrict, hget, ?_⟩
  · rw [iterate_stored_trie db root (pureTrieOf ops) hdb (fromListF_wf _ _) hcov
      fuel hfuel, hitems, toNib, List.map_map]
    have hcong : (sortPairs (finalMap ops)).map
        ((fun p : List Nat × Bytes => (nibsToBytes p.1, p.2))
          ∘ fun p : Bytes × Bytes => (nibsOfBytes p.1, p.2))
        = (sortPairs (finalMap ops)).map id := by
      apply List.map_congr_left
      intro p _
      simp only [Function.comp, id]
      rw [nibsToBytes_nibsOfBytes]
    rw [hcong, List.map_id]
  · intro p
    have hiff := alGet_eq_some_iff_mem (l := sortPairs (finalMap ops)) hnL
      (k := p.1) (v := p.2)
    rw [hget p.1] at hiff
    exact hiff.symm

mutual
/-- The hash-addressed entries the stored form of a tree deposits in the
backing store: for each child whose stored encoding is at least 32 bytes,
the pair of that encoding's hash and the stored node, recursively. -/
def subDbN : TNode → List (Nat × TNode)
  | .ext _ c => subDbR c
  | .branch cs _ => subDbRs cs
  | _ => []
/-- Store entries contributed by one child. -/
def subDbR : TRef → List (Nat × TNode)
  | .inline n =>
    (if (encodeNode (storeN n)).length < 32 then []
     else [(hashNode (storeN n), storeN n)]) ++ subDbN n
  | .hash _ => []
/-- Store entries contributed by a branch's children. -/
def subDbRs : List TRef → List (Nat × TNode)
  | [] => []
  | c :: t => subDbR c ++ subDbRs t
end

mutual
/-- A store holding every entry of `subDbN` covers the tree. -/
theorem covN_of_entries {db : HashDB} : ∀ n : TNode,
    (∀ p ∈ subDbN n, db p.1 = some (.node p.2)) → covN db n
  | .empty, _ => trivial
  | .leaf _ _, _ => trivial
  | .ext _ c, h => covR_of_entries c h
  | .branch cs _, h => covRs_of_entries cs h
/-- A store holding every entry of `subDbR` covers the child. -/
theorem covR_of_entries {db : HashDB} : ∀ c : TRef,
    (∀ p ∈ subDbR c, db p.1 = some (.node p.2)) → covR db c
  | .inline n, h =>
    ⟨covN_of_entries n fun p hp => h p (List.mem_append_right _ hp),
     if hsm : (encodeNode (storeN n)).length < 32 then Or.inl hsm
     else Or.inr (h (hashNode (storeN n), storeN n)
       (List.mem_append_left _ (by simp [hsm])))⟩
  | .hash _, _ => trivial
/-- A store holding every entry of `subDbRs` covers the children. -/
theorem covRs_of_entries {db : HashDB} : ∀ cs : List TRef,
    (∀ p ∈ subDbRs cs, db p.1 = some (.node p.2)) → covRs db cs
  | [], _ => trivial
  | c :: t, h =>
    ⟨covR_of_entries c fun p hp => h p (List.mem_append_left _ hp),
     covRs_of_entries t fun p hp => h p (List.mem_append_right _ hp)⟩
end

/-- A store made of exactly the tree's hash-addressed entries plus a
fresh root key covers the tree. -/
theorem cov_of_fresh_root (T : TNode) (root : Nat) (rootVal : Option HashDBVal)
    (hfresh : root ∉ (subDbN T).map Prod.fst)
    (hnodup : ((subDbN T).map Prod.fst).Nodup) :
    covN (fun h => if h = root then rootVal
      else (alGet (subDbN T) h).map HashDBVal.node) T := by
  apply covN_of_entries
  intro p hp
  have hkey : p.1 ∈ (subDbN T).map Prod.fst := List.mem_map_of_mem _ hp
  have hne : p.1 ≠ root := by
    intro he
    rw [he] at hkey
    exact hfresh hkey
  show (if p.1 = root then rootVal else (alGet (subDbN T) p.1).map HashDBVal.node)
      = some (.node p.2)
  have hget : alGet (subDbN T) p.1 = some p.2 :=
    (alGet_eq_some_iff_mem hnodup).mpr hp
  rw [if_neg hne, hget]
  rfl

def wOps : List TrieOp :=
  [.put [65] (List.replicate 30 7), .put [80] [8], .put [65] (List.replicate 30 9),
   .del [80], .put [66] [5]]

/-- A backing store holding the stored root of `wOps`'s trie under its
root hash plus every hash-addressed descendant (here: the oversized leaf
of key `[65]` and the branch holding it, both resolved during
iteration). -/
def wDb5 : HashDB := fun h =>
  if h = hashNode (trieOf wOps) then some (.node (trieOf wOps))
  else (alGet (subDbN (pureTrieOf wOps)) h).map HashDBVal.node

set_option maxRecDepth 8192 in
/-- Witness for C5 at a concrete operation sequence (overwrite of key
`[65]` with a 30-byte value, removal of key `[80]`) whose stored trie
hash-addresses two nodes, both resolved through the store while
iterating. -/
theorem c5_iterate_ascending_last_writes_witness :
    (∀ op ∈ wOps, ∀ b ∈ opKey op, b < 256)
    ∧ wDb5 (hashNode (trieOf wOps)) = some (.node (trieOf wOps))
    ∧ covN wDb5 (pureTrieOf wOps)
    ∧ nodeWeight (pureTrieOf wOps) + 1 < nodeWeight (pureTrieOf wOps) + 2
    ∧ ((iterInit wDb5 (hashNode (trieOf wOps))).bind
          (iterAll wDb5 (nodeWeight (pureTrieOf wOps) + 2))
        = .ok (sortPairs (finalMap wOps))
      ∧ List.Pairwise (fun p q => listLtB p.1 q.1 = true) (sortPairs (finalMap wOps))
      ∧ (∀ k : Bytes, alGet (sortPairs (finalMap wOps)) k = lastWrite wOps k)
      ∧ (∀ p : Bytes × Bytes,
          p ∈ sortPairs (finalMap wOps) ↔ lastWrite wOps p.1 = some p.2)) :=
  ⟨by decide, rfl,
    cov_of_fresh_root (pureTrieOf wOps) (hashNode (trieOf wOps))
      (some (.node (trieOf wOps))) (by decide) (by decide),
    by omega,
    c5_iterate_ascending_last_writes wOps wDb5 (hashNode (trieOf wOps)) (by decide) rfl
      (cov_of_fresh_root (pureTrieOf wOps) (hashNode (trieOf wOps))
        (some (.node (trieOf wOps))) (by decide) (by decide))
      _ (by omega)⟩

end Parity
